import Mathlib

/-!
# Swap-Laboratories proxy: configuration sync, status reconciliation, event buffer

A shallow embedding of `proxy/config_runtime_sync.go` and of the status and
event-stream parts of `proxy/proxymanager_api.go`, with the properties of the
specification stated and proved over it.

Conventions of the embedding:

* a Go `map[string]V` is an association list `List (String × V)`; the order of
  the list stands for one order in which `range` may traverse the map, and a
  well-formed map has pairwise distinct keys;
* a pointer `*ProcessGroup` is an index into an object store (`heap`), so that
  object identity is equality of references;
* calls that leave the process (HTTP probes, `json.Marshal`, the scheduler's
  choice inside `select`) are explicit arguments.
-/

namespace SwapLab

/-! ## Go maps -/

/-- Map lookup `m[k]` with the comma-ok result folded into an `Option`. -/
def mapGet {V : Type} : List (String × V) → String → Option V
  | [], _ => none
  | (k, v) :: rest, key => if k = key then some v else mapGet rest key

/-- Map assignment `m[k] = v`: overwrite the entry of an existing key, or add a new entry. -/
def mapSet {V : Type} : List (String × V) → String → V → List (String × V)
  | [], key, val => [(key, val)]
  | (k, v) :: rest, key, val =>
      if k = key then (k, val) :: rest else (k, v) :: mapSet rest key val

/-- The keys of a map, in traversal order. -/
def mapKeys {V : Type} (m : List (String × V)) : List String := m.map Prod.fst

/-- The values of a map, in traversal order. -/
def mapVals {V : Type} (m : List (String × V)) : List V := m.map Prod.snd

/-! ## Configuration snapshot (package `config`) -/

/-- Modelled from the spec: a value stored in the "arbitrary metadata map" of a
model (`map[string]any`); the scalar YAML values are kept, composite values are
not part of the model. -/
inductive MetaValue where
  | null
  | bool (b : Bool)
  | num (n : Int)
  | str (s : String)
deriving DecidableEq, Repr

/-- Modelled from the spec: `config.ModelConfig` with the fields the spec lists
(command, upstream proxy URL, display name, description, `Unlisted` flag,
`UseModelName` alias, metadata map), which are also the fields the sources under
`proxy/` read. `Metadata = none` is the nil map. -/
structure ModelConfig where
  Cmd : String
  Proxy : String
  Name : String
  Description : String
  Unlisted : Bool
  UseModelName : String
  Metadata : Option (List (String × MetaValue))
deriving DecidableEq, Repr

/-- Modelled from the spec: `config.GroupConfig`, an ordered member list and
three booleans. -/
structure GroupConfig where
  Swap : Bool
  Exclusive : Bool
  Persistent : Bool
  Members : List String
deriving DecidableEq, Repr

/-- Modelled from the spec: `config.Config`, the model table and the group table. -/
structure Config where
  Models : List (String × ModelConfig)
  Groups : List (String × GroupConfig)
deriving DecidableEq, Repr

/-- The zero value `ModelConfig{}`. -/
def ModelConfig.zero : ModelConfig :=
  { Cmd := "", Proxy := "", Name := "", Description := "", Unlisted := false,
    UseModelName := "", Metadata := none }

/-- The zero value `GroupConfig{}`, which indexing a map with an absent key yields. -/
def GroupConfig.zero : GroupConfig :=
  { Swap := false, Exclusive := false, Persistent := false, Members := [] }

/-- Modelled from the spec: `Config.RealModelName(name) → (id, found)`, which
"normalises to the primary ID". A primary ID resolves to itself; otherwise the
name resolves to the first model that declares it as its (non-empty)
`UseModelName` alias; otherwise it is not found. -/
def Config.RealModelName (c : Config) (search : String) : String × Bool :=
  match mapGet c.Models search with
  | some _ => (search, true)
  | none =>
    match c.Models.find? (fun kv => decide (search ≠ "" ∧ kv.2.UseModelName = search)) with
    | some kv => (kv.1, true)
    | none => ("", false)

/-- Modelled from the spec: `Config.FindConfig(name) → (ModelConfig, resolvedName,
found)`, which "accepts both primary ID and UseModelName alias". An unknown name
yields the zero values. -/
def Config.FindConfig (c : Config) (modelName : String) : ModelConfig × String × Bool :=
  match c.RealModelName modelName with
  | (realName, true) => ((mapGet c.Models realName).getD ModelConfig.zero, realName, true)
  | (_, false) => (ModelConfig.zero, "", false)

/-! ## `reflect.DeepEqual` on `ModelConfig` -/

/-- The map case of `reflect.DeepEqual`: both nil or both non-nil, equal length,
and every key of the first map is bound in the second to an equal value. -/
def deepEqualMetadata :
    Option (List (String × MetaValue)) → Option (List (String × MetaValue)) → Bool
  | none, none => true
  | some a, some b =>
      decide (a.length = b.length) && a.all (fun kv => decide (mapGet b kv.1 = some kv.2))
  | _, _ => false

/-- The struct case of `reflect.DeepEqual` at type `ModelConfig`: field by field. -/
def reflectDeepEqual (a b : ModelConfig) : Bool :=
  decide (a.Cmd = b.Cmd) && decide (a.Proxy = b.Proxy) && decide (a.Name = b.Name) &&
  decide (a.Description = b.Description) && decide (a.Unlisted = b.Unlisted) &&
  decide (a.UseModelName = b.UseModelName) && deepEqualMetadata a.Metadata b.Metadata

/-! ## `runtimeGroupCompatible` (config_runtime_sync.go, lines 54-86) -/

/-- The body of the loop `for _, member := range newGroup.Members`: `false` as
soon as one member differs between the two configs. -/
def membersCompatible (oldConfig newConfig : Config) : List String → Bool
  | [] => true
  | member :: rest =>
      let (oldModelCfg, oldResolvedName, okOld) := oldConfig.FindConfig member
      let (newModelCfg, newResolvedName, okNew) := newConfig.FindConfig member
      if okOld ≠ okNew ∨ oldResolvedName ≠ newResolvedName then false
      else if !reflectDeepEqual oldModelCfg newModelCfg then false
      else membersCompatible oldConfig newConfig rest

/-- The function `runtimeGroupCompatible(oldConfig, newConfig, groupID)`. -/
def runtimeGroupCompatible (oldConfig newConfig : Config) (groupID : String) : Bool :=
  match mapGet oldConfig.Groups groupID with
  | none => false
  | some oldGroup =>
    match mapGet newConfig.Groups groupID with
    | none => false
    | some newGroup =>
      if oldGroup.Swap ≠ newGroup.Swap ∨ oldGroup.Exclusive ≠ newGroup.Exclusive ∨
          oldGroup.Persistent ≠ newGroup.Persistent then false
      else if ¬ (oldGroup.Members = newGroup.Members) then false
      else membersCompatible oldConfig newConfig newGroup.Members

/-- The Config invariant of the spec: every member listed in a group exists in `Models`. -/
def Config.MembersExist (c : Config) : Prop :=
  ∀ gid g, mapGet c.Groups gid = some g → ∀ m ∈ g.Members, (mapGet c.Models m).isSome = true

/-! ## Process groups and the proxy manager -/

/-- Modelled from the spec: the state constant `StateStopped` of a runner. -/
def StateStopped : String := "stopped"

/-- Modelled from the spec: the state constant `StateReady` of a runner. -/
def StateReady : String := "ready"

/-- Modelled from the spec: a `ProcessRunner`, reduced to the model it runs and
its state variable, read by `CurrentState()`. -/
structure Process where
  ID : String
  state : String
deriving DecidableEq, Repr

/-- Modelled from the spec: `ProcessGroup` with the fields `id`, `config`, the
three scheduling flags and `processes`; `closed` is the mark that `Shutdown`
leaves on a group ("marks the group unusable"). -/
structure ProcessGroup where
  id : String
  config : Config
  swap : Bool
  exclusive : Bool
  persistent : Bool
  processes : List (String × Process)
  closed : Bool
deriving DecidableEq, Repr

/-- Modelled from the spec: the part of `ProxyManager` that the synchroniser
touches: the live config and the group table. `heap` is the object store of the
embedding: `processGroups` maps a group ID to a reference, `heap` maps a
reference to the object it denotes. -/
structure ProxyManager where
  config : Config
  processGroups : List (String × Nat)
  heap : List ProcessGroup
deriving DecidableEq, Repr

/-- Modelled from the spec: `NewProcessGroup(id, config, ...)`, "a fresh group is
constructed for the new config"; runners are "constructed lazily on first
Acquire", so the fresh group has none. -/
def NewProcessGroup (id : String) (config : Config) : ProcessGroup :=
  let groupConfig := (mapGet config.Groups id).getD GroupConfig.zero
  { id := id, config := config, swap := groupConfig.Swap, exclusive := groupConfig.Exclusive,
    persistent := groupConfig.Persistent, processes := [], closed := false }

/-- Modelled from the spec: `ProcessGroup.Shutdown()`, "stops every member
(persistent included) ... then marks the group unusable". -/
def ProcessGroup.Shutdown (pg : ProcessGroup) : ProcessGroup :=
  { pg with
    processes := pg.processes.map (fun kv => (kv.1, { kv.2 with state := StateStopped })),
    closed := true }

/-- A method call through a reference: the object at `ref` is replaced by `f` of it. -/
def heapUpdate (heap : List ProcessGroup) (ref : Nat) (f : ProcessGroup → ProcessGroup) :
    List ProcessGroup :=
  match heap[ref]? with
  | some pg => heap.set ref (f pg)
  | none => heap

/-! ## `applyConfigAndSyncProcessGroups` (config_runtime_sync.go, lines 13-52) -/

/-- The locals of `applyConfigAndSyncProcessGroups` that the loops update. -/
structure SyncState where
  heap : List ProcessGroup
  nextGroups : List (String × Nat)
  groupsToShutdown : List Nat
deriving DecidableEq, Repr

/-- Lines 23-28: the in-place mutation of a reused group. -/
def reuseGroup (newConfig : Config) (groupID : String) (oldGroup : ProcessGroup) : ProcessGroup :=
  let groupConfig := (mapGet newConfig.Groups groupID).getD GroupConfig.zero
  { oldGroup with
    config := newConfig, swap := groupConfig.Swap, exclusive := groupConfig.Exclusive,
    persistent := groupConfig.Persistent }

/-- Lines 22-36: the body of `for groupID := range newConfig.Groups`. -/
def syncGroup (oldConfig newConfig : Config) (oldGroups : List (String × Nat))
    (st : SyncState) (groupID : String) : SyncState :=
  match mapGet oldGroups groupID with
  | some oldGroup =>
    if runtimeGroupCompatible oldConfig newConfig groupID then
      { st with
        heap := heapUpdate st.heap oldGroup (reuseGroup newConfig groupID),
        nextGroups := mapSet st.nextGroups groupID oldGroup }
    else
      { heap := st.heap ++ [NewProcessGroup groupID newConfig],
        nextGroups := mapSet st.nextGroups groupID st.heap.length,
        groupsToShutdown := st.groupsToShutdown ++ [oldGroup] }
  | none =>
    { st with
      heap := st.heap ++ [NewProcessGroup groupID newConfig],
      nextGroups := mapSet st.nextGroups groupID st.heap.length }

/-- The old object that the iteration for `groupID` queues for shutdown, if any
(lines 33-35, reached when line 22 did not reuse the group). -/
def retiredBy (oldConfig newConfig : Config) (oldGroups : List (String × Nat))
    (groupID : String) : Option Nat :=
  match mapGet oldGroups groupID with
  | some oldGroup =>
    if runtimeGroupCompatible oldConfig newConfig groupID then none else some oldGroup
  | none => none

/-- Lines 40-42: the body of `for groupID, oldGroup := range oldGroups`. -/
def collectRemoved (nextGroups : List (String × Nat)) (groupsToShutdown : List Nat)
    (entry : String × Nat) : List Nat :=
  match mapGet nextGroups entry.1 with
  | some _ => groupsToShutdown
  | none => groupsToShutdown ++ [entry.2]

/-- What a run of `applyConfigAndSyncProcessGroups` leaves behind: the manager,
and the references on which `Shutdown` was called, in call order. -/
structure ApplyResult where
  pm : ProxyManager
  shutdownCalls : List Nat
deriving DecidableEq, Repr

/-- The method `applyConfigAndSyncProcessGroups(newConfig)`. -/
def applyConfigAndSyncProcessGroups (pm : ProxyManager) (newConfig : Config) : ApplyResult :=
  let oldConfig := pm.config
  let oldGroups := pm.processGroups
  let st0 : SyncState := { heap := pm.heap, nextGroups := [], groupsToShutdown := [] }
  let st1 := (mapKeys newConfig.Groups).foldl (syncGroup oldConfig newConfig oldGroups) st0
  let groupsToShutdown := oldGroups.foldl (collectRemoved st1.nextGroups) st1.groupsToShutdown
  let heap := groupsToShutdown.foldl (fun h group => heapUpdate h group ProcessGroup.Shutdown) st1.heap
  { pm := { config := newConfig, processGroups := st1.nextGroups, heap := heap },
    shutdownCalls := groupsToShutdown }

/-- Well-formed manager state: the group table is a map (distinct keys) and every
entry refers to a live group object that carries the entry's group ID. -/
def ProxyManager.WellFormed (pm : ProxyManager) : Prop :=
  (mapKeys pm.processGroups).Nodup ∧
    ∀ g ref, mapGet pm.processGroups g = some ref →
      ∃ pg, pm.heap[ref]? = some pg ∧ pg.id = g

/-- A config in which group `g` lists a member that is in no model table. -/
def danglingConfig : Config :=
  { Models := [],
    Groups := [("g", { Swap := true, Exclusive := true, Persistent := false, Members := ["m"] })] }

/-- Scenario 1 of the spec: config `C1` with one swap-exclusive group `g` of one member `m`. -/
def scenarioC1 : Config :=
  { Models := [("m", { Cmd := "sleep 1000", Proxy := ":8001", Name := "", Description := "",
                       Unlisted := false, UseModelName := "", Metadata := none })],
    Groups := [("g", { Swap := true, Exclusive := true, Persistent := false, Members := ["m"] })] }

/-- Scenario 1 of the spec: `C2`, identical to `C1` except for the description of `m`. -/
def scenarioC2 : Config :=
  { Models := [("m", { Cmd := "sleep 1000", Proxy := ":8001", Name := "", Description := "new",
                       Unlisted := false, UseModelName := "", Metadata := none })],
    Groups := [("g", { Swap := true, Exclusive := true, Persistent := false, Members := ["m"] })] }

/-- Scenario 1 of the spec: a manager whose live config is `C1`, with `m` ready in group `g`. -/
def scenarioManager : ProxyManager :=
  { config := scenarioC1,
    processGroups := [("g", 0)],
    heap := [{ id := "g", config := scenarioC1, swap := true, exclusive := true,
               persistent := false, processes := [("m", { ID := "m", state := StateReady })],
               closed := false }] }

/-! ## Strings (package `strings`) -/

/-- The function `unicode.IsSpace`: the code points with the White_Space property. -/
def isSpace (c : Char) : Bool :=
  let n := c.toNat
  (decide (9 ≤ n) && decide (n ≤ 13)) || n == 32 || n == 0x85 || n == 0xA0 || n == 0x1680 ||
    (decide (0x2000 ≤ n) && decide (n ≤ 0x200A)) || n == 0x2028 || n == 0x2029 ||
    n == 0x202F || n == 0x205F || n == 0x3000

/-- The function `strings.TrimSpace`: leading and trailing white space removed. -/
def TrimSpace (s : String) : String :=
  String.mk ((s.data.dropWhile isSpace).reverse.dropWhile isSpace).reverse

/-- The function `strings.ToLower`: the lower-case mapping of `unicode.ToLower`
(the argument `lower`, a table of the Go library) applied to every code point. -/
def ToLower (lower : Char → Char) (s : String) : String :=
  String.mk (s.data.map lower)

/-- The restriction of `unicode.ToLower` to ASCII: `A`-`Z` are mapped to `a`-`z`,
every other code point to itself. Used to evaluate the definitions on examples. -/
def lowerASCII (c : Char) : Char :=
  if 65 ≤ c.toNat ∧ c.toNat ≤ 90 then Char.ofNat (c.toNat + 32) else c

/-- The function `normalizeModelKey` (proxymanager_api.go, lines 249-251). -/
def normalizeModelKey (lower : Char → Char) (modelID : String) : String :=
  ToLower lower (TrimSpace modelID)

/-- The order `<` of Go strings: lexicographic on the bytes of the UTF-8 encoding,
which is the lexicographic order on the code points. -/
def stringLess : List Char → List Char → Bool
  | _, [] => false
  | [], _ :: _ => true
  | a :: as, b :: bs =>
    if a.toNat < b.toNat then true
    else if b.toNat < a.toNat then false
    else stringLess as bs

/-- Insertion of a string into an ascending list, before the first element that is not smaller. -/
def insertSorted (s : String) : List String → List String
  | [] => [s]
  | x :: xs => if stringLess x.data s.data then x :: insertSorted s xs else s :: x :: xs

/-- The function `sort.Strings`: ascending order of the strings. -/
def sortStrings (l : List String) : List String := l.foldr insertSorted []

/-! ## `getModelStatus` (proxymanager_api.go, lines 138-247) -/

/-- The struct `Model` (lines 18-25). -/
structure Model where
  Id : String
  Name : String
  Description : String
  State : String
  Unlisted : Bool
  PeerID : String
deriving DecidableEq, Repr

/-- The local struct `probeCandidate` (lines 147-151). -/
structure probeCandidate where
  index : Nat
  proxy : String
  keys : List String
deriving DecidableEq, Repr

/-- The locals `models` and `candidates` of the listing loop. -/
structure ListingState where
  models : List Model
  candidates : List probeCandidate
deriving DecidableEq, Repr

/-- Lines 175-182: the process state of a model, "unknown" when no group holds
the model or the group has no process for it. `findGroupByModelName` is a method
of the manager that is not in these sources and is taken as an argument. -/
def processState (findGroupByModelName : String → Option ProcessGroup) (modelID : String) :
    String :=
  match findGroupByModelName modelID with
  | some processGroup =>
    match mapGet processGroup.processes modelID with
    | some process => process.state
    | none => "unknown"
  | none => "unknown"

/-- Lines 161-200: the body of `for _, modelID := range modelIDs`. The argument
`listed` stands for the two recipe filters of lines 164-172 (functions of the
recipe subsystem, which is not in these sources): `false` is `continue`. -/
def listModel (listed : String → ModelConfig → Bool)
    (findGroupByModelName : String → Option ProcessGroup) (config : Config)
    (st : ListingState) (modelID : String) : ListingState :=
  let modelCfg := (mapGet config.Models modelID).getD ModelConfig.zero
  if listed modelID modelCfg then
    let state := processState findGroupByModelName modelID
    let idx := st.models.length
    let models := st.models ++ [{ Id := modelID, Name := modelCfg.Name,
                                  Description := modelCfg.Description, State := state,
                                  Unlisted := modelCfg.Unlisted, PeerID := "" }]
    if state = StateStopped ∨ state = "unknown" then
      { models := models,
        candidates := st.candidates ++
          [{ index := idx, proxy := modelCfg.Proxy, keys := [modelID, modelCfg.UseModelName] }] }
    else
      { models := models, candidates := st.candidates }
  else st

/-- Lines 140-200: the listing phase of `getModelStatus`. -/
def listModels (listed : String → ModelConfig → Bool)
    (findGroupByModelName : String → Option ProcessGroup) (config : Config) : ListingState :=
  (sortStrings (mapKeys config.Models)).foldl (listModel listed findGroupByModelName config)
    { models := [], candidates := [] }

/-- The assignment `models[index].State = state`. -/
def setState (models : List Model) (index : Nat) (state : String) : List Model :=
  match models[index]? with
  | some m => models.set index { m with State := state }
  | none => models

/-- Lines 221-230: the loop over `candidate.keys`, which stops at the first key
found in `servedIDs`. -/
def markReady (lower : Char → Char) (servedIDs : List String) (models : List Model)
    (index : Nat) : List String → List Model
  | [] => models
  | key :: rest =>
    let normalized := normalizeModelKey lower key
    if normalized = "" then markReady lower servedIDs models index rest
    else if normalized ∈ servedIDs then setState models index StateReady
    else markReady lower servedIDs models index rest

/-- The locals of the reconciliation loop: the model list, the cache
`servedByProxy` (a set of served IDs is the list of its elements), and the
proxy URLs on which `detectServedModelIDs` was called so far, in call order. -/
structure ReconcileState where
  models : List Model
  servedByProxy : List (String × List String)
  probes : List String
deriving DecidableEq, Repr

/-- Lines 212-216: the served IDs of a proxy URL, from the cache when the URL
was probed before and otherwise from a probe whose result is cached. The call
`detectServedModelIDs(proxyURL)` leaves the process: `probe k url` is what the
call returns when `k` calls were made before it in this run. -/
def servedFor (probe : Nat → String → List String) (st : ReconcileState) (proxyURL : String) :
    List String × ReconcileState :=
  match mapGet st.servedByProxy proxyURL with
  | some servedIDs => (servedIDs, st)
  | none =>
    let servedIDs := probe st.probes.length proxyURL
    (servedIDs, { st with servedByProxy := mapSet st.servedByProxy proxyURL servedIDs,
                          probes := st.probes ++ [proxyURL] })

/-- Lines 206-231: the body of `for _, candidate := range candidates`. -/
def reconcileCandidate (lower : Char → Char) (probe : Nat → String → List String)
    (st : ReconcileState) (candidate : probeCandidate) : ReconcileState :=
  let proxyURL := TrimSpace candidate.proxy
  if proxyURL = "" then st
  else
    let served := servedFor probe st proxyURL
    if served.1.length = 0 then served.2
    else
      { served.2 with
        models := markReady lower served.1 served.2.models candidate.index candidate.keys }

/-- Lines 237-242: the models of one peer, appended with only `Id` and `PeerID` set. -/
def appendPeer (models : List Model) (peer : String × List String) : List Model :=
  peer.2.foldl (fun acc modelID =>
    acc ++ [{ Id := modelID, Name := "", Description := "", State := "", Unlisted := false,
              PeerID := peer.1 }]) models

/-- Lines 236-243: the loop over `pm.peerProxy.ListPeers()`. -/
def appendPeerModels (models : List Model) (peers : List (String × List String)) :
    List Model :=
  peers.foldl appendPeer models

/-- What a run of `getModelStatus` produces: the returned list, and for the
record the final cache and the probes that were made. -/
structure StatusRun where
  models : List Model
  servedByProxy : List (String × List String)
  probes : List String
deriving DecidableEq, Repr

/-- The method `getModelStatus()`, with its trace. `peers` is `none` when
`pm.peerProxy` is nil and otherwise the result of `ListPeers()`. -/
def runModelStatus (lower : Char → Char) (listed : String → ModelConfig → Bool)
    (findGroupByModelName : String → Option ProcessGroup)
    (probe : Nat → String → List String) (peers : Option (List (String × List String)))
    (config : Config) : StatusRun :=
  let listing := listModels listed findGroupByModelName config
  let st0 : ReconcileState := { models := listing.models, servedByProxy := [], probes := [] }
  let st1 :=
    if listing.candidates.length > 0 then
      listing.candidates.foldl (reconcileCandidate lower probe) st0
    else st0
  let models :=
    match peers with
    | some ps => appendPeerModels st1.models ps
    | none => st1.models
  { models := models, servedByProxy := st1.servedByProxy, probes := st1.probes }

/-- The method `getModelStatus()`. -/
def getModelStatus (lower : Char → Char) (listed : String → ModelConfig → Bool)
    (findGroupByModelName : String → Option ProcessGroup)
    (probe : Nat → String → List String) (peers : Option (List (String × List String)))
    (config : Config) : List Model :=
  (runModelStatus lower listed findGroupByModelName probe peers config).models

/-- The condition of lines 221-230 under which a candidate is marked ready: one
of its keys has a non-empty normal form that is in the served set. -/
def servedKey (lower : Char → Char) (servedIDs : List String) (keys : List String) : Prop :=
  ∃ key ∈ keys, normalizeModelKey lower key ≠ "" ∧ normalizeModelKey lower key ∈ servedIDs

/-- What the listing loop maintains: every candidate points at a listed model
whose state is stopped or unknown and carries that model's proxy URL and keys;
every such model has a candidate; candidate indexes are pairwise distinct; and
the state of a listed model is its process state. -/
def ListingInv (findGroupByModelName : String → Option ProcessGroup) (config : Config)
    (st : ListingState) : Prop :=
  (∀ c ∈ st.candidates, ∃ m, st.models[c.index]? = some m ∧
    (m.State = StateStopped ∨ m.State = "unknown") ∧
    c.proxy = ((mapGet config.Models m.Id).getD ModelConfig.zero).Proxy ∧
    c.keys = [m.Id, ((mapGet config.Models m.Id).getD ModelConfig.zero).UseModelName]) ∧
  (∀ i m, st.models[i]? = some m → (m.State = StateStopped ∨ m.State = "unknown") →
    ∃ c ∈ st.candidates, c.index = i) ∧
  (st.candidates.map probeCandidate.index).Nodup ∧
  (∀ m ∈ st.models, m.State = processState findGroupByModelName m.Id)

/-- What the reconciliation loop maintains: the probed URLs are the keys of the
cache, in order, and every cache entry is the result of the probe of its URL. -/
def ReconcileInv (probe : Nat → String → List String) (st : ReconcileState) : Prop :=
  mapKeys st.servedByProxy = st.probes ∧
  ∀ u served, mapGet st.servedByProxy u = some served →
    ∃ k, st.probes[k]? = some u ∧ served = probe k u

/-- A model with its `State` field blanked: two models agree in every field
other than `State` exactly when their images are equal. -/
def withoutState (m : Model) : Model := { m with State := "" }

/-- Two models behind the same proxy URL (written with and without surrounding
blanks), and a third one with a blank proxy URL; none has a process group. -/
def sharedProxyConfig : Config :=
  { Models := [("a", { Cmd := "", Proxy := "http://host:1", Name := "", Description := "",
                       Unlisted := false, UseModelName := "", Metadata := none }),
               ("b", { Cmd := "", Proxy := " http://host:1 ", Name := "", Description := "",
                       Unlisted := false, UseModelName := "B-Alias", Metadata := none }),
               ("c", { Cmd := "", Proxy := "  ", Name := "", Description := "",
                       Unlisted := false, UseModelName := "", Metadata := none })],
    Groups := [] }

/-- Scenario 6 of the spec: model `m` behind a proxy URL, with no process group. -/
def scenario6Config : Config :=
  { Models := [("m", { Cmd := "", Proxy := "http://127.0.0.1:9000", Name := "",
                       Description := "", Unlisted := false, UseModelName := "",
                       Metadata := none })],
    Groups := [("g", { Swap := true, Exclusive := true, Persistent := false, Members := ["m"] })] }

/-! ## The send buffer of `apiSendEvents` (proxymanager_api.go, lines 298-409) -/

/-- The constant `msgTypeModelStatus`. -/
def msgTypeModelStatus : String := "modelStatus"

/-- The constant `msgTypeLogData`. -/
def msgTypeLogData : String := "logData"

/-- The constant `msgTypeMetrics`. -/
def msgTypeMetrics : String := "metrics"

/-- The struct `messageEnvelope` (lines 306-309); `Typ` is the field `Type`. -/
structure messageEnvelope where
  Typ : String
  Data : String
deriving DecidableEq, Repr

/-- The capacity of `sendBuffer` (line 320). -/
def sendBufferCapacity : Nat := 25

/-- One SSE client: the content of the channel `sendBuffer` (oldest envelope
first), whether `ctx` is cancelled, and the envelopes written to the client. -/
structure ClientState where
  sendBuffer : List messageEnvelope
  ctxDone : Bool
  written : List messageEnvelope
deriving DecidableEq, Repr

/-- The client right after lines 320-321: an empty channel and a live context. -/
def newClient : ClientState := { sendBuffer := [], ctxDone := false, written := [] }

/-- The statement `select { case sendBuffer <- msg: case <-ctx.Done(): return; default: }`.
The send can proceed when the channel is not full, the receive from `ctx.Done()`
when the context is cancelled; when both can proceed Go picks one of them at
random, which is the argument `pick` (`true` is the send). When neither can
proceed the `default` case is taken. -/
def trySend (st : ClientState) (pick : Bool) (msg : messageEnvelope) : ClientState :=
  if st.sendBuffer.length < sendBufferCapacity then
    if st.ctxDone then
      if pick then { st with sendBuffer := st.sendBuffer ++ [msg] } else st
    else { st with sendBuffer := st.sendBuffer ++ [msg] }
  else st

/-- The closure `sendModels` (lines 322-334); `marshalled` is the result of
`json.Marshal(pm.getModelStatus())`, `none` when it returns an error. -/
def sendModels (st : ClientState) (marshalled : Option String) (pick : Bool) : ClientState :=
  match marshalled with
  | some data => trySend st pick { Typ := msgTypeModelStatus, Data := data }
  | none => st

/-- The closure `sendLogData` (lines 336-349); `marshalled` is the result of
`json.Marshal` on the source and the data. -/
def sendLogData (st : ClientState) (marshalled : Option String) (pick : Bool) : ClientState :=
  match marshalled with
  | some data => trySend st pick { Typ := msgTypeLogData, Data := data }
  | none => st

/-- The closure `sendMetrics` (lines 351-361); `marshalled` is the result of
`json.Marshal(metrics)`. -/
def sendMetrics (st : ClientState) (marshalled : Option String) (pick : Bool) : ClientState :=
  match marshalled with
  | some data => trySend st pick { Typ := msgTypeMetrics, Data := data }
  | none => st

/-- Line 404-406: the main loop takes the oldest envelope and writes it to the
client; with an empty channel this case cannot proceed. -/
def receive (st : ClientState) : ClientState :=
  match st.sendBuffer with
  | [] => st
  | msg :: rest => { st with sendBuffer := rest, written := st.written ++ [msg] }

/-- What can happen to one client: a call of one of the three closures, a
receive of the main loop, or the cancellation of `ctx`. -/
inductive ClientEvent where
  | models (marshalled : Option String) (pick : Bool)
  | logData (marshalled : Option String) (pick : Bool)
  | metrics (marshalled : Option String) (pick : Bool)
  | receive
  | cancel
deriving DecidableEq, Repr

/-- The effect of one event on the client. -/
def clientStep (st : ClientState) : ClientEvent → ClientState
  | .models marshalled pick => sendModels st marshalled pick
  | .logData marshalled pick => sendLogData st marshalled pick
  | .metrics marshalled pick => sendMetrics st marshalled pick
  | .receive => receive st
  | .cancel => { st with ctxDone := true }

/-- The client after a sequence of events. -/
def clientRun (st : ClientState) (events : List ClientEvent) : ClientState :=
  events.foldl clientStep st

/-- The envelope that an event offers to the channel: none for a receive, a
cancellation, or a closure whose `json.Marshal` failed. -/
def ClientEvent.envelope : ClientEvent → Option messageEnvelope
  | .models (some data) _ => some { Typ := msgTypeModelStatus, Data := data }
  | .logData (some data) _ => some { Typ := msgTypeLogData, Data := data }
  | .metrics (some data) _ => some { Typ := msgTypeMetrics, Data := data }
  | _ => none

/-! ## The handler `apiSendEvents` as a whole (proxymanager_api.go, lines 312-409) -/

/-- The five sources to which `apiSendEvents` subscribes (lines 366-388): the two
event types that resend the model list, the two log monitors, and the token
metrics. -/
inductive LiveSource where
  | processStateChange
  | configFileChanged
  | proxyLog
  | upstreamLog
  | tokenMetrics
deriving DecidableEq, Repr

/-- One run of `apiSendEvents`: the client's channel, the statement that the
handler executes next, the handlers that are registered, and whether
`pm.shutdownCtx` is done. The statements are numbered in program order:
0-4 the five registrations of lines 366-388 (`defer event.On(...)()` calls
`event.On` at once and defers only the returned unregister function), 5-8 the
initial batch of lines 391-394, 9 the loop of lines 396-408, 10 returned. -/
structure StreamState where
  client : ClientState
  pc : Nat
  handlers : List LiveSource
  shutdownDone : Bool
deriving DecidableEq, Repr

/-- The run at the entry of the registrations (after line 361). -/
def streamStart : StreamState :=
  { client := newClient, pc := 0, handlers := [], shutdownDone := false }

/-- What can happen during a run: the handler executes its next statement before
the loop (`marshalled` and `pick` are read by the statements of the initial
batch only); another goroutine publishes an event or writes log data, which runs
the registered handler on that goroutine; an iteration of the loop receives a
message or leaves the function; the client disconnects; the proxy shuts down. -/
inductive StreamAction where
  | advance (marshalled : Option String) (pick : Bool)
  | publish (source : LiveSource) (marshalled : Option String) (pick : Bool)
  | receive
  | exit
  | disconnect
  | shutdown
deriving DecidableEq, Repr

/-- The effect of one action on a run of `apiSendEvents`. -/
def streamStep (st : StreamState) : StreamAction → StreamState
  | .advance marshalled pick =>
    match st.pc with
    | 0 => { st with pc := 1, handlers := st.handlers ++ [LiveSource.processStateChange] }
    | 1 => { st with pc := 2, handlers := st.handlers ++ [LiveSource.configFileChanged] }
    | 2 => { st with pc := 3, handlers := st.handlers ++ [LiveSource.proxyLog] }
    | 3 => { st with pc := 4, handlers := st.handlers ++ [LiveSource.upstreamLog] }
    | 4 => { st with pc := 5, handlers := st.handlers ++ [LiveSource.tokenMetrics] }
    | 5 => { st with pc := 6, client := sendLogData st.client marshalled pick }
    | 6 => { st with pc := 7, client := sendLogData st.client marshalled pick }
    | 7 => { st with pc := 8, client := sendModels st.client marshalled pick }
    | 8 => { st with pc := 9, client := sendMetrics st.client marshalled pick }
    | _ => st
  | .publish source marshalled pick =>
    if source ∈ st.handlers then
      match source with
      | .processStateChange => { st with client := sendModels st.client marshalled pick }
      | .configFileChanged => { st with client := sendModels st.client marshalled pick }
      | .proxyLog => { st with client := sendLogData st.client marshalled pick }
      | .upstreamLog => { st with client := sendLogData st.client marshalled pick }
      | .tokenMetrics => { st with client := sendMetrics st.client marshalled pick }
    else st
  | .receive => if st.pc = 9 then { st with client := receive st.client } else st
  | .exit =>
    if st.pc = 9 ∧ (st.client.ctxDone = true ∨ st.shutdownDone = true) then
      { st with pc := 10, handlers := [], client := { st.client with ctxDone := true } }
    else st
  | .disconnect => { st with client := { st.client with ctxDone := true } }
  | .shutdown => { st with shutdownDone := true }

/-- The run after a sequence of actions. -/
def streamRun (st : StreamState) (actions : List StreamAction) : StreamState :=
  actions.foldl streamStep st

/-- Everything the channel has accepted so far, oldest first: what was written
to the client followed by what is still queued. -/
def ClientState.accepted (st : ClientState) : List messageEnvelope :=
  st.written ++ st.sendBuffer

/-- The five registrations of lines 366-388, executed without interruption. -/
def registrationActions : List StreamAction :=
  [StreamAction.advance none false, StreamAction.advance none false,
   StreamAction.advance none false, StreamAction.advance none false,
   StreamAction.advance none false]

/-- The initial batch of lines 391-394 with successful marshalling: the two log
histories, the model status and the metrics. -/
def initialBatchActions (proxyLog upstreamLog models metrics : String)
    (k1 k2 k3 k4 : Bool) : List StreamAction :=
  [StreamAction.advance (some proxyLog) k1, StreamAction.advance (some upstreamLog) k2,
   StreamAction.advance (some models) k3, StreamAction.advance (some metrics) k4]

/-- The four envelopes of the initial batch, in program order. -/
def initialEnvelopes (proxyLog upstreamLog models metrics : String) : List messageEnvelope :=
  [{ Typ := msgTypeLogData, Data := proxyLog }, { Typ := msgTypeLogData, Data := upstreamLog },
   { Typ := msgTypeModelStatus, Data := models }, { Typ := msgTypeMetrics, Data := metrics }]

/-! ## `apiUnloadSingleModelHandler` (proxymanager_api.go, lines 420-440) -/

/-- Modelled from the spec: the stop mode of `StopProcess`, "mode ∈ {immediate,
graceful}". -/
inductive StopMode where
  | immediate
  | graceful
deriving DecidableEq, Repr

/-- Modelled from the spec: the constant `StopImmediately`. -/
def StopImmediately : StopMode := StopMode.immediate

/-- The function `strings.TrimPrefix`: `s` without the leading `pre` when it
starts with it, and `s` itself otherwise. -/
def TrimPrefix (s pre : String) : String :=
  if pre.data.isPrefixOf s.data then String.mk (s.data.drop pre.data.length) else s

/-- What the handler sends: the status code and the text handed to `c.String` or
to `sendErrorResponse` (a method that is not in these sources; how it renders
the text is not part of the model). -/
structure HTTPResponse where
  status : Nat
  body : String
deriving DecidableEq, Repr

/-- The outcome of one request: the response, and the calls of `StopProcess`
that were made (group, model name, mode). -/
structure UnloadOutcome where
  response : HTTPResponse
  stopCalls : List (ProcessGroup × String × StopMode)
deriving DecidableEq, Repr

/-- The method `apiUnloadSingleModelHandler`; `param` is `c.Param("model")`.
`findGroupByModelName` and `StopProcess` are methods that are not in these
sources and are taken as arguments; `StopProcess` yields the error text, or
`none` for a nil error. -/
def apiUnloadSingleModelHandler (config : Config)
    (findGroupByModelName : String → Option ProcessGroup)
    (StopProcess : ProcessGroup → String → StopMode → Option String)
    (param : String) : UnloadOutcome :=
  let requestedModel := TrimPrefix param "/"
  match config.RealModelName requestedModel with
  | (_, false) =>
    { response := { status := 404, body := "Model not found" }, stopCalls := [] }
  | (realModelName, true) =>
    match findGroupByModelName realModelName with
    | none =>
      { response := { status := 500,
                      body := "process group not found for model " ++ requestedModel },
        stopCalls := [] }
    | some processGroup =>
      match StopProcess processGroup realModelName StopImmediately with
      | some err =>
        { response := { status := 500, body := "error stopping process: " ++ err },
          stopCalls := [(processGroup, realModelName, StopImmediately)] }
      | none =>
        { response := { status := 200, body := "OK" },
          stopCalls := [(processGroup, realModelName, StopImmediately)] }

/-! ## `detectVLLMFallbackContainers` (proxymanager_api.go, lines 105-136) -/

/-- The pieces of a text between the occurrences of a separator character; a
text without the separator is its own single piece. -/
def splitChars (sep : Char) : List Char → List (List Char)
  | [] => [[]]
  | c :: cs =>
    if c = sep then [] :: splitChars sep cs
    else
      match splitChars sep cs with
      | [] => [[c]]
      | piece :: pieces => (c :: piece) :: pieces

/-- The function `strings.Split(s, sep)` for a separator of one character. -/
def Split (s : String) (sep : Char) : List String :=
  (splitChars sep s.data).map String.mk

/-- The text before the first occurrence of a separator character, and the text
after it when there is one. -/
def cutChars (sep : Char) : List Char → List Char × Option (List Char)
  | [] => ([], none)
  | c :: cs =>
    if c = sep then ([], some cs)
    else (c :: (cutChars sep cs).1, (cutChars sep cs).2)

/-- The function `strings.SplitN(s, sep, 2)` for a separator of one character:
one piece when `s` has no separator, else the piece before the first separator
and the rest. -/
def SplitN2 (s : String) (sep : Char) : List String :=
  match cutChars sep s.data with
  | (before, none) => [String.mk before]
  | (before, some after) => [String.mk before, String.mk after]

/-- Whether a list of characters occurs in another as a contiguous block. -/
def containsChars (sub : List Char) : List Char → Bool
  | [] => sub.isEmpty
  | c :: cs => sub.isPrefixOf (c :: cs) || containsChars sub cs

/-- The function `strings.Contains(s, substr)`. -/
def Contains (s substr : String) : Bool := containsChars substr.data s.data

/-- Lines 114-132: the body of `for _, line := range lines`. -/
def collectContainer (lower : Char → Char) (containers : List String) (line : String) :
    List String :=
  let line := TrimSpace line
  if line = "" then containers
  else
    let parts := SplitN2 line '\t'
    let name := TrimSpace (parts.headD "")
    if name = "" then containers
    else
      let image := if parts.length > 1 then ToLower lower (TrimSpace (parts.getD 1 "")) else ""
      if Contains (ToLower lower name) "vllm" || Contains image "vllm" then
        containers ++ [name]
      else containers

/-- Lines 112-135: the container names parsed out of the output of `docker ps`. -/
def vllmContainerNames (lower : Char → Char) (output : String) : List String :=
  (Split (TrimSpace output) '\n').foldl (collectContainer lower) []

/-- The function `detectVLLMFallbackContainers`; `dockerPS` is what
`cmd.CombinedOutput()` returns for `docker ps`: the error, or the output. -/
def detectVLLMFallbackContainers (lower : Char → Char) (dockerPS : Except String String) :
    Except String (List String) :=
  match dockerPS with
  | .error err => .error ("docker ps failed: " ++ err)
  | .ok output => .ok (vllmContainerNames lower output)

/-- The claim's reading of one `name<TAB>image` line: the name is what stands
before the first tab, the image what stands after it; the trimmed name is kept
when the line is not blank, the name is not empty, and the name or the image
contains "vllm" without regard to case. -/
def specContainerOfLine (lower : Char → Char) (line : String) : Option String :=
  let name := TrimSpace (String.mk (cutChars '\t' line.data).1)
  let image := String.mk (((cutChars '\t' line.data).2).getD [])
  if TrimSpace line = "" then none
  else if name = "" then none
  else if Contains (ToLower lower name) "vllm" || Contains (ToLower lower image) "vllm" then
    some name
  else none

/-- The claim's reading of the parse: the kept names of the lines, in the order of
the lines. -/
def specContainerNames (lower : Char → Char) (output : String) : List String :=
  (Split output '\n').filterMap (specContainerOfLine lower)

/-- The `docker ps` output of `TestProxyManager_ParseFallbackContainersFromDockerPS`. -/
def testDockerPS : String :=
  "vllm_node\tghcr.io/acme/vllm:latest\napi\tghcr.io/acme/api:latest\nworker\tghcr.io/acme/VLLM-worker:2\nVLLM-extra\tghcr.io/acme/other:1\n"

/-! ## `detectServedModelIDs` (proxymanager_api.go, lines 253-296) -/

/-- The function `strings.TrimRight(s, cutset)` for a cutset of one character. -/
def TrimRight (s : String) (cut : Char) : String :=
  String.mk (s.data.reverse.dropWhile (fun c => c == cut)).reverse

/-- What one endpoint does when it is probed: `http.NewRequest` fails; or
`client.Do` fails; or a response arrives, with its status code and, when the body
decodes, the `id` fields of `payload.Data` (`none` is a decode error). -/
inductive ProbeOutcome where
  | requestError
  | transportError
  | response (status : Nat) (ids : Option (List String))
deriving DecidableEq, Repr

/-- The local `result` (a set, kept as the list of its keys in insertion order)
and the endpoints passed to `client.Do` so far. -/
structure ProbeRun where
  result : List String
  requests : List String
deriving DecidableEq, Repr

/-- Lines 285-289: the loop over `payload.Data`. -/
def addKeys (lower : Char → Char) (result : List String) : List String → List String
  | [] => result
  | id :: rest =>
    let key := normalizeModelKey lower id
    if key ≠ "" then
      addKeys lower (if key ∈ result then result else result ++ [key]) rest
    else addKeys lower result rest

/-- Lines 263-293: the loop over the endpoints; `http` is the network. -/
def probeEndpoints (lower : Char → Char) (http : String → ProbeOutcome) (st : ProbeRun) :
    List String → ProbeRun
  | [] => st
  | endpoint :: rest =>
    match http endpoint with
    | .requestError => probeEndpoints lower http st rest
    | .transportError =>
      probeEndpoints lower http { st with requests := st.requests ++ [endpoint] } rest
    | .response status ids =>
      match ids with
      | none => probeEndpoints lower http { st with requests := st.requests ++ [endpoint] } rest
      | some items =>
        if status ≠ 200 then
          probeEndpoints lower http { st with requests := st.requests ++ [endpoint] } rest
        else if (addKeys lower st.result items).length > 0 then
          { result := addKeys lower st.result items, requests := st.requests ++ [endpoint] }
        else
          probeEndpoints lower http
            { result := addKeys lower st.result items, requests := st.requests ++ [endpoint] }
            rest

/-- The function `detectServedModelIDs`, with the requests it makes. -/
def detectServedModelIDs (lower : Char → Char) (http : String → ProbeOutcome)
    (proxyURL : String) : ProbeRun :=
  let base := TrimRight (TrimSpace proxyURL) '/'
  if base = "" then { result := [], requests := [] }
  else
    probeEndpoints lower http { result := [], requests := [] }
      [base ++ "/v1/models", base ++ "/models"]

/-- The spec's reading of what one endpoint contributes: the non-empty normalised
IDs of a response that is HTTP 200 with a decodable body, and nothing otherwise. -/
def contributedIDs (lower : Char → Char) : ProbeOutcome → List String
  | .response status (some items) =>
    if status = 200 then (items.map (normalizeModelKey lower)).filter (fun k => k ≠ "")
    else []
  | _ => []

/-- The endpoints that reach `client.Do`: all but those for which `http.NewRequest`
fails. -/
def requested (http : String → ProbeOutcome) (endpoint : String) : List String :=
  match http endpoint with
  | .requestError => []
  | _ => [endpoint]

/-- A network in which `/v1/models` of one host serves two models. -/
def exampleNetwork (endpoint : String) : ProbeOutcome :=
  if endpoint = "http://host:1/v1/models" then
    ProbeOutcome.response 200 (some [" Model-A ", "", "model-b"])
  else ProbeOutcome.transportError

/-- The characters of a text without its leading and trailing white space: what
`TrimSpace` does on the characters. -/
def trimChars (l : List Char) : List Char :=
  ((l.dropWhile isSpace).reverse.dropWhile isSpace).reverse

/-- Scenario 4 of the spec: config `C1` with the groups `g1 = [a]` and `g2 = [b]`. -/
def scenario4C1 : Config :=
  { Models := [("a", ModelConfig.zero), ("b", ModelConfig.zero)],
    Groups := [("g1", { Swap := true, Exclusive := true, Persistent := false, Members := ["a"] }),
               ("g2", { Swap := true, Exclusive := true, Persistent := false, Members := ["b"] })] }

/-- A successor of scenario 4's `C1`: `g1` unchanged, `g2` no longer exclusive,
and a new group `g3`. -/
def scenario4Next : Config :=
  { Models := [("a", ModelConfig.zero), ("b", ModelConfig.zero)],
    Groups := [("g1", { Swap := true, Exclusive := true, Persistent := false, Members := ["a"] }),
               ("g2", { Swap := true, Exclusive := false, Persistent := false, Members := ["b"] }),
               ("g3", { Swap := false, Exclusive := false, Persistent := false, Members := [] })] }

/-- Scenario 4 of the spec: a manager whose live config is `C1`, with one object
for each of the two groups. -/
def scenario4Manager : ProxyManager :=
  { config := scenario4C1,
    processGroups := [("g1", 0), ("g2", 1)],
    heap := [NewProcessGroup "g1" scenario4C1, NewProcessGroup "g2" scenario4C1] }

/-- A `docker ps` output whose second line has an empty name field and an image
that contains the token. -/
def emptyNameDockerPS : String :=
  "api\tghcr.io/acme/api:latest\n\tghcr.io/acme/vllm:latest\n"

/-- Two metadata maps hold the same entries: both are nil, or both are maps and
every key is bound to the same value, or to none, in both. -/
def SameMetadata :
    Option (List (String × MetaValue)) → Option (List (String × MetaValue)) → Prop
  | none, none => True
  | some a, some b => ∀ key, mapGet a key = mapGet b key
  | _, _ => False

/-- Two `ModelConfig` values are deeply equal: they agree in every scalar field
and their metadata maps hold the same entries. -/
def DeepEqualModelConfig (a b : ModelConfig) : Prop :=
  a.Cmd = b.Cmd ∧ a.Proxy = b.Proxy ∧ a.Name = b.Name ∧ a.Description = b.Description ∧
  a.Unlisted = b.Unlisted ∧ a.UseModelName = b.UseModelName ∧
  SameMetadata a.Metadata b.Metadata

/-- The metadata of every model of the config is a map: no key occurs twice. -/
def Config.MetadataMaps (c : Config) : Prop :=
  ∀ id mc md, mapGet c.Models id = some mc → mc.Metadata = some md → (mapKeys md).Nodup

/-- A config whose model `m` carries two metadata entries. -/
def metadataConfigOld : Config :=
  { Models := [("m", { Cmd := "serve", Proxy := ":8001", Name := "M", Description := "d",
                       Unlisted := false, UseModelName := "",
                       Metadata := some [("owner", MetaValue.str "ops"),
                                         ("gpus", MetaValue.num 2)] })],
    Groups := [("g", { Swap := true, Exclusive := true, Persistent := false, Members := ["m"] })] }

/-- A successor of `metadataConfigOld`: the metadata of `m` is traversed in the
other order, and a second model and a second group are added. -/
def metadataConfigNew : Config :=
  { Models := [("m", { Cmd := "serve", Proxy := ":8001", Name := "M", Description := "d",
                       Unlisted := false, UseModelName := "",
                       Metadata := some [("gpus", MetaValue.num 2),
                                         ("owner", MetaValue.str "ops")] }),
               ("n", ModelConfig.zero)],
    Groups := [("g", { Swap := true, Exclusive := true, Persistent := false, Members := ["m"] }),
               ("h", { Swap := false, Exclusive := false, Persistent := false,
                       Members := ["n"] })] }

/-- The five sources in the order of the registrations of lines 366-388. -/
def allSources : List LiveSource :=
  [LiveSource.processStateChange, LiveSource.configFileChanged, LiveSource.proxyLog,
   LiveSource.upstreamLog, LiveSource.tokenMetrics]

/-- Whether an action is the publication of an event or of log data by another
goroutine. -/
def StreamAction.isPublish : StreamAction → Bool
  | .publish _ _ _ => true
  | _ => false

/-- The results of `json.Marshal` read by the statements that the handler
executes along a run, in the order of execution. -/
def advancePayloads (actions : List StreamAction) : List (Option String) :=
  actions.filterMap (fun a => match a with
    | .advance marshalled _ => some marshalled
    | _ => none)

/-- The envelope that the statement numbered `pc` offers to the channel: the
statements 5 and 6 (lines 391-392) offer log data, 7 (line 393) the model
status, 8 (line 394) the metrics, each when its `json.Marshal` succeeds; no other
statement offers anything. -/
def initialOffer (pc : Nat) (marshalled : Option String) : Option messageEnvelope :=
  match pc, marshalled with
  | 5, some data => some { Typ := msgTypeLogData, Data := data }
  | 6, some data => some { Typ := msgTypeLogData, Data := data }
  | 7, some data => some { Typ := msgTypeModelStatus, Data := data }
  | 8, some data => some { Typ := msgTypeMetrics, Data := data }
  | _, _ => none

/-- The envelopes offered by the statements numbered `pc`, `pc + 1`, ... when they
read the given results of `json.Marshal`. -/
def offersFrom : Nat → List (Option String) → List messageEnvelope
  | _, [] => []
  | pc, marshalled :: rest => (initialOffer pc marshalled).toList ++ offersFrom (pc + 1) rest

/-- The envelopes that the initial batch has offered to the channel along a run
that starts at the first registration, in program order. -/
def initialOffers (actions : List StreamAction) : List messageEnvelope :=
  offersFrom 0 (advancePayloads actions)

/-- A run in which the second log history cannot be marshalled: the five
registrations, the four statements of the initial batch, a shutdown notice. -/
def quietRun : List StreamAction :=
  registrationActions ++
    [StreamAction.advance (some "p") true, StreamAction.advance none true,
     StreamAction.shutdown,
     StreamAction.advance (some "m") false, StreamAction.advance (some "t") true]

/-- A run in which every statement of the initial batch marshals its data. -/
def quietFullRun : List StreamAction :=
  registrationActions ++ initialBatchActions "p" "u" "m" "t" true false true false

/-- What follows the initial batch in the example: a state change is published,
the loop writes two messages, the client disconnects, metrics are published. -/
def laterActions : List StreamAction :=
  [StreamAction.publish LiveSource.processStateChange (some "live") true,
   StreamAction.receive, StreamAction.receive, StreamAction.disconnect,
   StreamAction.publish LiveSource.tokenMetrics (some "tm") true]

/-! # Theorems -/

/-! ## Maps -/

theorem mapGet_isSome_iff {V : Type} (m : List (String × V)) (k : String) :
    (mapGet m k).isSome = true ↔ k ∈ mapKeys m := by
  induction m with
  | nil => simp [mapGet, mapKeys]
  | cons kv rest ih =>
    obtain ⟨k0, v0⟩ := kv
    by_cases h : k0 = k
    · simp [mapGet, mapKeys, h]
    · have h2 : ¬ k = k0 := fun e => h e.symm
      simpa [mapGet, mapKeys, h, h2] using ih

theorem mapGet_eq_none_iff {V : Type} (m : List (String × V)) (k : String) :
    mapGet m k = none ↔ k ∉ mapKeys m := by
  rw [← mapGet_isSome_iff]
  cases mapGet m k <;> simp

theorem mapGet_mapSet {V : Type} (m : List (String × V)) (k k' : String) (v : V) :
    mapGet (mapSet m k v) k' = if k = k' then some v else mapGet m k' := by
  induction m with
  | nil => simp [mapSet, mapGet]
  | cons kv rest ih =>
    obtain ⟨k0, v0⟩ := kv
    by_cases h : k0 = k
    · subst h
      by_cases h2 : k0 = k' <;> simp [mapSet, mapGet, h2]
    · by_cases h2 : k0 = k'
      · subst h2
        have h3 : ¬ k = k0 := fun e => h e.symm
        simp [mapSet, mapGet, h, h3]
      · simp [mapSet, mapGet, h, h2, ih]

theorem mem_mapKeys_mapSet {V : Type} (m : List (String × V)) (k k' : String) (v : V) :
    k' ∈ mapKeys (mapSet m k v) ↔ k' = k ∨ k' ∈ mapKeys m := by
  rw [← mapGet_isSome_iff, mapGet_mapSet, ← mapGet_isSome_iff]
  by_cases h : k = k'
  · simp [h]
  · have h2 : ¬ k' = k := fun e => h e.symm
    simp [h, h2]

theorem nodup_mapKeys_mapSet {V : Type} (m : List (String × V)) (k : String) (v : V)
    (h : (mapKeys m).Nodup) : (mapKeys (mapSet m k v)).Nodup := by
  induction m with
  | nil => simp [mapSet, mapKeys]
  | cons kv rest ih =>
    obtain ⟨k0, v0⟩ := kv
    have h1 : k0 ∉ mapKeys rest := (List.nodup_cons.1 h).1
    have h2 : (mapKeys rest).Nodup := (List.nodup_cons.1 h).2
    by_cases hk : k0 = k
    · simpa [mapSet, hk, mapKeys] using h
    · have e : mapKeys (mapSet ((k0, v0) :: rest) k v) = k0 :: mapKeys (mapSet rest k v) := by
        simp [mapSet, hk, mapKeys]
      rw [e]
      refine List.nodup_cons.2 ⟨?_, ih h2⟩
      intro hmem
      rcases (mem_mapKeys_mapSet rest k k0 v).1 hmem with e1 | e1
      · exact hk e1
      · exact h1 e1

theorem mapGet_mem {V : Type} (m : List (String × V)) (k : String) (v : V)
    (h : mapGet m k = some v) : (k, v) ∈ m := by
  induction m with
  | nil => simp [mapGet] at h
  | cons kv rest ih =>
    obtain ⟨k0, v0⟩ := kv
    by_cases hk : k0 = k
    · simp [mapGet, hk] at h
      simp [hk, h]
    · simp [mapGet, hk] at h
      exact List.mem_cons_of_mem _ (ih h)

theorem mapGet_of_mem {V : Type} (m : List (String × V)) (k : String) (v : V)
    (hn : (mapKeys m).Nodup) (h : (k, v) ∈ m) : mapGet m k = some v := by
  induction m with
  | nil => simp at h
  | cons kv rest ih =>
    obtain ⟨k0, v0⟩ := kv
    have h1 : k0 ∉ mapKeys rest := (List.nodup_cons.1 hn).1
    have h2 : (mapKeys rest).Nodup := (List.nodup_cons.1 hn).2
    rcases List.mem_cons.1 h with e | e
    · cases e
      simp [mapGet]
    · have hk : ¬ k0 = k := by
        intro e2
        apply h1
        rw [e2]
        exact List.mem_map_of_mem Prod.fst e
      simp [mapGet, hk, ih h2 e]

theorem mem_mapVals_of_mapGet {V : Type} (m : List (String × V)) (k : String) (v : V)
    (h : mapGet m k = some v) : v ∈ mapVals m :=
  List.mem_map_of_mem Prod.snd (mapGet_mem m k v h)

theorem mapGet_inj_of_nodup_vals {V : Type} (m : List (String × V)) (k k' : String) (v : V)
    (hv : (mapVals m).Nodup) (h : mapGet m k = some v) (h' : mapGet m k' = some v) : k = k' := by
  induction m with
  | nil => simp [mapGet] at h
  | cons kv rest ih =>
    obtain ⟨k0, v0⟩ := kv
    have h1 : v0 ∉ mapVals rest := (List.nodup_cons.1 hv).1
    have h2 : (mapVals rest).Nodup := (List.nodup_cons.1 hv).2
    by_cases hk : k0 = k
    · by_cases hk' : k0 = k'
      · rw [← hk, ← hk']
      · simp [mapGet, hk] at h
        simp [mapGet, hk'] at h'
        exact absurd (h ▸ mem_mapVals_of_mapGet rest k' v h') h1
    · by_cases hk' : k0 = k'
      · simp [mapGet, hk] at h
        simp [mapGet, hk'] at h'
        exact absurd (h' ▸ mem_mapVals_of_mapGet rest k v h) h1
      · simp [mapGet, hk] at h
        simp [mapGet, hk'] at h'
        exact ih h2 h h'

/-! ## The object store -/

theorem heapUpdate_length (heap : List ProcessGroup) (ref : Nat) (f : ProcessGroup → ProcessGroup) :
    (heapUpdate heap ref f).length = heap.length := by
  unfold heapUpdate
  cases heap[ref]? <;> simp

theorem heapUpdate_get_ne (heap : List ProcessGroup) (ref q : Nat)
    (f : ProcessGroup → ProcessGroup) (h : ref ≠ q) :
    (heapUpdate heap ref f)[q]? = heap[q]? := by
  unfold heapUpdate
  cases heap[ref]? with
  | none => rfl
  | some pg => simp [List.getElem?_set, h]

theorem heapUpdate_get_eq (heap : List ProcessGroup) (ref : Nat)
    (f : ProcessGroup → ProcessGroup) :
    (heapUpdate heap ref f)[ref]? = (heap[ref]?).map f := by
  unfold heapUpdate
  cases h : heap[ref]? with
  | none => simp [h]
  | some pg =>
    have hlt : ref < heap.length := by
      by_contra hge
      rw [List.getElem?_eq_none (Nat.le_of_not_lt hge)] at h
      cases h
    simp [List.getElem?_set, hlt]

/-! ## FindConfig -/

theorem RealModelName_of_mem (c : Config) (m : String)
    (h : (mapGet c.Models m).isSome = true) : c.RealModelName m = (m, true) := by
  unfold Config.RealModelName
  cases hm : mapGet c.Models m with
  | none => simp [hm] at h
  | some v => rfl

theorem FindConfig_of_mem (c : Config) (m : String)
    (h : (mapGet c.Models m).isSome = true) :
    c.FindConfig m = ((mapGet c.Models m).getD ModelConfig.zero, m, true) := by
  unfold Config.FindConfig
  rw [RealModelName_of_mem c m h]

theorem FindConfig_not_found (c : Config) (m : String)
    (h : (c.FindConfig m).2.2 = false) : c.FindConfig m = (ModelConfig.zero, "", false) := by
  unfold Config.FindConfig at h ⊢
  rcases hr : c.RealModelName m with ⟨realName, ok⟩
  cases ok
  · rfl
  · simp [hr] at h

/-! ## runtimeGroupCompatible -/

theorem membersCompatible_iff (oldConfig newConfig : Config) (ms : List String) :
    membersCompatible oldConfig newConfig ms = true ↔
      ∀ m ∈ ms,
        (oldConfig.FindConfig m).2.2 = (newConfig.FindConfig m).2.2 ∧
        (oldConfig.FindConfig m).2.1 = (newConfig.FindConfig m).2.1 ∧
        reflectDeepEqual (oldConfig.FindConfig m).1 (newConfig.FindConfig m).1 = true := by
  induction ms with
  | nil => simp [membersCompatible]
  | cons m rest ih =>
    rcases ho : oldConfig.FindConfig m with ⟨oc, onm, ook⟩
    rcases hn : newConfig.FindConfig m with ⟨nc, nnm, nok⟩
    simp only [membersCompatible, ho, hn, List.mem_cons, forall_eq_or_imp, ih]
    by_cases h1 : ook = nok
    · by_cases h2 : onm = nnm
      · cases hd : reflectDeepEqual oc nc <;> simp [h1, h2, hd, ih]
      · simp [h1, h2]
    · simp [h1]

theorem runtimeGroupCompatible_iff (oldConfig newConfig : Config) (gid : String) :
    runtimeGroupCompatible oldConfig newConfig gid = true ↔
      ∃ og ng, mapGet oldConfig.Groups gid = some og ∧ mapGet newConfig.Groups gid = some ng ∧
        og.Swap = ng.Swap ∧ og.Exclusive = ng.Exclusive ∧ og.Persistent = ng.Persistent ∧
        og.Members = ng.Members ∧
        ∀ m ∈ ng.Members,
          (oldConfig.FindConfig m).2.2 = (newConfig.FindConfig m).2.2 ∧
          (oldConfig.FindConfig m).2.1 = (newConfig.FindConfig m).2.1 ∧
          reflectDeepEqual (oldConfig.FindConfig m).1 (newConfig.FindConfig m).1 = true := by
  unfold runtimeGroupCompatible
  cases ho : mapGet oldConfig.Groups gid with
  | none => simp
  | some og =>
    cases hn : mapGet newConfig.Groups gid with
    | none => simp
    | some ng =>
      simp only [Option.some.injEq, exists_and_left, exists_eq_left']
      by_cases hs : og.Swap = ng.Swap <;> by_cases he : og.Exclusive = ng.Exclusive <;>
        by_cases hp : og.Persistent = ng.Persistent <;> by_cases hm : og.Members = ng.Members <;>
        simp [hs, he, hp, hm, membersCompatible_iff]

/-! ## The first loop of applyConfigAndSyncProcessGroups -/

theorem syncGroup_get_ne (oc nc : Config) (og : List (String × Nat)) (st : SyncState)
    (g k : String) (h : g ≠ k) :
    mapGet (syncGroup oc nc og st g).nextGroups k = mapGet st.nextGroups k := by
  unfold syncGroup
  cases mapGet og g with
  | none => simp [mapGet_mapSet, h]
  | some p =>
    by_cases hc : runtimeGroupCompatible oc nc g = true <;> simp [hc, mapGet_mapSet, h]

theorem syncGroup_get_reuse (oc nc : Config) (og : List (String × Nat)) (st : SyncState)
    (g : String) (p : Nat) (hp : mapGet og g = some p)
    (hc : runtimeGroupCompatible oc nc g = true) :
    mapGet (syncGroup oc nc og st g).nextGroups g = some p := by
  unfold syncGroup
  simp [hp, hc, mapGet_mapSet]

theorem syncGroup_get_fresh (oc nc : Config) (og : List (String × Nat)) (st : SyncState)
    (g : String) (h : ∀ p, mapGet og g = some p → runtimeGroupCompatible oc nc g = false) :
    mapGet (syncGroup oc nc og st g).nextGroups g = some st.heap.length := by
  unfold syncGroup
  cases hp : mapGet og g with
  | none => simp [mapGet_mapSet]
  | some p => simp [h p hp, mapGet_mapSet]

theorem syncGroup_mem_keys (oc nc : Config) (og : List (String × Nat)) (st : SyncState)
    (g k : String) :
    k ∈ mapKeys (syncGroup oc nc og st g).nextGroups ↔ k = g ∨ k ∈ mapKeys st.nextGroups := by
  unfold syncGroup
  cases mapGet og g with
  | none => simp [mem_mapKeys_mapSet]
  | some p =>
    by_cases hc : runtimeGroupCompatible oc nc g = true <;> simp [hc, mem_mapKeys_mapSet]

theorem syncGroup_nodup (oc nc : Config) (og : List (String × Nat)) (st : SyncState)
    (g : String) (h : (mapKeys st.nextGroups).Nodup) :
    (mapKeys (syncGroup oc nc og st g).nextGroups).Nodup := by
  unfold syncGroup
  cases mapGet og g with
  | none => exact nodup_mapKeys_mapSet _ _ _ h
  | some p =>
    by_cases hc : runtimeGroupCompatible oc nc g = true
    · simpa [hc] using nodup_mapKeys_mapSet _ _ _ h
    · simpa [hc] using nodup_mapKeys_mapSet _ _ _ h

theorem syncGroup_heap_length (oc nc : Config) (og : List (String × Nat)) (st : SyncState)
    (g : String) : st.heap.length ≤ (syncGroup oc nc og st g).heap.length := by
  unfold syncGroup
  cases mapGet og g with
  | none => simp
  | some p =>
    by_cases hc : runtimeGroupCompatible oc nc g = true <;> simp [hc, heapUpdate_length]

theorem syncGroup_shutdown (oc nc : Config) (og : List (String × Nat)) (st : SyncState)
    (g : String) :
    (syncGroup oc nc og st g).groupsToShutdown =
      st.groupsToShutdown ++ (retiredBy oc nc og g).toList := by
  unfold syncGroup retiredBy
  cases mapGet og g with
  | none => simp
  | some p =>
    by_cases hc : runtimeGroupCompatible oc nc g = true <;> simp [hc]

theorem syncGroup_heap_get (oc nc : Config) (og : List (String × Nat)) (st : SyncState)
    (g : String) (q : Nat) (y : ProcessGroup) (hy : st.heap[q]? = some y) :
    (syncGroup oc nc og st g).heap[q]? =
      if mapGet og g = some q ∧ runtimeGroupCompatible oc nc g = true
      then some (reuseGroup nc g y) else some y := by
  have hlt : q < st.heap.length := by
    by_contra hge
    rw [List.getElem?_eq_none (Nat.le_of_not_lt hge)] at hy
    cases hy
  unfold syncGroup
  cases hp : mapGet og g with
  | none => simp [List.getElem?_append_left hlt, hy]
  | some p =>
    by_cases hc : runtimeGroupCompatible oc nc g = true
    · by_cases hpq : p = q
      · subst hpq
        simp [hc, heapUpdate_get_eq, hy]
      · simp [hc, hpq, heapUpdate_get_ne _ _ _ _ hpq, hy]
    · simp [hc, List.getElem?_append_left hlt, hy]

theorem syncFold_mem_keys (oc nc : Config) (og : List (String × Nat)) (keys : List String)
    (st : SyncState) (k : String) :
    k ∈ mapKeys (keys.foldl (syncGroup oc nc og) st).nextGroups ↔
      k ∈ keys ∨ k ∈ mapKeys st.nextGroups := by
  induction keys generalizing st with
  | nil => simp
  | cons g rest ih =>
    rw [List.foldl_cons, ih, syncGroup_mem_keys, List.mem_cons]
    tauto

theorem syncFold_nodup (oc nc : Config) (og : List (String × Nat)) (keys : List String)
    (st : SyncState) (h : (mapKeys st.nextGroups).Nodup) :
    (mapKeys (keys.foldl (syncGroup oc nc og) st).nextGroups).Nodup := by
  induction keys generalizing st with
  | nil => simpa using h
  | cons g rest ih =>
    rw [List.foldl_cons]
    exact ih _ (syncGroup_nodup oc nc og st g h)

theorem syncFold_heap_length (oc nc : Config) (og : List (String × Nat)) (keys : List String)
    (st : SyncState) : st.heap.length ≤ (keys.foldl (syncGroup oc nc og) st).heap.length := by
  induction keys generalizing st with
  | nil => simp
  | cons g rest ih =>
    rw [List.foldl_cons]
    exact Nat.le_trans (syncGroup_heap_length oc nc og st g) (ih _)

theorem syncFold_shutdown (oc nc : Config) (og : List (String × Nat)) (keys : List String)
    (st : SyncState) :
    (keys.foldl (syncGroup oc nc og) st).groupsToShutdown =
      st.groupsToShutdown ++ keys.filterMap (retiredBy oc nc og) := by
  induction keys generalizing st with
  | nil => simp
  | cons g rest ih =>
    rw [List.foldl_cons, ih, syncGroup_shutdown]
    cases hr : retiredBy oc nc og g <;> simp [List.filterMap_cons, hr]

theorem syncFold_get_reuse (oc nc : Config) (og : List (String × Nat)) (keys : List String)
    (st : SyncState) (g : String) (p : Nat) (hp : mapGet og g = some p)
    (hc : runtimeGroupCompatible oc nc g = true)
    (h : g ∈ keys ∨ mapGet st.nextGroups g = some p) :
    mapGet (keys.foldl (syncGroup oc nc og) st).nextGroups g = some p := by
  induction keys generalizing st with
  | nil => simpa using h
  | cons k rest ih =>
    rw [List.foldl_cons]
    apply ih
    by_cases hk : k = g
    · subst hk
      exact Or.inr (syncGroup_get_reuse oc nc og st k p hp hc)
    · rcases h with h | h
      · rcases List.mem_cons.1 h with e | e
        · exact absurd e.symm hk
        · exact Or.inl e
      · exact Or.inr (by rw [syncGroup_get_ne oc nc og st k g hk]; exact h)

theorem syncFold_get_cases (oc nc : Config) (og : List (String × Nat)) (keys : List String)
    (st : SyncState) (n : Nat) (hn : n ≤ st.heap.length)
    (hI : ∀ g q, mapGet st.nextGroups g = some q →
      (mapGet og g = some q ∧ runtimeGroupCompatible oc nc g = true) ∨ n ≤ q) :
    ∀ g q, mapGet (keys.foldl (syncGroup oc nc og) st).nextGroups g = some q →
      (mapGet og g = some q ∧ runtimeGroupCompatible oc nc g = true) ∨ n ≤ q := by
  induction keys generalizing st with
  | nil => simpa using hI
  | cons k rest ih =>
    rw [List.foldl_cons]
    apply ih
    · exact Nat.le_trans hn (syncGroup_heap_length oc nc og st k)
    · intro g q hq
      by_cases hk : k = g
      · subst hk
        by_cases hr : ∃ p, mapGet og k = some p ∧ runtimeGroupCompatible oc nc k = true
        · obtain ⟨p, hp, hc⟩ := hr
          rw [syncGroup_get_reuse oc nc og st k p hp hc] at hq
          cases hq
          exact Or.inl ⟨hp, hc⟩
        · have hf : ∀ p, mapGet og k = some p → runtimeGroupCompatible oc nc k = false := by
            intro p hp
            cases hc : runtimeGroupCompatible oc nc k with
            | false => rfl
            | true => exact absurd ⟨p, hp, hc⟩ hr
          rw [syncGroup_get_fresh oc nc og st k hf] at hq
          cases hq
          exact Or.inr hn
      · rw [syncGroup_get_ne oc nc og st k g hk] at hq
        exact hI g q hq

theorem syncFold_heap_fixed (oc nc : Config) (og : List (String × Nat)) (keys : List String)
    (st : SyncState) (q : Nat) (y : ProcessGroup) (hy : st.heap[q]? = some y)
    (hfix : ∀ k ∈ keys, mapGet og k = some q → runtimeGroupCompatible oc nc k = true →
      reuseGroup nc k y = y) :
    (keys.foldl (syncGroup oc nc og) st).heap[q]? = some y := by
  induction keys generalizing st with
  | nil => simpa using hy
  | cons k rest ih =>
    rw [List.foldl_cons]
    apply ih
    · rw [syncGroup_heap_get oc nc og st k q y hy]
      by_cases hh : mapGet og k = some q ∧ runtimeGroupCompatible oc nc k = true
      · rw [if_pos hh, hfix k (List.mem_cons_self _ _) hh.1 hh.2]
      · rw [if_neg hh]
    · intro k' hk'
      exact hfix k' (List.mem_cons_of_mem _ hk')

theorem reuseGroup_idem (nc : Config) (g : String) (x : ProcessGroup) :
    reuseGroup nc g (reuseGroup nc g x) = reuseGroup nc g x := rfl

theorem syncFold_heap_reused (oc nc : Config) (og : List (String × Nat)) (keys : List String)
    (st : SyncState) (g : String) (p : Nat) (x : ProcessGroup)
    (hv : (mapVals og).Nodup) (hp : mapGet og g = some p)
    (hc : runtimeGroupCompatible oc nc g = true) (hx : st.heap[p]? = some x)
    (hg : g ∈ keys) :
    (keys.foldl (syncGroup oc nc og) st).heap[p]? = some (reuseGroup nc g x) := by
  induction keys generalizing st x with
  | nil => simp at hg
  | cons k rest ih =>
    rw [List.foldl_cons]
    by_cases hk : k = g
    · subst hk
      apply syncFold_heap_fixed
      · rw [syncGroup_heap_get oc nc og st k p x hx, if_pos ⟨hp, hc⟩]
      · intro k' _ hk' _
        have e : k' = k := mapGet_inj_of_nodup_vals og k' k p hv hk' hp
        rw [e]
        rfl
    · have hne : ¬ (mapGet og k = some p ∧ runtimeGroupCompatible oc nc k = true) := by
        intro hh
        exact hk (mapGet_inj_of_nodup_vals og k g p hv hh.1 hp)
      apply ih
      · rw [syncGroup_heap_get oc nc og st k p x hx, if_neg hne]
      · rcases List.mem_cons.1 hg with e | e
        · exact absurd e.symm hk
        · exact e

/-! ## The second loop and the shutdown loop -/

theorem collectRemoved_fold (next : List (String × Nat)) (og : List (String × Nat))
    (acc : List Nat) :
    og.foldl (collectRemoved next) acc =
      acc ++ (og.filter (fun e => (mapGet next e.1).isNone)).map Prod.snd := by
  induction og generalizing acc with
  | nil => simp
  | cons e rest ih =>
    rw [List.foldl_cons, ih]
    unfold collectRemoved
    cases h : mapGet next e.1 <;> simp [List.filter_cons, h]

theorem shutdownFold_get (l : List Nat) (heap : List ProcessGroup) (q : Nat) (h : q ∉ l) :
    (l.foldl (fun hp group => heapUpdate hp group ProcessGroup.Shutdown) heap)[q]? = heap[q]? := by
  induction l generalizing heap with
  | nil => rfl
  | cons r rest ih =>
    rw [List.foldl_cons, ih _ (fun hm => h (List.mem_cons_of_mem _ hm))]
    exact heapUpdate_get_ne heap r q _ (fun e => h (e ▸ List.mem_cons_self _ _))

theorem shutdownFold_length (l : List Nat) (heap : List ProcessGroup) :
    (l.foldl (fun hp group => heapUpdate hp group ProcessGroup.Shutdown) heap).length =
      heap.length := by
  induction l generalizing heap with
  | nil => rfl
  | cons r rest ih => rw [List.foldl_cons, ih, heapUpdate_length]

/-! ## Well-formed managers -/

theorem WellFormed.nodup_vals (pm : ProxyManager) (hwf : pm.WellFormed) :
    (mapVals pm.processGroups).Nodup := by
  obtain ⟨hk, hid⟩ := hwf
  have hl : pm.processGroups.Nodup := List.Nodup.of_map Prod.fst hk
  refine List.Nodup.map_on ?_ hl
  intro a ha b hb hab
  obtain ⟨ka, va⟩ := a
  obtain ⟨kb, vb⟩ := b
  simp only at hab
  subst hab
  obtain ⟨pa, h1, h2⟩ := hid ka va (mapGet_of_mem _ _ _ hk ha)
  obtain ⟨pb, h3, h4⟩ := hid kb va (mapGet_of_mem _ _ _ hk hb)
  rw [h1] at h3
  cases h3
  rw [← h2, ← h4]

theorem WellFormed.live (pm : ProxyManager) (hwf : pm.WellFormed) (g : String) (ref : Nat)
    (h : mapGet pm.processGroups g = some ref) : ref < pm.heap.length := by
  obtain ⟨pg, h1, _⟩ := hwf.2 g ref h
  by_contra hge
  rw [List.getElem?_eq_none (Nat.le_of_not_lt hge)] at h1
  cases h1

theorem compatible_mem_newKeys (oc nc : Config) (g : String)
    (h : runtimeGroupCompatible oc nc g = true) : g ∈ mapKeys nc.Groups := by
  obtain ⟨og, ng, _, h2, _⟩ := (runtimeGroupCompatible_iff oc nc g).1 h
  rw [← mapGet_isSome_iff, h2]
  rfl

theorem retiredBy_eq_some (oc nc : Config) (og : List (String × Nat)) (g : String) (p : Nat) :
    retiredBy oc nc og g = some p ↔
      mapGet og g = some p ∧ runtimeGroupCompatible oc nc g = false := by
  unfold retiredBy
  cases mapGet og g with
  | none => simp
  | some q => cases runtimeGroupCompatible oc nc g <;> simp

theorem mapGet_isNone_eq {V : Type} (m : List (String × V)) (k : String) :
    (mapGet m k).isNone = decide (k ∉ mapKeys m) := by
  by_cases h : k ∈ mapKeys m
  · have h1 := (mapGet_isSome_iff m k).2 h
    cases hg : mapGet m k with
    | none => simp [hg] at h1
    | some v => simp [h]
  · have h1 := (mapGet_eq_none_iff m k).2 h
    simp [h1, h]

/-- The references on which `Shutdown` is called, in closed form. -/
theorem apply_shutdownCalls (pm : ProxyManager) (nc : Config) :
    (applyConfigAndSyncProcessGroups pm nc).shutdownCalls =
      (mapKeys nc.Groups).filterMap (retiredBy pm.config nc pm.processGroups) ++
      (pm.processGroups.filter (fun e => decide (e.1 ∉ mapKeys nc.Groups))).map Prod.snd := by
  unfold applyConfigAndSyncProcessGroups
  simp only [collectRemoved_fold, syncFold_shutdown, List.nil_append]
  congr 2
  apply List.filter_congr
  intro e _
  have hk := syncFold_mem_keys pm.config nc pm.processGroups (mapKeys nc.Groups)
    { heap := pm.heap, nextGroups := [], groupsToShutdown := [] } e.1
  rw [mapGet_isNone_eq]
  apply decide_eq_decide.2
  apply not_congr
  rw [hk]
  simp [mapKeys]

theorem mem_apply_shutdownCalls (pm : ProxyManager) (nc : Config)
    (hk : (mapKeys pm.processGroups).Nodup) (p : Nat) :
    p ∈ (applyConfigAndSyncProcessGroups pm nc).shutdownCalls ↔
      ∃ g, mapGet pm.processGroups g = some p ∧
        (g ∉ mapKeys nc.Groups ∨ runtimeGroupCompatible pm.config nc g = false) := by
  rw [apply_shutdownCalls, List.mem_append, List.mem_filterMap, List.mem_map]
  constructor
  · rintro (⟨g, hg, hr⟩ | ⟨e, he, rfl⟩)
    · exact ⟨g, ((retiredBy_eq_some _ _ _ _ _).1 hr).1,
        Or.inr ((retiredBy_eq_some _ _ _ _ _).1 hr).2⟩
    · obtain ⟨k, v⟩ := e
      rw [List.mem_filter] at he
      exact ⟨k, mapGet_of_mem _ _ _ hk he.1, Or.inl (by simpa using he.2)⟩
  · rintro ⟨g, hp, hor⟩
    by_cases hm : g ∈ mapKeys nc.Groups
    · left
      refine ⟨g, hm, (retiredBy_eq_some _ _ _ _ _).2 ⟨hp, ?_⟩⟩
      rcases hor with h | h
      · exact absurd hm h
      · exact h
    · right
      refine ⟨(g, p), ?_, rfl⟩
      rw [List.mem_filter]
      exact ⟨mapGet_mem _ _ _ hp, by simpa using hm⟩

theorem apply_table_reuse (pm : ProxyManager) (nc : Config) (g : String) (p : Nat)
    (hp : mapGet pm.processGroups g = some p)
    (hc : runtimeGroupCompatible pm.config nc g = true) :
    mapGet (applyConfigAndSyncProcessGroups pm nc).pm.processGroups g = some p := by
  unfold applyConfigAndSyncProcessGroups
  exact syncFold_get_reuse pm.config nc pm.processGroups _ _ g p hp hc
    (Or.inl (compatible_mem_newKeys _ _ _ hc))

theorem apply_table_cases (pm : ProxyManager) (nc : Config) (g : String) (q : Nat)
    (hq : mapGet (applyConfigAndSyncProcessGroups pm nc).pm.processGroups g = some q) :
    (mapGet pm.processGroups g = some q ∧ runtimeGroupCompatible pm.config nc g = true) ∨
      pm.heap.length ≤ q := by
  unfold applyConfigAndSyncProcessGroups at hq
  refine syncFold_get_cases pm.config nc pm.processGroups (mapKeys nc.Groups)
    { heap := pm.heap, nextGroups := [], groupsToShutdown := [] } pm.heap.length
    (Nat.le_refl _) ?_ g q hq
  intro g' q' h
  simp [mapGet] at h

theorem apply_table_keys (pm : ProxyManager) (nc : Config) (g : String) :
    g ∈ mapKeys (applyConfigAndSyncProcessGroups pm nc).pm.processGroups ↔
      g ∈ mapKeys nc.Groups := by
  unfold applyConfigAndSyncProcessGroups
  have hk := syncFold_mem_keys pm.config nc pm.processGroups (mapKeys nc.Groups)
    { heap := pm.heap, nextGroups := [], groupsToShutdown := [] } g
  simpa [mapKeys] using hk

theorem apply_table_nodup (pm : ProxyManager) (nc : Config) :
    (mapKeys (applyConfigAndSyncProcessGroups pm nc).pm.processGroups).Nodup := by
  unfold applyConfigAndSyncProcessGroups
  exact syncFold_nodup pm.config nc pm.processGroups (mapKeys nc.Groups)
    { heap := pm.heap, nextGroups := [], groupsToShutdown := [] } (by simp [mapKeys])

theorem reused_not_shutdown (pm : ProxyManager) (nc : Config) (g : String) (ref : Nat)
    (hwf : pm.WellFormed) (hp : mapGet pm.processGroups g = some ref)
    (hc : runtimeGroupCompatible pm.config nc g = true) :
    ref ∉ (applyConfigAndSyncProcessGroups pm nc).shutdownCalls := by
  rw [mem_apply_shutdownCalls pm nc hwf.1]
  rintro ⟨g', hp', hor⟩
  have e : g' = g := mapGet_inj_of_nodup_vals _ _ _ _ (WellFormed.nodup_vals pm hwf) hp' hp
  subst e
  rcases hor with h | h
  · exact h (compatible_mem_newKeys _ _ _ hc)
  · rw [hc] at h
    cases h

theorem apply_shutdownCalls_nodup (pm : ProxyManager) (nc : Config) (hwf : pm.WellFormed)
    (hn : (mapKeys nc.Groups).Nodup) :
    (applyConfigAndSyncProcessGroups pm nc).shutdownCalls.Nodup := by
  have hv := WellFormed.nodup_vals pm hwf
  rw [apply_shutdownCalls, List.nodup_append]
  refine ⟨?_, ?_, ?_⟩
  · refine List.Nodup.filterMap ?_ hn
    intro a a' b hb hb'
    have h1 := ((retiredBy_eq_some _ _ _ _ _).1 (Option.mem_def.1 hb)).1
    have h2 := ((retiredBy_eq_some _ _ _ _ _).1 (Option.mem_def.1 hb')).1
    exact mapGet_inj_of_nodup_vals _ _ _ _ hv h1 h2
  · exact List.Nodup.sublist ((List.filter_sublist _).map Prod.snd) hv
  · intro x h1 h2
    obtain ⟨g, hg, hr⟩ := List.mem_filterMap.1 h1
    obtain ⟨e, he, hx⟩ := List.mem_map.1 h2
    obtain ⟨k, v⟩ := e
    simp only at hx
    subst hx
    rw [List.mem_filter] at he
    have h3 := mapGet_of_mem _ _ _ hwf.1 he.1
    have h4 := ((retiredBy_eq_some _ _ _ _ _).1 hr).1
    have e2 : k = g := mapGet_inj_of_nodup_vals _ _ _ _ hv h3 h4
    subst e2
    have h5 : k ∉ mapKeys nc.Groups := by simpa using he.2
    exact h5 hg

theorem reflectDeepEqual_description (a b : ModelConfig) (h : reflectDeepEqual a b = true) :
    a.Description = b.Description := by
  unfold reflectDeepEqual at h
  simp only [Bool.and_eq_true, decide_eq_true_eq] at h
  exact h.1.1.1.2

theorem reuseGroup_of_get (nc : Config) (g : String) (ng : GroupConfig) (x : ProcessGroup)
    (h : mapGet nc.Groups g = some ng) :
    reuseGroup nc g x =
      { x with config := nc, swap := ng.Swap, exclusive := ng.Exclusive,
               persistent := ng.Persistent } := by
  unfold reuseGroup
  rw [h]
  rfl

/-! ## Well-formedness is an invariant of applyConfigAndSyncProcessGroups -/

theorem heapUpdate_id (heap : List ProcessGroup) (r q : Nat) (f : ProcessGroup → ProcessGroup)
    (hf : ∀ x, (f x).id = x.id) (y : ProcessGroup) (hy : heap[q]? = some y) :
    ∃ y', (heapUpdate heap r f)[q]? = some y' ∧ y'.id = y.id := by
  by_cases hrq : r = q
  · subst hrq
    exact ⟨f y, by rw [heapUpdate_get_eq, hy]; rfl, hf y⟩
  · exact ⟨y, by rw [heapUpdate_get_ne _ _ _ _ hrq]; exact hy, rfl⟩

theorem syncGroup_id (oc nc : Config) (og : List (String × Nat)) (st : SyncState)
    (k : String) (q : Nat) (y : ProcessGroup) (hy : st.heap[q]? = some y) :
    ∃ y', (syncGroup oc nc og st k).heap[q]? = some y' ∧ y'.id = y.id := by
  rw [syncGroup_heap_get oc nc og st k q y hy]
  by_cases hh : mapGet og k = some q ∧ runtimeGroupCompatible oc nc k = true
  · exact ⟨reuseGroup nc k y, by rw [if_pos hh], rfl⟩
  · exact ⟨y, by rw [if_neg hh], rfl⟩

theorem syncGroup_heap_fresh (oc nc : Config) (og : List (String × Nat)) (st : SyncState)
    (k : String) (h : ∀ p, mapGet og k = some p → runtimeGroupCompatible oc nc k = false) :
    (syncGroup oc nc og st k).heap = st.heap ++ [NewProcessGroup k nc] := by
  unfold syncGroup
  cases hp : mapGet og k with
  | none => rfl
  | some p => simp [h p hp]

theorem syncFold_wellFormed (oc nc : Config) (pm : ProxyManager) (hwf : pm.WellFormed)
    (keys : List String) (st : SyncState)
    (hH : ∀ (q : Nat) (y : ProcessGroup), pm.heap[q]? = some y →
      ∃ y', st.heap[q]? = some y' ∧ y'.id = y.id)
    (hK : ∀ (g : String) (q : Nat), mapGet st.nextGroups g = some q →
      ∃ pg, st.heap[q]? = some pg ∧ pg.id = g) :
    ∀ g q, mapGet (keys.foldl (syncGroup oc nc pm.processGroups) st).nextGroups g = some q →
      ∃ pg, (keys.foldl (syncGroup oc nc pm.processGroups) st).heap[q]? = some pg ∧
        pg.id = g := by
  induction keys generalizing st with
  | nil => exact hK
  | cons k rest ih =>
    rw [List.foldl_cons]
    apply ih
    · intro q y hy
      obtain ⟨y1, h1, h2⟩ := hH q y hy
      obtain ⟨y2, h3, h4⟩ := syncGroup_id oc nc pm.processGroups st k q y1 h1
      exact ⟨y2, h3, h4.trans h2⟩
    · intro g q hq
      by_cases hk : k = g
      · subst hk
        by_cases hr : ∃ p, mapGet pm.processGroups k = some p ∧
            runtimeGroupCompatible oc nc k = true
        · obtain ⟨p, hp, hc⟩ := hr
          rw [syncGroup_get_reuse oc nc pm.processGroups st k p hp hc] at hq
          have hpq : p = q := Option.some.inj hq
          subst hpq
          obtain ⟨x, hx, hxid⟩ := hwf.2 k p hp
          obtain ⟨y1, h1, h2⟩ := hH p x hx
          obtain ⟨y2, h3, h4⟩ := syncGroup_id oc nc pm.processGroups st k p y1 h1
          exact ⟨y2, h3, by rw [h4, h2, hxid]⟩
        · have hf : ∀ p, mapGet pm.processGroups k = some p →
              runtimeGroupCompatible oc nc k = false := by
            intro p hp
            cases hc : runtimeGroupCompatible oc nc k with
            | false => rfl
            | true => exact absurd ⟨p, hp, hc⟩ hr
          rw [syncGroup_get_fresh oc nc pm.processGroups st k hf] at hq
          have hpq : st.heap.length = q := Option.some.inj hq
          subst hpq
          rw [syncGroup_heap_fresh oc nc pm.processGroups st k hf]
          exact ⟨NewProcessGroup k nc, by simp, rfl⟩
      · rw [syncGroup_get_ne oc nc pm.processGroups st k g hk] at hq
        obtain ⟨pg, h1, h2⟩ := hK g q hq
        obtain ⟨y2, h3, h4⟩ := syncGroup_id oc nc pm.processGroups st k q pg h1
        exact ⟨y2, h3, h4.trans h2⟩

theorem shutdownFold_id (l : List Nat) (heap : List ProcessGroup) (q : Nat) (y : ProcessGroup)
    (hy : heap[q]? = some y) :
    ∃ y', (l.foldl (fun hp group => heapUpdate hp group ProcessGroup.Shutdown) heap)[q]?
      = some y' ∧ y'.id = y.id := by
  induction l generalizing heap y with
  | nil => exact ⟨y, hy, rfl⟩
  | cons r rest ih =>
    rw [List.foldl_cons]
    obtain ⟨y1, h1, h2⟩ := heapUpdate_id heap r q ProcessGroup.Shutdown (fun _ => rfl) y hy
    obtain ⟨y2, h3, h4⟩ := ih _ y1 h1
    exact ⟨y2, h3, h4.trans h2⟩

/-- A manager without groups is well formed. -/
theorem wellFormed_empty (config : Config) :
    ProxyManager.WellFormed { config := config, processGroups := [], heap := [] } := by
  refine ⟨by simp [mapKeys], ?_⟩
  intro g ref h
  simp [mapGet] at h

/-- Well-formedness is preserved by applyConfigAndSyncProcessGroups, so it holds
in every state reached from a manager without groups. -/
theorem apply_wellFormed (pm : ProxyManager) (nc : Config) (hwf : pm.WellFormed) :
    (applyConfigAndSyncProcessGroups pm nc).pm.WellFormed := by
  refine ⟨apply_table_nodup pm nc, ?_⟩
  intro g ref h
  have hK := syncFold_wellFormed pm.config nc pm hwf (mapKeys nc.Groups)
    { heap := pm.heap, nextGroups := [], groupsToShutdown := [] }
    (fun q y hy => ⟨y, hy, rfl⟩) (fun g q hq => by simp [mapGet] at hq) g ref h
  obtain ⟨pg, h1, h2⟩ := hK
  obtain ⟨y2, h3, h4⟩ := shutdownFold_id
    (applyConfigAndSyncProcessGroups pm nc).shutdownCalls _ ref pg h1
  exact ⟨y2, h3, h4.trans h2⟩

/-! ## Claims on runtimeGroupCompatible -/

theorem deepEqualMetadata_some_iff (a b : List (String × MetaValue))
    (ha : (mapKeys a).Nodup) (hb : (mapKeys b).Nodup) :
    deepEqualMetadata (some a) (some b) = true ↔ ∀ key, mapGet a key = mapGet b key := by
  simp only [deepEqualMetadata, Bool.and_eq_true, decide_eq_true_eq, List.all_eq_true]
  constructor
  · rintro ⟨hlen, hall⟩ key
    have hsub : mapKeys a ⊆ mapKeys b := by
      intro k hk
      rw [← mapGet_isSome_iff] at hk
      obtain ⟨v, hv⟩ := Option.isSome_iff_exists.1 hk
      have h1 := hall (k, v) (mapGet_mem a k v hv)
      rw [← mapGet_isSome_iff, h1]
      rfl
    have hperm : List.Perm (mapKeys a) (mapKeys b) :=
      List.Subperm.perm_of_length_le (List.subperm_of_subset ha hsub)
        (by simp [mapKeys, hlen])
    cases hga : mapGet a key with
    | some v => exact (hall (key, v) (mapGet_mem a key v hga)).symm
    | none =>
      have hk : key ∉ mapKeys a := (mapGet_eq_none_iff a key).1 hga
      have hk2 : key ∉ mapKeys b := fun h => hk ((List.Perm.mem_iff hperm).2 h)
      exact ((mapGet_eq_none_iff b key).2 hk2).symm
  · intro hall
    have hperm : List.Perm (mapKeys a) (mapKeys b) := by
      rw [List.perm_ext_iff_of_nodup ha hb]
      intro k
      rw [← mapGet_isSome_iff, ← mapGet_isSome_iff, hall k]
    refine ⟨by simpa [mapKeys] using hperm.length_eq, ?_⟩
    intro kv hkv
    rw [← hall kv.1]
    exact mapGet_of_mem a kv.1 kv.2 ha hkv

theorem deepEqualMetadata_iff (ma mb : Option (List (String × MetaValue)))
    (ha : ∀ a, ma = some a → (mapKeys a).Nodup) (hb : ∀ b, mb = some b → (mapKeys b).Nodup) :
    deepEqualMetadata ma mb = true ↔ SameMetadata ma mb := by
  cases ma with
  | none => cases mb <;> simp [deepEqualMetadata, SameMetadata]
  | some a =>
    cases mb with
    | none => simp [deepEqualMetadata, SameMetadata]
    | some b =>
      rw [deepEqualMetadata_some_iff a b (ha a rfl) (hb b rfl)]
      rfl

/-- What `reflect.DeepEqual` decides on two `ModelConfig` values whose metadata
are maps: equality of every scalar field and the same metadata entries. -/
theorem reflectDeepEqual_iff (a b : ModelConfig)
    (ha : ∀ md, a.Metadata = some md → (mapKeys md).Nodup)
    (hb : ∀ md, b.Metadata = some md → (mapKeys md).Nodup) :
    reflectDeepEqual a b = true ↔ DeepEqualModelConfig a b := by
  unfold reflectDeepEqual DeepEqualModelConfig
  simp only [Bool.and_eq_true, decide_eq_true_eq, deepEqualMetadata_iff _ _ ha hb]
  tauto

/-- C1: for two configs that satisfy the Config invariant (every member listed in
a group exists in Models) and whose metadata are maps, runtimeGroupCompatible
returns true exactly when the four checklist conditions hold: the group exists in
both configs; the three flags are identical; the member lists are equal element
by element; and for every member FindConfig yields the same resolved name in both
configs and ModelConfig values that are deeply equal, that is, equal in every
scalar field and with the same metadata entries. -/
theorem runtimeGroupCompatible_checklist (oldConfig newConfig : Config) (gid : String)
    (hold : oldConfig.MembersExist) (hnew : newConfig.MembersExist)
    (hmo : oldConfig.MetadataMaps) (hmn : newConfig.MetadataMaps) :
    runtimeGroupCompatible oldConfig newConfig gid = true ↔
      ∃ og ng, mapGet oldConfig.Groups gid = some og ∧ mapGet newConfig.Groups gid = some ng ∧
        (og.Swap = ng.Swap ∧ og.Exclusive = ng.Exclusive ∧ og.Persistent = ng.Persistent) ∧
        (og.Members.length = ng.Members.length ∧
          ∀ i : Nat, og.Members[i]? = ng.Members[i]?) ∧
        ∀ m ∈ ng.Members,
          (oldConfig.FindConfig m).2.1 = (newConfig.FindConfig m).2.1 ∧
          DeepEqualModelConfig (oldConfig.FindConfig m).1 (newConfig.FindConfig m).1 := by
  have hmeta : ∀ (c : Config), c.MetadataMaps → ∀ m, (mapGet c.Models m).isSome = true →
      ∀ md, (c.FindConfig m).1.Metadata = some md → (mapKeys md).Nodup := by
    intro c hc m hm md hmd
    rw [FindConfig_of_mem c m hm] at hmd
    obtain ⟨mc, hmc⟩ := Option.isSome_iff_exists.1 hm
    rw [hmc] at hmd
    exact hc m mc md hmc hmd
  rw [runtimeGroupCompatible_iff]
  constructor
  · rintro ⟨og, ng, ho, hn, hs, he, hp, hm, hall⟩
    refine ⟨og, ng, ho, hn, ⟨hs, he, hp⟩, ⟨by rw [hm], fun i => by rw [hm]⟩, ?_⟩
    intro m hmem
    refine ⟨(hall m hmem).2.1, ?_⟩
    exact (reflectDeepEqual_iff _ _
      (hmeta oldConfig hmo m (hold gid og ho m (hm ▸ hmem)))
      (hmeta newConfig hmn m (hnew gid ng hn m hmem))).1 (hall m hmem).2.2
  · rintro ⟨og, ng, ho, hn, ⟨hs, he, hp⟩, ⟨_, hi⟩, hall⟩
    have hm : og.Members = ng.Members := List.ext_getElem? hi
    refine ⟨og, ng, ho, hn, hs, he, hp, hm, ?_⟩
    intro m hmem
    have h1 := FindConfig_of_mem oldConfig m (hold gid og ho m (hm ▸ hmem))
    have h2 := FindConfig_of_mem newConfig m (hnew gid ng hn m hmem)
    refine ⟨by rw [h1, h2], (hall m hmem).1, ?_⟩
    exact (reflectDeepEqual_iff _ _
      (hmeta oldConfig hmo m (hold gid og ho m (hm ▸ hmem)))
      (hmeta newConfig hmn m (hnew gid ng hn m hmem))).2 (hall m hmem).2

theorem metadataConfigOld_membersExist : metadataConfigOld.MembersExist := by
  intro gid g hg m hmem
  by_cases h : "g" = gid
  · simp [metadataConfigOld, mapGet, h] at hg
    subst hg
    simp at hmem
    subst hmem
    decide
  · simp [metadataConfigOld, mapGet, h] at hg

theorem metadataConfigNew_membersExist : metadataConfigNew.MembersExist := by
  intro gid g hg m hmem
  by_cases h : "g" = gid
  · simp [metadataConfigNew, mapGet, h] at hg
    subst hg
    simp at hmem
    subst hmem
    decide
  · by_cases h2 : "h" = gid
    · simp [metadataConfigNew, mapGet, h, h2] at hg
      subst hg
      simp at hmem
      subst hmem
      decide
    · simp [metadataConfigNew, mapGet, h, h2] at hg

theorem metadataConfigOld_metadataMaps : metadataConfigOld.MetadataMaps := by
  intro id mc md hmc hmd
  by_cases h : "m" = id
  · simp [metadataConfigOld, mapGet, h] at hmc
    subst hmc
    simp at hmd
    subst hmd
    decide
  · simp [metadataConfigOld, mapGet, h] at hmc

theorem metadataConfigNew_metadataMaps : metadataConfigNew.MetadataMaps := by
  intro id mc md hmc hmd
  by_cases h : "m" = id
  · simp [metadataConfigNew, mapGet, h] at hmc
    subst hmc
    simp at hmd
    subst hmd
    decide
  · by_cases h2 : "n" = id
    · simp [metadataConfigNew, mapGet, h, h2] at hmc
      subst hmc
      simp [ModelConfig.zero] at hmd
    · simp [metadataConfigNew, mapGet, h, h2] at hmc

/-- C1, witness: a config and a successor that differ in the traversal order of
the metadata of `m` and in an added model and group; group `g` is compatible, so
the four conditions hold of it. -/
theorem runtimeGroupCompatible_checklist_witness :
    metadataConfigOld.MembersExist ∧ metadataConfigNew.MembersExist ∧
    metadataConfigOld.MetadataMaps ∧ metadataConfigNew.MetadataMaps ∧
    metadataConfigOld ≠ metadataConfigNew ∧
    runtimeGroupCompatible metadataConfigOld metadataConfigNew "g" = true ∧
    ∃ og ng, mapGet metadataConfigOld.Groups "g" = some og ∧
      mapGet metadataConfigNew.Groups "g" = some ng ∧
      (og.Swap = ng.Swap ∧ og.Exclusive = ng.Exclusive ∧ og.Persistent = ng.Persistent) ∧
      (og.Members.length = ng.Members.length ∧
        ∀ i : Nat, og.Members[i]? = ng.Members[i]?) ∧
      ∀ m ∈ ng.Members,
        (metadataConfigOld.FindConfig m).2.1 = (metadataConfigNew.FindConfig m).2.1 ∧
        DeepEqualModelConfig (metadataConfigOld.FindConfig m).1
          (metadataConfigNew.FindConfig m).1 :=
  ⟨metadataConfigOld_membersExist, metadataConfigNew_membersExist,
    metadataConfigOld_metadataMaps, metadataConfigNew_metadataMaps, by decide, by decide,
    (runtimeGroupCompatible_checklist metadataConfigOld metadataConfigNew "g"
      metadataConfigOld_membersExist metadataConfigNew_membersExist
      metadataConfigOld_metadataMaps metadataConfigNew_metadataMaps).1 (by decide)⟩

/-- C2, as stated, fails: with a member that is in neither model table the
predicate holds although FindConfig finds the member in neither config. -/
theorem compatible_without_resolving :
    runtimeGroupCompatible danglingConfig danglingConfig "g" = true ∧
      mapGet danglingConfig.Groups "g" =
        some { Swap := true, Exclusive := true, Persistent := false, Members := ["m"] } ∧
      (danglingConfig.FindConfig "m").2.2 = false := by
  decide

/-- C2, amended: whenever runtimeGroupCompatible returns true, the group exists
in the new config and FindConfig treats every member alike in both configs: the
found flag has the same value on both sides and the resolved names are
identical, so a member that resolves in one config resolves in the other. -/
theorem compatible_members_resolve_alike (oldConfig newConfig : Config) (gid : String)
    (h : runtimeGroupCompatible oldConfig newConfig gid = true) :
    ∃ ng, mapGet newConfig.Groups gid = some ng ∧
      ∀ m ∈ ng.Members,
        (oldConfig.FindConfig m).2.2 = (newConfig.FindConfig m).2.2 ∧
        (oldConfig.FindConfig m).2.1 = (newConfig.FindConfig m).2.1 := by
  obtain ⟨og, ng, _, hn, _, _, _, _, hall⟩ := (runtimeGroupCompatible_iff _ _ _).1 h
  exact ⟨ng, hn, fun m hm => ⟨(hall m hm).1, (hall m hm).2.1⟩⟩

/-- C2, amended, witness: scenario config `C1` against itself. -/
theorem compatible_members_resolve_alike_witness :
    runtimeGroupCompatible scenarioC1 scenarioC1 "g" = true ∧
    ∃ ng, mapGet scenarioC1.Groups "g" = some ng ∧
      ∀ m ∈ ng.Members,
        (scenarioC1.FindConfig m).2.2 = (scenarioC1.FindConfig m).2.2 ∧
        (scenarioC1.FindConfig m).2.1 = (scenarioC1.FindConfig m).2.1 :=
  ⟨by decide, compatible_members_resolve_alike scenarioC1 scenarioC1 "g" (by decide)⟩

/-! ## Claims on applyConfigAndSyncProcessGroups -/

theorem scenarioManager_wellFormed : scenarioManager.WellFormed := by
  refine ⟨by decide, ?_⟩
  intro g ref h
  by_cases hg : "g" = g
  · subst hg
    simp [scenarioManager, mapGet] at h
    subst h
    exact ⟨_, rfl, rfl⟩
  · simp [scenarioManager, mapGet, hg] at h

/-- C3: in a well-formed manager, a group ID that is in the old group table and
for which runtimeGroupCompatible holds between the live and the new config is
mapped by the new table to the very same ProcessGroup reference, and Shutdown is
not called on that reference. -/
theorem apply_preserves_compatible_group (pm : ProxyManager) (newConfig : Config)
    (g : String) (ref : Nat) (hwf : pm.WellFormed)
    (hp : mapGet pm.processGroups g = some ref)
    (hc : runtimeGroupCompatible pm.config newConfig g = true) :
    mapGet (applyConfigAndSyncProcessGroups pm newConfig).pm.processGroups g = some ref ∧
      ref ∉ (applyConfigAndSyncProcessGroups pm newConfig).shutdownCalls :=
  ⟨apply_table_reuse pm newConfig g ref hp hc, reused_not_shutdown pm newConfig g ref hwf hp hc⟩

/-- C3, witness: re-applying `C1` to the scenario manager keeps object 0 for `g`. -/
theorem apply_preserves_compatible_group_witness :
    scenarioManager.WellFormed ∧
    mapGet scenarioManager.processGroups "g" = some 0 ∧
    runtimeGroupCompatible scenarioManager.config scenarioC1 "g" = true ∧
    mapGet (applyConfigAndSyncProcessGroups scenarioManager scenarioC1).pm.processGroups "g"
      = some 0 ∧
    0 ∉ (applyConfigAndSyncProcessGroups scenarioManager scenarioC1).shutdownCalls :=
  ⟨scenarioManager_wellFormed, by decide, by decide,
    apply_preserves_compatible_group scenarioManager scenarioC1 "g" 0
      scenarioManager_wellFormed (by decide) (by decide)⟩

/-- C4, as stated, fails: applying `C2` (only the description of `m` differs from
`C1`) to the scenario manager maps `g` to a fresh object and shuts the old one down. -/
theorem description_change_replaces_group :
    mapGet scenarioManager.processGroups "g" = some 0 ∧
    mapGet (applyConfigAndSyncProcessGroups scenarioManager scenarioC2).pm.processGroups "g"
      = some 1 ∧
    (applyConfigAndSyncProcessGroups scenarioManager scenarioC2).shutdownCalls = [0] := by
  decide

/-- C4, amended: a change of a member's description makes the group incompatible.
In a well-formed manager with group `g` in the table, if the new config still has
group `g` with member `m` and the ModelConfig of `m` has a different Description
in the live and in the new config, then runtimeGroupCompatible is false, Shutdown
is called on the old object, and the new table maps `g` to a fresh object. -/
theorem apply_replaces_group_on_description_change (pm : ProxyManager) (newConfig : Config)
    (g : String) (ref : Nat) (ng : GroupConfig) (m : String) (c1 c2 : ModelConfig)
    (hwf : pm.WellFormed)
    (hp : mapGet pm.processGroups g = some ref)
    (hg : mapGet newConfig.Groups g = some ng) (hm : m ∈ ng.Members)
    (h1 : mapGet pm.config.Models m = some c1) (h2 : mapGet newConfig.Models m = some c2)
    (hd : c1.Description ≠ c2.Description) :
    runtimeGroupCompatible pm.config newConfig g = false ∧
    ref ∈ (applyConfigAndSyncProcessGroups pm newConfig).shutdownCalls ∧
    ∃ fresh, mapGet (applyConfigAndSyncProcessGroups pm newConfig).pm.processGroups g
        = some fresh ∧ fresh ≠ ref ∧ pm.heap.length ≤ fresh := by
  have hc : runtimeGroupCompatible pm.config newConfig g = false := by
    cases hcc : runtimeGroupCompatible pm.config newConfig g with
    | false => rfl
    | true =>
      exfalso
      obtain ⟨og, ng', _, hn', _, _, _, _, hall⟩ := (runtimeGroupCompatible_iff _ _ _).1 hcc
      rw [hg] at hn'
      cases hn'
      have hde := (hall m hm).2.2
      rw [FindConfig_of_mem pm.config m (by rw [h1]; rfl),
        FindConfig_of_mem newConfig m (by rw [h2]; rfl), h1, h2] at hde
      exact hd (reflectDeepEqual_description c1 c2 hde)
  refine ⟨hc, (mem_apply_shutdownCalls pm newConfig hwf.1 ref).2 ⟨g, hp, Or.inr hc⟩, ?_⟩
  have hk : g ∈ mapKeys (applyConfigAndSyncProcessGroups pm newConfig).pm.processGroups := by
    rw [apply_table_keys, ← mapGet_isSome_iff, hg]
    rfl
  rw [← mapGet_isSome_iff] at hk
  obtain ⟨q, hq⟩ := Option.isSome_iff_exists.1 hk
  have hlive := WellFormed.live pm hwf g ref hp
  rcases apply_table_cases pm newConfig g q hq with h | h
  · rw [hc] at h
    exact absurd h.2 (by simp)
  · exact ⟨q, hq, by omega, h⟩

/-- C4, amended, witness: the scenario manager and `C2`. -/
theorem apply_replaces_group_on_description_change_witness :
    runtimeGroupCompatible scenarioManager.config scenarioC2 "g" = false ∧
    0 ∈ (applyConfigAndSyncProcessGroups scenarioManager scenarioC2).shutdownCalls ∧
    ∃ fresh, mapGet (applyConfigAndSyncProcessGroups scenarioManager scenarioC2).pm.processGroups
        "g" = some fresh ∧ fresh ≠ 0 ∧ scenarioManager.heap.length ≤ fresh :=
  apply_replaces_group_on_description_change scenarioManager scenarioC2 "g" 0
    { Swap := true, Exclusive := true, Persistent := false, Members := ["m"] } "m"
    { Cmd := "sleep 1000", Proxy := ":8001", Name := "", Description := "",
      Unlisted := false, UseModelName := "", Metadata := none }
    { Cmd := "sleep 1000", Proxy := ":8001", Name := "", Description := "new",
      Unlisted := false, UseModelName := "", Metadata := none }
    scenarioManager_wellFormed (by decide) (by decide) (by decide) (by decide) (by decide)
    (by decide)

/-- C5: after applyConfigAndSyncProcessGroups the live config is the new config
and the key set of the group table is exactly the key set of the new config's
groups: every group ID of the new config is bound, to one reference, no other ID
is bound, and no ID occurs twice in the table. -/
theorem apply_installs_new_config (pm : ProxyManager) (newConfig : Config) :
    (applyConfigAndSyncProcessGroups pm newConfig).pm.config = newConfig ∧
    (∀ g, g ∈ mapKeys (applyConfigAndSyncProcessGroups pm newConfig).pm.processGroups ↔
      g ∈ mapKeys newConfig.Groups) ∧
    (∀ g ∈ mapKeys newConfig.Groups, ∃ ref,
      mapGet (applyConfigAndSyncProcessGroups pm newConfig).pm.processGroups g = some ref) ∧
    (∀ g, g ∉ mapKeys newConfig.Groups →
      mapGet (applyConfigAndSyncProcessGroups pm newConfig).pm.processGroups g = none) ∧
    (mapKeys (applyConfigAndSyncProcessGroups pm newConfig).pm.processGroups).Nodup := by
  refine ⟨rfl, apply_table_keys pm newConfig, ?_, ?_, apply_table_nodup pm newConfig⟩
  · intro g hg
    rw [← apply_table_keys pm newConfig g, ← mapGet_isSome_iff] at hg
    exact Option.isSome_iff_exists.1 hg
  · intro g hg
    rw [mapGet_eq_none_iff, apply_table_keys]
    exact hg

/-- C6: in a well-formed manager and for a new config whose group table is a map,
Shutdown is called exactly on the objects of the old table whose ID is absent
from the new config or present but not runtime-compatible; each of them is shut
down exactly once; and no object reachable from the new table is shut down. -/
theorem apply_shutdown_exact (pm : ProxyManager) (newConfig : Config)
    (hwf : pm.WellFormed) (hn : (mapKeys newConfig.Groups).Nodup) :
    (∀ ref, ref ∈ (applyConfigAndSyncProcessGroups pm newConfig).shutdownCalls ↔
      ∃ g, mapGet pm.processGroups g = some ref ∧
        (g ∉ mapKeys newConfig.Groups ∨ runtimeGroupCompatible pm.config newConfig g = false)) ∧
    (∀ ref ∈ (applyConfigAndSyncProcessGroups pm newConfig).shutdownCalls,
      (applyConfigAndSyncProcessGroups pm newConfig).shutdownCalls.count ref = 1) ∧
    (∀ ref ∈ mapVals (applyConfigAndSyncProcessGroups pm newConfig).pm.processGroups,
      ref ∉ (applyConfigAndSyncProcessGroups pm newConfig).shutdownCalls) := by
  refine ⟨mem_apply_shutdownCalls pm newConfig hwf.1, ?_, ?_⟩
  · intro ref href
    exact List.count_eq_one_of_mem (apply_shutdownCalls_nodup pm newConfig hwf hn) href
  · intro ref href
    obtain ⟨e, he, hx⟩ := List.mem_map.1 href
    obtain ⟨g, v⟩ := e
    simp only at hx
    subst hx
    have hq := mapGet_of_mem _ _ _ (apply_table_nodup pm newConfig) he
    rcases apply_table_cases pm newConfig g v hq with h | h
    · exact reused_not_shutdown pm newConfig g v hwf h.1 h.2
    · intro hmem
      obtain ⟨g', hp', _⟩ := (mem_apply_shutdownCalls pm newConfig hwf.1 v).1 hmem
      have := WellFormed.live pm hwf g' v hp'
      omega

/-- C6, witness: the scenario manager and `C2`. -/
theorem apply_shutdown_exact_witness :
    scenarioManager.WellFormed ∧ (mapKeys scenarioC2.Groups).Nodup ∧
    ((∀ ref, ref ∈ (applyConfigAndSyncProcessGroups scenarioManager scenarioC2).shutdownCalls ↔
      ∃ g, mapGet scenarioManager.processGroups g = some ref ∧
        (g ∉ mapKeys scenarioC2.Groups ∨
          runtimeGroupCompatible scenarioManager.config scenarioC2 g = false)) ∧
    (∀ ref ∈ (applyConfigAndSyncProcessGroups scenarioManager scenarioC2).shutdownCalls,
      (applyConfigAndSyncProcessGroups scenarioManager scenarioC2).shutdownCalls.count ref = 1) ∧
    (∀ ref ∈ mapVals (applyConfigAndSyncProcessGroups scenarioManager scenarioC2).pm.processGroups,
      ref ∉ (applyConfigAndSyncProcessGroups scenarioManager scenarioC2).shutdownCalls)) :=
  ⟨scenarioManager_wellFormed, by decide,
    apply_shutdown_exact scenarioManager scenarioC2 scenarioManager_wellFormed (by decide)⟩

/-- C7: for a group that applyConfigAndSyncProcessGroups reuses, the object after
the call is the object before the call with its config reference replaced by the
new config and its swap, exclusive and persistent fields replaced by those of
the new config's group; its id, its processes map and its closed mark are
unchanged. -/
theorem apply_reuse_frame (pm : ProxyManager) (newConfig : Config) (g : String) (ref : Nat)
    (hwf : pm.WellFormed) (hp : mapGet pm.processGroups g = some ref)
    (hc : runtimeGroupCompatible pm.config newConfig g = true) :
    ∃ before after ng, pm.heap[ref]? = some before ∧ mapGet newConfig.Groups g = some ng ∧
      (applyConfigAndSyncProcessGroups pm newConfig).pm.heap[ref]? = some after ∧
      after = { before with config := newConfig, swap := ng.Swap, exclusive := ng.Exclusive,
                            persistent := ng.Persistent } ∧
      after.id = before.id ∧ after.processes = before.processes ∧
      after.closed = before.closed := by
  obtain ⟨x, hx, _⟩ := hwf.2 g ref hp
  obtain ⟨og, ng, _, hng, _⟩ := (runtimeGroupCompatible_iff _ _ _).1 hc
  have hns := reused_not_shutdown pm newConfig g ref hwf hp hc
  refine ⟨x, _, ng, hx, hng, ?_, rfl, rfl, rfl, rfl⟩
  rw [← reuseGroup_of_get newConfig g ng x hng]
  have hh : (applyConfigAndSyncProcessGroups pm newConfig).pm.heap[ref]? =
      ((mapKeys newConfig.Groups).foldl (syncGroup pm.config newConfig pm.processGroups)
        { heap := pm.heap, nextGroups := [], groupsToShutdown := [] }).heap[ref]? := by
    exact shutdownFold_get _ _ ref hns
  rw [hh]
  exact syncFold_heap_reused pm.config newConfig pm.processGroups _ _ g ref x
    (WellFormed.nodup_vals pm hwf) hp hc hx (compatible_mem_newKeys _ _ _ hc)

/-- C7, witness: re-applying `C1` to the scenario manager. -/
theorem apply_reuse_frame_witness :
    ∃ before after ng, scenarioManager.heap[0]? = some before ∧
      mapGet scenarioC1.Groups "g" = some ng ∧
      (applyConfigAndSyncProcessGroups scenarioManager scenarioC1).pm.heap[0]? = some after ∧
      after = { before with config := scenarioC1, swap := ng.Swap, exclusive := ng.Exclusive,
                            persistent := ng.Persistent } ∧
      after.id = before.id ∧ after.processes = before.processes ∧
      after.closed = before.closed :=
  apply_reuse_frame scenarioManager scenarioC1 "g" 0 scenarioManager_wellFormed
    (by decide) (by decide)

/-! ## The listing loop of getModelStatus -/

theorem lt_of_getElem?_eq_some {α : Type} (l : List α) (i : Nat) (x : α)
    (h : l[i]? = some x) : i < l.length := by
  by_contra hge
  rw [List.getElem?_eq_none (Nat.le_of_not_lt hge)] at h
  cases h

theorem listModel_inv (listed : String → ModelConfig → Bool)
    (fg : String → Option ProcessGroup) (config : Config) (st : ListingState)
    (modelID : String) (h : ListingInv fg config st) :
    ListingInv fg config (listModel listed fg config st modelID) := by
  obtain ⟨h1, h2, h3, h4⟩ := h
  have hidx : ∀ c ∈ st.candidates, c.index < st.models.length := by
    intro c hc
    obtain ⟨m, hm, _⟩ := h1 c hc
    exact lt_of_getElem?_eq_some _ _ _ hm
  unfold listModel
  by_cases hl : listed modelID ((mapGet config.Models modelID).getD ModelConfig.zero) = true
  · by_cases hs : processState fg modelID = StateStopped ∨ processState fg modelID = "unknown"
    · simp only [hl, hs, if_true]
      refine ⟨?_, ?_, ?_, ?_⟩
      · intro c hc
        rcases List.mem_append.1 hc with hc | hc
        · obtain ⟨m, hm, hrest⟩ := h1 c hc
          exact ⟨m, by rw [List.getElem?_append_left (hidx c hc)]; exact hm, hrest⟩
        · simp only [List.mem_singleton] at hc
          subst hc
          exact ⟨{ Id := modelID,
                   Name := ((mapGet config.Models modelID).getD ModelConfig.zero).Name,
                   Description := ((mapGet config.Models modelID).getD ModelConfig.zero).Description,
                   State := processState fg modelID,
                   Unlisted := ((mapGet config.Models modelID).getD ModelConfig.zero).Unlisted,
                   PeerID := "" }, by simp, hs, rfl, rfl⟩
      · intro i m hm hst
        by_cases hi : i < st.models.length
        · rw [List.getElem?_append_left hi] at hm
          obtain ⟨c, hc, hci⟩ := h2 i m hm hst
          exact ⟨c, List.mem_append_left _ hc, hci⟩
        · have hlen := lt_of_getElem?_eq_some _ _ _ hm
          simp only [List.length_append, List.length_singleton] at hlen
          have hi2 : i = st.models.length := by omega
          exact ⟨_, List.mem_append_right _ (List.mem_singleton_self _), hi2.symm⟩
      · rw [List.map_append, List.nodup_append]
        refine ⟨h3, by simp, ?_⟩
        intro x hx1 hx2
        obtain ⟨c, hc, hcx⟩ := List.mem_map.1 hx1
        simp only [List.map_cons, List.map_nil, List.mem_singleton] at hx2
        have := hidx c hc
        omega
      · intro m hm
        rcases List.mem_append.1 hm with hm | hm
        · exact h4 m hm
        · simp only [List.mem_singleton] at hm
          subst hm
          rfl
    · simp only [hl, hs, if_true, if_false]
      refine ⟨?_, ?_, h3, ?_⟩
      · intro c hc
        obtain ⟨m, hm, hrest⟩ := h1 c hc
        exact ⟨m, by rw [List.getElem?_append_left (hidx c hc)]; exact hm, hrest⟩
      · intro i m hm hst
        by_cases hi : i < st.models.length
        · rw [List.getElem?_append_left hi] at hm
          exact h2 i m hm hst
        · have hlen := lt_of_getElem?_eq_some _ _ _ hm
          simp only [List.length_append, List.length_singleton] at hlen
          have hi2 : i = st.models.length := by omega
          subst hi2
          simp at hm
          subst hm
          exact absurd hst hs
      · intro m hm
        rcases List.mem_append.1 hm with hm | hm
        · exact h4 m hm
        · simp only [List.mem_singleton] at hm
          subst hm
          rfl
  · simp only [hl]
    exact ⟨h1, h2, h3, h4⟩

theorem listModels_inv (listed : String → ModelConfig → Bool)
    (fg : String → Option ProcessGroup) (config : Config) :
    ListingInv fg config (listModels listed fg config) := by
  unfold listModels
  have hgen : ∀ (ids : List String) (st : ListingState), ListingInv fg config st →
      ListingInv fg config (ids.foldl (listModel listed fg config) st) := by
    intro ids
    induction ids with
    | nil => intro st h; simpa using h
    | cons id rest ih =>
      intro st h
      rw [List.foldl_cons]
      exact ih _ (listModel_inv listed fg config st id h)
  apply hgen
  refine ⟨?_, ?_, ?_, ?_⟩ <;> simp

/-! ## The reconciliation loop of getModelStatus -/

theorem setState_get_ne (ms : List Model) (i j : Nat) (state : String) (h : i ≠ j) :
    (setState ms i state)[j]? = ms[j]? := by
  unfold setState
  cases ms[i]? with
  | none => rfl
  | some m => simp [List.getElem?_set, h]

theorem setState_get_eq (ms : List Model) (i : Nat) (state : String) (m : Model)
    (h : ms[i]? = some m) : (setState ms i state)[i]? = some { m with State := state } := by
  have hlt := lt_of_getElem?_eq_some _ _ _ h
  unfold setState
  rw [h]
  simp [List.getElem?_set, hlt]

theorem setState_withoutState (ms : List Model) (i : Nat) (state : String) :
    (setState ms i state).map withoutState = ms.map withoutState := by
  unfold setState
  cases h : ms[i]? with
  | none => rfl
  | some m =>
    have hlt := lt_of_getElem?_eq_some _ _ _ h
    apply List.ext_getElem?
    intro j
    rw [List.getElem?_map, List.getElem?_map, List.getElem?_set]
    by_cases hij : i = j
    · subst hij
      simp [hlt, h, withoutState]
    · simp [hij]

theorem markReady_served (lower : Char → Char) (served : List String) (ms : List Model)
    (idx : Nat) (keys : List String) (h : servedKey lower served keys) :
    markReady lower served ms idx keys = setState ms idx StateReady := by
  induction keys with
  | nil =>
    obtain ⟨k, hk, _⟩ := h
    simp at hk
  | cons key rest ih =>
    unfold markReady
    by_cases hn : normalizeModelKey lower key = ""
    · simp only [hn, if_true]
      apply ih
      obtain ⟨k, hk, h1, h2⟩ := h
      rcases List.mem_cons.1 hk with e | e
      · subst e
        exact absurd hn h1
      · exact ⟨k, e, h1, h2⟩
    · by_cases hm : normalizeModelKey lower key ∈ served
      · simp only [hn, hm, if_true, if_false]
      · simp only [hn, hm, if_false]
        apply ih
        obtain ⟨k, hk, h1, h2⟩ := h
        rcases List.mem_cons.1 hk with e | e
        · subst e
          exact absurd h2 hm
        · exact ⟨k, e, h1, h2⟩

theorem markReady_not_served (lower : Char → Char) (served : List String) (ms : List Model)
    (idx : Nat) (keys : List String) (h : ¬ servedKey lower served keys) :
    markReady lower served ms idx keys = ms := by
  induction keys with
  | nil => rfl
  | cons key rest ih =>
    have hrest : ¬ servedKey lower served rest := by
      rintro ⟨k, hk, h1, h2⟩
      exact h ⟨k, List.mem_cons_of_mem _ hk, h1, h2⟩
    unfold markReady
    by_cases hn : normalizeModelKey lower key = ""
    · simp only [hn, if_true]
      exact ih hrest
    · by_cases hm : normalizeModelKey lower key ∈ served
      · exact absurd ⟨key, List.mem_cons_self _ _, hn, hm⟩ h
      · simp only [hn, hm, if_false]
        exact ih hrest

theorem mapSet_of_none {V : Type} (m : List (String × V)) (k : String) (v : V)
    (h : mapGet m k = none) : mapSet m k v = m ++ [(k, v)] := by
  induction m with
  | nil => rfl
  | cons kv rest ih =>
    obtain ⟨k0, v0⟩ := kv
    by_cases hk : k0 = k
    · simp [mapGet, hk] at h
    · simp only [mapGet, hk, if_false] at h
      simp [mapSet, hk, ih h]

theorem reconcileCandidate_blank (lower : Char → Char) (probe : Nat → String → List String)
    (st : ReconcileState) (c : probeCandidate) (h : TrimSpace c.proxy = "") :
    reconcileCandidate lower probe st c = st := by
  unfold reconcileCandidate
  simp [h]

theorem reconcileCandidate_spec (lower : Char → Char) (probe : Nat → String → List String)
    (st : ReconcileState) (c : probeCandidate) (h : TrimSpace c.proxy ≠ "") :
    ∃ served,
      mapGet (reconcileCandidate lower probe st c).servedByProxy (TrimSpace c.proxy)
        = some served ∧
      ((mapGet st.servedByProxy (TrimSpace c.proxy) = some served ∧
          (reconcileCandidate lower probe st c).servedByProxy = st.servedByProxy ∧
          (reconcileCandidate lower probe st c).probes = st.probes) ∨
       (mapGet st.servedByProxy (TrimSpace c.proxy) = none ∧
          served = probe st.probes.length (TrimSpace c.proxy) ∧
          (reconcileCandidate lower probe st c).servedByProxy =
            st.servedByProxy ++ [(TrimSpace c.proxy, served)] ∧
          (reconcileCandidate lower probe st c).probes = st.probes ++ [TrimSpace c.proxy])) ∧
      (servedKey lower served c.keys →
        (reconcileCandidate lower probe st c).models = setState st.models c.index StateReady) ∧
      (¬ servedKey lower served c.keys →
        (reconcileCandidate lower probe st c).models = st.models) := by
  have hempty : ∀ keys, ¬ servedKey lower [] keys := by
    rintro keys ⟨k, _, _, hk⟩
    simp at hk
  have hcase : (∃ served, mapGet st.servedByProxy (TrimSpace c.proxy) = some served) ∨
      mapGet st.servedByProxy (TrimSpace c.proxy) = none := by
    cases mapGet st.servedByProxy (TrimSpace c.proxy) with
    | none => exact Or.inr rfl
    | some v => exact Or.inl ⟨v, rfl⟩
  rcases hcase with ⟨served, hg⟩ | hg
  · refine ⟨served, ?_⟩
    by_cases hlen : served.length = 0
    · have hrc : reconcileCandidate lower probe st c = st := by
        unfold reconcileCandidate
        simp only [h, if_false, servedFor, hg, hlen, if_true]
      have hnil : served = [] := List.eq_nil_of_length_eq_zero hlen
      rw [hrc]
      refine ⟨hg, Or.inl ⟨hg, rfl, rfl⟩, ?_, fun _ => rfl⟩
      intro hs
      rw [hnil] at hs
      exact absurd hs (hempty _)
    · have hrc : reconcileCandidate lower probe st c =
          { st with models := markReady lower served st.models c.index c.keys } := by
        unfold reconcileCandidate
        simp only [h, if_false, servedFor, hg, hlen]
      rw [hrc]
      exact ⟨hg, Or.inl ⟨hg, rfl, rfl⟩, fun hs => markReady_served _ _ _ _ _ hs,
        fun hs => markReady_not_served _ _ _ _ _ hs⟩
  · refine ⟨probe st.probes.length (TrimSpace c.proxy), ?_⟩
    have hset := mapSet_of_none st.servedByProxy (TrimSpace c.proxy)
      (probe st.probes.length (TrimSpace c.proxy)) hg
    have hget : mapGet (st.servedByProxy ++ [(TrimSpace c.proxy,
        probe st.probes.length (TrimSpace c.proxy))]) (TrimSpace c.proxy)
        = some (probe st.probes.length (TrimSpace c.proxy)) := by
      rw [← hset, mapGet_mapSet]
      simp
    by_cases hlen : (probe st.probes.length (TrimSpace c.proxy)).length = 0
    · have hrc : reconcileCandidate lower probe st c =
          { st with
            servedByProxy := st.servedByProxy ++ [(TrimSpace c.proxy,
              probe st.probes.length (TrimSpace c.proxy))],
            probes := st.probes ++ [TrimSpace c.proxy] } := by
        unfold reconcileCandidate
        simp only [h, if_false, servedFor, hg, hlen, if_true, hset]
      have hnil := List.eq_nil_of_length_eq_zero hlen
      rw [hrc]
      refine ⟨hget, Or.inr ⟨hg, rfl, rfl, rfl⟩, ?_, fun _ => rfl⟩
      intro hs
      rw [hnil] at hs
      exact absurd hs (hempty _)
    · have hrc : reconcileCandidate lower probe st c =
          { models := markReady lower (probe st.probes.length (TrimSpace c.proxy)) st.models
              c.index c.keys,
            servedByProxy := st.servedByProxy ++ [(TrimSpace c.proxy,
              probe st.probes.length (TrimSpace c.proxy))],
            probes := st.probes ++ [TrimSpace c.proxy] } := by
        unfold reconcileCandidate
        simp only [h, if_false, servedFor, hg, hlen, hset]
      rw [hrc]
      exact ⟨hget, Or.inr ⟨hg, rfl, rfl, rfl⟩, fun hs => markReady_served _ _ _ _ _ hs,
        fun hs => markReady_not_served _ _ _ _ _ hs⟩

theorem reconcileCandidate_frame (lower : Char → Char) (probe : Nat → String → List String)
    (st : ReconcileState) (c : probeCandidate) (j : Nat) (h : c.index ≠ j) :
    (reconcileCandidate lower probe st c).models[j]? = st.models[j]? := by
  by_cases hb : TrimSpace c.proxy = ""
  · rw [reconcileCandidate_blank _ _ _ _ hb]
  · obtain ⟨served, _, _, h1, h2⟩ := reconcileCandidate_spec lower probe st c hb
    by_cases hs : servedKey lower served c.keys
    · rw [h1 hs, setState_get_ne _ _ _ _ h]
    · rw [h2 hs]

theorem reconcileCandidate_withoutState (lower : Char → Char)
    (probe : Nat → String → List String) (st : ReconcileState) (c : probeCandidate) :
    (reconcileCandidate lower probe st c).models.map withoutState =
      st.models.map withoutState := by
  by_cases hb : TrimSpace c.proxy = ""
  · rw [reconcileCandidate_blank _ _ _ _ hb]
  · obtain ⟨served, _, _, h1, h2⟩ := reconcileCandidate_spec lower probe st c hb
    by_cases hs : servedKey lower served c.keys
    · rw [h1 hs, setState_withoutState]
    · rw [h2 hs]

theorem mapGet_append_singleton {V : Type} (m : List (String × V)) (k u : String) (v : V)
    (h : mapGet m k = none) :
    mapGet (m ++ [(k, v)]) u = if k = u then some v else mapGet m u := by
  rw [← mapSet_of_none m k v h, mapGet_mapSet]

theorem reconcileCandidate_cache_persist (lower : Char → Char)
    (probe : Nat → String → List String) (st : ReconcileState) (c : probeCandidate)
    (u : String) (served : List String) (h : mapGet st.servedByProxy u = some served) :
    mapGet (reconcileCandidate lower probe st c).servedByProxy u = some served := by
  by_cases hb : TrimSpace c.proxy = ""
  · rw [reconcileCandidate_blank _ _ _ _ hb]
    exact h
  · obtain ⟨s2, _, hor, _, _⟩ := reconcileCandidate_spec lower probe st c hb
    rcases hor with ⟨_, hc, _⟩ | ⟨hnone, _, hc, _⟩
    · rw [hc]
      exact h
    · rw [hc, mapGet_append_singleton _ _ _ _ hnone]
      by_cases hu : TrimSpace c.proxy = u
      · rw [hu, h] at hnone
        cases hnone
      · simp [hu, h]

theorem reconcileCandidate_inv (lower : Char → Char) (probe : Nat → String → List String)
    (st : ReconcileState) (c : probeCandidate) (h : ReconcileInv probe st) :
    ReconcileInv probe (reconcileCandidate lower probe st c) := by
  by_cases hb : TrimSpace c.proxy = ""
  · rw [reconcileCandidate_blank _ _ _ _ hb]
    exact h
  · obtain ⟨s2, _, hor, _, _⟩ := reconcileCandidate_spec lower probe st c hb
    obtain ⟨hk, hprov⟩ := h
    rcases hor with ⟨_, hc, hp⟩ | ⟨hnone, hs2, hc, hp⟩
    · refine ⟨by rw [hc, hp]; exact hk, ?_⟩
      intro u served hu
      rw [hc] at hu
      rw [hp]
      exact hprov u served hu
    · refine ⟨by rw [hc, hp]; simp [mapKeys] at hk ⊢; exact hk, ?_⟩
      intro u served hu
      rw [hc, mapGet_append_singleton _ _ _ _ hnone] at hu
      rw [hp]
      by_cases hu2 : TrimSpace c.proxy = u
      · rw [if_pos hu2] at hu
        cases hu
        refine ⟨st.probes.length, ?_, ?_⟩
        · rw [← hu2]
          simp
        · rw [← hu2]
          exact hs2
      · rw [if_neg hu2] at hu
        obtain ⟨k, hk1, hk2⟩ := hprov u served hu
        exact ⟨k, by rw [List.getElem?_append_left (lt_of_getElem?_eq_some _ _ _ hk1)]; exact hk1,
          hk2⟩

theorem reconcileCandidate_probes (lower : Char → Char) (probe : Nat → String → List String)
    (st : ReconcileState) (c : probeCandidate) (h : ReconcileInv probe st) :
    (reconcileCandidate lower probe st c).probes = st.probes ∨
      ((reconcileCandidate lower probe st c).probes = st.probes ++ [TrimSpace c.proxy] ∧
        TrimSpace c.proxy ≠ "" ∧ TrimSpace c.proxy ∉ st.probes) := by
  by_cases hb : TrimSpace c.proxy = ""
  · rw [reconcileCandidate_blank _ _ _ _ hb]
    exact Or.inl rfl
  · obtain ⟨s2, _, hor, _, _⟩ := reconcileCandidate_spec lower probe st c hb
    rcases hor with ⟨_, _, hp⟩ | ⟨hnone, _, _, hp⟩
    · exact Or.inl hp
    · refine Or.inr ⟨hp, hb, ?_⟩
      rw [← h.1]
      exact (mapGet_eq_none_iff _ _).1 hnone

theorem reconcileFold_frame (lower : Char → Char) (probe : Nat → String → List String)
    (cs : List probeCandidate) (st : ReconcileState) (j : Nat)
    (h : ∀ c ∈ cs, c.index ≠ j) :
    (cs.foldl (reconcileCandidate lower probe) st).models[j]? = st.models[j]? := by
  induction cs generalizing st with
  | nil => rfl
  | cons c rest ih =>
    rw [List.foldl_cons, ih _ (fun d hd => h d (List.mem_cons_of_mem _ hd))]
    exact reconcileCandidate_frame lower probe st c j (h c (List.mem_cons_self _ _))

theorem reconcileFold_withoutState (lower : Char → Char) (probe : Nat → String → List String)
    (cs : List probeCandidate) (st : ReconcileState) :
    (cs.foldl (reconcileCandidate lower probe) st).models.map withoutState =
      st.models.map withoutState := by
  induction cs generalizing st with
  | nil => rfl
  | cons c rest ih => rw [List.foldl_cons, ih, reconcileCandidate_withoutState]

theorem reconcileFold_cache_persist (lower : Char → Char) (probe : Nat → String → List String)
    (cs : List probeCandidate) (st : ReconcileState) (u : String) (served : List String)
    (h : mapGet st.servedByProxy u = some served) :
    mapGet (cs.foldl (reconcileCandidate lower probe) st).servedByProxy u = some served := by
  induction cs generalizing st with
  | nil => exact h
  | cons c rest ih =>
    rw [List.foldl_cons]
    exact ih _ (reconcileCandidate_cache_persist lower probe st c u served h)

theorem reconcileFold_inv (lower : Char → Char) (probe : Nat → String → List String)
    (cs : List probeCandidate) (st : ReconcileState) (h : ReconcileInv probe st) :
    ReconcileInv probe (cs.foldl (reconcileCandidate lower probe) st) := by
  induction cs generalizing st with
  | nil => exact h
  | cons c rest ih =>
    rw [List.foldl_cons]
    exact ih _ (reconcileCandidate_inv lower probe st c h)

theorem reconcileFold_probes_nodup (lower : Char → Char) (probe : Nat → String → List String)
    (cs : List probeCandidate) (st : ReconcileState) (h : ReconcileInv probe st)
    (hnd : st.probes.Nodup) :
    (cs.foldl (reconcileCandidate lower probe) st).probes.Nodup := by
  induction cs generalizing st with
  | nil => exact hnd
  | cons c rest ih =>
    rw [List.foldl_cons]
    apply ih _ (reconcileCandidate_inv lower probe st c h)
    rcases reconcileCandidate_probes lower probe st c h with hp | ⟨hp, _, hnot⟩
    · rw [hp]
      exact hnd
    · rw [hp, List.nodup_append]
      refine ⟨hnd, by simp, ?_⟩
      intro x hx1 hx2
      simp only [List.mem_singleton] at hx2
      subst hx2
      exact hnot hx1

theorem reconcileFold_probes_mem (lower : Char → Char) (probe : Nat → String → List String)
    (cs : List probeCandidate) (st : ReconcileState) (h : ReconcileInv probe st) :
    ∀ u ∈ (cs.foldl (reconcileCandidate lower probe) st).probes,
      u ∈ st.probes ∨ ∃ c ∈ cs, TrimSpace c.proxy = u ∧ u ≠ "" := by
  induction cs generalizing st with
  | nil =>
    intro u hu
    exact Or.inl hu
  | cons c rest ih =>
    intro u hu
    rw [List.foldl_cons] at hu
    rcases ih _ (reconcileCandidate_inv lower probe st c h) u hu with h1 | ⟨d, hd, hd2⟩
    · rcases reconcileCandidate_probes lower probe st c h with hp | ⟨hp, hne, _⟩
      · rw [hp] at h1
        exact Or.inl h1
      · rw [hp] at h1
        rcases List.mem_append.1 h1 with h2 | h2
        · exact Or.inl h2
        · simp only [List.mem_singleton] at h2
          subst h2
          exact Or.inr ⟨c, List.mem_cons_self _ _, rfl, hne⟩
    · exact Or.inr ⟨d, List.mem_cons_of_mem _ hd, hd2⟩

theorem reconcileFold_candidate (lower : Char → Char) (probe : Nat → String → List String)
    (cs : List probeCandidate) (st : ReconcileState) (c : probeCandidate) (m : Model)
    (hnd : (cs.map probeCandidate.index).Nodup) (hc : c ∈ cs)
    (hm : st.models[c.index]? = some m) :
    (TrimSpace c.proxy = "" →
      (cs.foldl (reconcileCandidate lower probe) st).models[c.index]? = some m) ∧
    (TrimSpace c.proxy ≠ "" →
      ∃ served,
        mapGet (cs.foldl (reconcileCandidate lower probe) st).servedByProxy (TrimSpace c.proxy)
          = some served ∧
        (servedKey lower served c.keys →
          (cs.foldl (reconcileCandidate lower probe) st).models[c.index]?
            = some { m with State := StateReady }) ∧
        (¬ servedKey lower served c.keys →
          (cs.foldl (reconcileCandidate lower probe) st).models[c.index]? = some m)) := by
  induction cs generalizing st with
  | nil => simp at hc
  | cons d rest ih =>
    have hd1 : d.index ∉ rest.map probeCandidate.index := (List.nodup_cons.1 hnd).1
    have hd2 : (rest.map probeCandidate.index).Nodup := (List.nodup_cons.1 hnd).2
    rw [List.foldl_cons]
    by_cases hidx : d.index = c.index
    · have hcd : c = d := by
        rcases List.mem_cons.1 hc with e | e
        · exact e
        · exact absurd (hidx ▸ List.mem_map_of_mem probeCandidate.index e) hd1
      subst hcd
      have hfr : ∀ e ∈ rest, e.index ≠ c.index := by
        intro e he heq
        exact hd1 (heq ▸ List.mem_map_of_mem probeCandidate.index he)
      rw [reconcileFold_frame lower probe rest _ c.index hfr]
      constructor
      · intro hb
        rw [reconcileCandidate_blank _ _ _ _ hb]
        exact hm
      · intro hb
        obtain ⟨served, hget, _, h1, h2⟩ := reconcileCandidate_spec lower probe st c hb
        refine ⟨served, reconcileFold_cache_persist lower probe rest _ _ _ hget, ?_, ?_⟩
        · intro hs
          rw [h1 hs]
          exact setState_get_eq _ _ _ _ hm
        · intro hs
          rw [h2 hs]
          exact hm
    · have hcr : c ∈ rest := by
        rcases List.mem_cons.1 hc with e | e
        · exact absurd (e ▸ rfl) hidx
        · exact e
      apply ih _ hd2 hcr
      rw [reconcileCandidate_frame lower probe st d c.index hidx]
      exact hm

theorem appendPeer_prefix (ms : List Model) (peer : String × List String) :
    ∃ extra, appendPeer ms peer = ms ++ extra := by
  unfold appendPeer
  generalize peer.2 = ids
  induction ids generalizing ms with
  | nil => exact ⟨[], by simp⟩
  | cons id rest ih =>
    rw [List.foldl_cons]
    obtain ⟨e, he⟩ := ih (ms ++ [⟨id, "", "", "", false, peer.1⟩])
    exact ⟨⟨id, "", "", "", false, peer.1⟩ :: e, by rw [he]; simp⟩

theorem appendPeerModels_prefix (ms : List Model) (peers : List (String × List String)) :
    ∃ extra, appendPeerModels ms peers = ms ++ extra := by
  unfold appendPeerModels
  induction peers generalizing ms with
  | nil => exact ⟨[], by simp⟩
  | cons p rest ih =>
    rw [List.foldl_cons]
    obtain ⟨e1, he1⟩ := appendPeer_prefix ms p
    obtain ⟨e2, he2⟩ := ih (appendPeer ms p)
    exact ⟨e1 ++ e2, by rw [he2, he1]; simp⟩

/-! ## Claims on getModelStatus -/

theorem runModelStatus_eq (lower : Char → Char) (listed : String → ModelConfig → Bool)
    (fg : String → Option ProcessGroup) (probe : Nat → String → List String)
    (peers : Option (List (String × List String))) (config : Config) :
    ∃ extra,
      (runModelStatus lower listed fg probe peers config).models =
        ((listModels listed fg config).candidates.foldl (reconcileCandidate lower probe)
          { models := (listModels listed fg config).models, servedByProxy := [],
            probes := [] }).models ++ extra ∧
      (runModelStatus lower listed fg probe peers config).servedByProxy =
        ((listModels listed fg config).candidates.foldl (reconcileCandidate lower probe)
          { models := (listModels listed fg config).models, servedByProxy := [],
            probes := [] }).servedByProxy ∧
      (runModelStatus lower listed fg probe peers config).probes =
        ((listModels listed fg config).candidates.foldl (reconcileCandidate lower probe)
          { models := (listModels listed fg config).models, servedByProxy := [],
            probes := [] }).probes := by
  have hst1 : ∀ (cs : List probeCandidate) (st0 : ReconcileState),
      (if cs.length > 0 then cs.foldl (reconcileCandidate lower probe) st0 else st0) =
        cs.foldl (reconcileCandidate lower probe) st0 := by
    intro cs st0
    cases cs with
    | nil => simp
    | cons c rest => simp
  cases peers with
  | none =>
    refine ⟨[], ?_, ?_, ?_⟩ <;> simp [runModelStatus, hst1]
  | some ps =>
    obtain ⟨extra, he⟩ := appendPeerModels_prefix
      ((listModels listed fg config).candidates.foldl (reconcileCandidate lower probe)
        { models := (listModels listed fg config).models, servedByProxy := [],
          probes := [] }).models ps
    refine ⟨extra, ?_, ?_, ?_⟩
    · simp only [runModelStatus, hst1]
      exact he
    · simp only [runModelStatus, hst1]
    · simp only [runModelStatus, hst1]

theorem reconcileInv_init (probe : Nat → String → List String) (ms : List Model) :
    ReconcileInv probe { models := ms, servedByProxy := [], probes := [] } := by
  refine ⟨rfl, ?_⟩
  intro u served h
  simp [mapGet] at h

/-- C8: for every listed local model of getModelStatus, the entry returned at
its position agrees with the listed entry in every field other than State. If
its process state is stopped or unknown and its proxy URL is not blank, the
cache holds the served IDs probed from that URL, State is "ready" if and only if
the normalised model ID or the normalised UseModelName alias is non-empty and
among those IDs, and otherwise State is the process state. A model in another
process state, or with a blank proxy URL, keeps its process state. -/
theorem getModelStatus_reconciles (lower : Char → Char) (listed : String → ModelConfig → Bool)
    (fg : String → Option ProcessGroup) (probe : Nat → String → List String)
    (peers : Option (List (String × List String))) (config : Config) (i : Nat) (lm : Model)
    (hl : (listModels listed fg config).models[i]? = some lm) :
    ∃ fm, (getModelStatus lower listed fg probe peers config)[i]? = some fm ∧
      lm.State = processState fg lm.Id ∧
      (fm.Id = lm.Id ∧ fm.Name = lm.Name ∧ fm.Description = lm.Description ∧
        fm.Unlisted = lm.Unlisted ∧ fm.PeerID = lm.PeerID) ∧
      (((lm.State = StateStopped ∨ lm.State = "unknown") ∧
          TrimSpace ((mapGet config.Models lm.Id).getD ModelConfig.zero).Proxy ≠ "") →
        ∃ served k,
          mapGet (runModelStatus lower listed fg probe peers config).servedByProxy
            (TrimSpace ((mapGet config.Models lm.Id).getD ModelConfig.zero).Proxy)
            = some served ∧
          (runModelStatus lower listed fg probe peers config).probes[k]?
            = some (TrimSpace ((mapGet config.Models lm.Id).getD ModelConfig.zero).Proxy) ∧
          served = probe k (TrimSpace ((mapGet config.Models lm.Id).getD ModelConfig.zero).Proxy) ∧
          (fm.State = StateReady ↔
            servedKey lower served
              [lm.Id, ((mapGet config.Models lm.Id).getD ModelConfig.zero).UseModelName]) ∧
          (¬ servedKey lower served
              [lm.Id, ((mapGet config.Models lm.Id).getD ModelConfig.zero).UseModelName] →
            fm.State = lm.State)) ∧
      (¬ ((lm.State = StateStopped ∨ lm.State = "unknown") ∧
          TrimSpace ((mapGet config.Models lm.Id).getD ModelConfig.zero).Proxy ≠ "") →
        fm.State = lm.State) := by
  obtain ⟨I1, I2, I3, I4⟩ := listModels_inv listed fg config
  obtain ⟨extra, hmodels, hcache, hprobes⟩ := runModelStatus_eq lower listed fg probe peers config
  have hinv := reconcileFold_inv lower probe (listModels listed fg config).candidates _
    (reconcileInv_init probe (listModels listed fg config).models)
  have hws := reconcileFold_withoutState lower probe (listModels listed fg config).candidates
    { models := (listModels listed fg config).models, servedByProxy := [], probes := [] }
  -- the entry at position `i` after the loop
  have hex : ∃ fm, ((listModels listed fg config).candidates.foldl
      (reconcileCandidate lower probe)
      { models := (listModels listed fg config).models, servedByProxy := [],
        probes := [] }).models[i]? = some fm ∧ withoutState fm = withoutState lm := by
    have h1 := congrArg (fun l => l[i]?) hws
    simp only [List.getElem?_map, hl, Option.map_some'] at h1
    cases hfm : ((listModels listed fg config).candidates.foldl
      (reconcileCandidate lower probe)
      { models := (listModels listed fg config).models, servedByProxy := [],
        probes := [] }).models[i]? with
    | none => rw [hfm] at h1; simp at h1
    | some fm =>
      rw [hfm] at h1
      simp only [Option.map_some', Option.some.injEq] at h1
      exact ⟨fm, rfl, h1⟩
  obtain ⟨fm, hfm, hwo⟩ := hex
  have hrun : (getModelStatus lower listed fg probe peers config)[i]? = some fm := by
    unfold getModelStatus
    rw [hmodels, List.getElem?_append_left (lt_of_getElem?_eq_some _ _ _ hfm)]
    exact hfm
  have hfields : fm.Id = lm.Id ∧ fm.Name = lm.Name ∧ fm.Description = lm.Description ∧
      fm.Unlisted = lm.Unlisted ∧ fm.PeerID = lm.PeerID := by
    unfold withoutState at hwo
    cases fm
    cases lm
    simp only [Model.mk.injEq] at hwo
    simp only
    tauto
  refine ⟨fm, hrun, I4 lm (List.getElem?_mem hl), hfields, ?_, ?_⟩
  · rintro ⟨hstate, hurl⟩
    obtain ⟨c, hc, hci⟩ := I2 i lm hl hstate
    obtain ⟨m', hm', _, hproxy, hkeys⟩ := I1 c hc
    rw [hci, hl] at hm'
    cases hm'
    rw [← hproxy] at hurl ⊢
    rw [← hkeys]
    obtain ⟨served, hget, hyes, hno⟩ :=
      (reconcileFold_candidate lower probe (listModels listed fg config).candidates
        { models := (listModels listed fg config).models, servedByProxy := [], probes := [] }
        c lm I3 hc (by rw [hci]; exact hl)).2 hurl
    obtain ⟨k, hk1, hk2⟩ := hinv.2 _ _ hget
    rw [hci, hfm] at hyes hno
    refine ⟨served, k, by rw [hcache]; exact hget, by rw [hprobes]; exact hk1, hk2, ?_, ?_⟩
    · constructor
      · intro hready
        by_contra hs
        have h2 := hno hs
        simp only [Option.some.injEq] at h2
        rw [h2] at hready
        rcases hstate with h3 | h3
        · rw [h3] at hready
          exact absurd hready (by decide)
        · rw [h3] at hready
          exact absurd hready (by decide)
      · intro hs
        have h2 := hyes hs
        simp only [Option.some.injEq] at h2
        rw [h2]
    · intro hs
      have h2 := hno hs
      simp only [Option.some.injEq] at h2
      rw [h2]
  · intro hcond
    by_cases hstate : lm.State = StateStopped ∨ lm.State = "unknown"
    · have hurl : TrimSpace ((mapGet config.Models lm.Id).getD ModelConfig.zero).Proxy = "" := by
        by_contra hne
        exact hcond ⟨hstate, hne⟩
      obtain ⟨c, hc, hci⟩ := I2 i lm hl hstate
      obtain ⟨m', hm', _, hproxy, _⟩ := I1 c hc
      rw [hci, hl] at hm'
      cases hm'
      rw [← hproxy] at hurl
      have h2 := (reconcileFold_candidate lower probe (listModels listed fg config).candidates
        { models := (listModels listed fg config).models, servedByProxy := [], probes := [] }
        c lm I3 hc (by rw [hci]; exact hl)).1 hurl
      rw [hci, hfm] at h2
      simp only [Option.some.injEq] at h2
      rw [h2]
    · have hfr : ∀ c ∈ (listModels listed fg config).candidates, c.index ≠ i := by
        intro c hc hci
        obtain ⟨m', hm', hst', _⟩ := I1 c hc
        rw [hci, hl] at hm'
        cases hm'
        exact hstate hst'
      have h2 := reconcileFold_frame lower probe (listModels listed fg config).candidates
        { models := (listModels listed fg config).models, servedByProxy := [], probes := [] }
        i hfr
      rw [hfm, hl] at h2
      simp only [Option.some.injEq] at h2
      rw [h2]

/-- C8, witness: scenario 6 of the spec, a stopped model whose upstream serves it. -/
theorem getModelStatus_reconciles_witness :
    ∃ fm, (getModelStatus lowerASCII (fun _ _ => true) (fun _ => none) (fun _ _ => ["m"]) none
        scenario6Config)[0]? = some fm ∧ fm.Id = "m" ∧ fm.State = "ready" := by
  obtain ⟨fm, h1, _, h2, _, _⟩ := getModelStatus_reconciles lowerASCII (fun _ _ => true)
    (fun _ => none) (fun _ _ => ["m"]) none scenario6Config 0
    { Id := "m", Name := "", Description := "", State := "unknown", Unlisted := false,
      PeerID := "" } (by decide)
  refine ⟨fm, h1, h2.1, ?_⟩
  have h3 : (getModelStatus lowerASCII (fun _ _ => true) (fun _ => none) (fun _ _ => ["m"]) none
      scenario6Config)[0]? = some ⟨"m", "", "", "ready", false, ""⟩ := by decide
  rw [h3] at h1
  cases h1
  rfl

/-- C9: in one run of getModelStatus no proxy URL is probed twice, whatever the
probes return; the empty URL is never probed; every probed URL is the trimmed
proxy URL of a listed model whose process state is stopped or unknown; and
without such a model no probe is made. -/
theorem getModelStatus_probes_once (lower : Char → Char) (listed : String → ModelConfig → Bool)
    (fg : String → Option ProcessGroup) (probe : Nat → String → List String)
    (peers : Option (List (String × List String))) (config : Config) :
    (runModelStatus lower listed fg probe peers config).probes.Nodup ∧
    "" ∉ (runModelStatus lower listed fg probe peers config).probes ∧
    (∀ u ∈ (runModelStatus lower listed fg probe peers config).probes,
      ∃ m ∈ (listModels listed fg config).models,
        (m.State = StateStopped ∨ m.State = "unknown") ∧
        TrimSpace ((mapGet config.Models m.Id).getD ModelConfig.zero).Proxy = u) ∧
    ((∀ m ∈ (listModels listed fg config).models,
        ¬ (m.State = StateStopped ∨ m.State = "unknown")) →
      (runModelStatus lower listed fg probe peers config).probes = []) := by
  obtain ⟨I1, I2, I3, I4⟩ := listModels_inv listed fg config
  obtain ⟨extra, _, _, hprobes⟩ := runModelStatus_eq lower listed fg probe peers config
  have hmem := reconcileFold_probes_mem lower probe (listModels listed fg config).candidates _
    (reconcileInv_init probe (listModels listed fg config).models)
  rw [← hprobes] at hmem
  have hsrc : ∀ u ∈ (runModelStatus lower listed fg probe peers config).probes,
      u ≠ "" ∧ ∃ m ∈ (listModels listed fg config).models,
        (m.State = StateStopped ∨ m.State = "unknown") ∧
        TrimSpace ((mapGet config.Models m.Id).getD ModelConfig.zero).Proxy = u := by
    intro u hu
    rcases hmem u hu with h | ⟨c, hc, hcu, hne⟩
    · simp at h
    · obtain ⟨m, hm, hst, hproxy, _⟩ := I1 c hc
      exact ⟨hne, m, List.getElem?_mem hm, hst, by rw [← hproxy]; exact hcu⟩
  refine ⟨?_, ?_, fun u hu => (hsrc u hu).2, ?_⟩
  · rw [hprobes]
    exact reconcileFold_probes_nodup lower probe _ _
      (reconcileInv_init probe (listModels listed fg config).models) (by simp)
  · intro h
    exact (hsrc "" h).1 rfl
  · intro hnone
    cases hp : (runModelStatus lower listed fg probe peers config).probes with
    | nil => rfl
    | cons u rest =>
      exfalso
      obtain ⟨_, m, hm, hst, _⟩ := hsrc u (by rw [hp]; exact List.mem_cons_self _ _)
      exact hnone m hm hst

/-- An evaluation: two candidates share one proxy URL whose probe returns the
empty set, a third has a blank URL; the URL is probed once. -/
theorem probes_shared_url_example :
    (runModelStatus lowerASCII (fun _ _ => true) (fun _ => none) (fun _ _ => []) none
      sharedProxyConfig).probes = ["http://host:1"] := by
  decide

/-! ## Claims on the send buffer -/

theorem trySend_length_le (st : ClientState) (pick : Bool) (msg : messageEnvelope)
    (h : st.sendBuffer.length ≤ sendBufferCapacity) :
    (trySend st pick msg).sendBuffer.length ≤ sendBufferCapacity := by
  unfold trySend
  by_cases hlt : st.sendBuffer.length < sendBufferCapacity
  · cases st.ctxDone <;> cases pick <;> simp [hlt] <;> omega
  · simp [hlt, h]

theorem clientStep_length_le (st : ClientState) (e : ClientEvent)
    (h : st.sendBuffer.length ≤ sendBufferCapacity) :
    (clientStep st e).sendBuffer.length ≤ sendBufferCapacity := by
  cases e with
  | models m pick => cases m <;> simp [clientStep, sendModels, h, trySend_length_le]
  | logData m pick => cases m <;> simp [clientStep, sendLogData, h, trySend_length_le]
  | metrics m pick => cases m <;> simp [clientStep, sendMetrics, h, trySend_length_le]
  | receive =>
    unfold clientStep receive
    cases hb : st.sendBuffer with
    | nil => simp [hb, sendBufferCapacity]
    | cons msg rest =>
      rw [hb] at h
      simp at h ⊢
      omega
  | cancel => simpa [clientStep] using h

theorem clientRun_length_le (st : ClientState) (events : List ClientEvent)
    (h : st.sendBuffer.length ≤ sendBufferCapacity) :
    (clientRun st events).sendBuffer.length ≤ sendBufferCapacity := by
  unfold clientRun
  induction events generalizing st with
  | nil => simpa using h
  | cons e rest ih =>
    rw [List.foldl_cons]
    exact ih _ (clientStep_length_le st e h)

theorem clientStep_eq_trySend (st : ClientState) (e : ClientEvent) (msg : messageEnvelope)
    (h : e.envelope = some msg) :
    ∃ pick, clientStep st e = trySend st pick msg := by
  cases e with
  | models m pick =>
    cases m with
    | none => simp [ClientEvent.envelope] at h
    | some d =>
      simp [ClientEvent.envelope] at h
      exact ⟨pick, by simp [clientStep, sendModels, h]⟩
  | logData m pick =>
    cases m with
    | none => simp [ClientEvent.envelope] at h
    | some d =>
      simp [ClientEvent.envelope] at h
      exact ⟨pick, by simp [clientStep, sendLogData, h]⟩
  | metrics m pick =>
    cases m with
    | none => simp [ClientEvent.envelope] at h
    | some d =>
      simp [ClientEvent.envelope] at h
      exact ⟨pick, by simp [clientStep, sendMetrics, h]⟩
  | receive => simp [ClientEvent.envelope] at h
  | cancel => simp [ClientEvent.envelope] at h

/-- Outside the sequences of enqueue attempts and dequeues: once the context is
cancelled, an enqueue on a buffer with free room may take the `ctx.Done()` case
and leave the buffer as it is. -/
theorem enqueue_after_cancel_may_drop :
    (clientRun newClient [ClientEvent.cancel]).sendBuffer.length < 25 ∧
    (ClientEvent.models (some "[]") false).envelope
      = some { Typ := "modelStatus", Data := "[]" } ∧
    (clientStep (clientRun newClient [ClientEvent.cancel])
      (ClientEvent.models (some "[]") false)).sendBuffer = [] := by
  decide

/-- The cases of one enqueue, cancellation included: on a full buffer the client is
unchanged; on a buffer with free room and a live context the envelope is appended
at the tail; on a buffer with free room and a cancelled context either of the two
happens. -/
theorem enqueue_cases (st : ClientState) (e : ClientEvent)
    (msg : messageEnvelope) (h : e.envelope = some msg) :
    (st.sendBuffer.length = 25 → clientStep st e = st) ∧
    (st.sendBuffer.length < 25 → st.ctxDone = false →
      clientStep st e = { st with sendBuffer := st.sendBuffer ++ [msg] }) ∧
    (st.sendBuffer.length < 25 → st.ctxDone = true →
      clientStep st e = st ∨
      clientStep st e = { st with sendBuffer := st.sendBuffer ++ [msg] }) := by
  obtain ⟨pick, hp⟩ := clientStep_eq_trySend st e msg h
  refine ⟨?_, ?_, ?_⟩
  · intro hfull
    rw [hp]
    simp [trySend, hfull, sendBufferCapacity]
  · intro hlt hctx
    rw [hp]
    simp [trySend, hlt, hctx, sendBufferCapacity]
  · intro hlt hctx
    rw [hp]
    cases pick <;> simp [trySend, hlt, hctx, sendBufferCapacity]

theorem trySend_ctxDone (st : ClientState) (pick : Bool) (msg : messageEnvelope) :
    (trySend st pick msg).ctxDone = st.ctxDone := by
  unfold trySend
  split <;> (try split) <;> (try split) <;> rfl

theorem clientStep_ctxDone (st : ClientState) (e : ClientEvent)
    (h : e ≠ ClientEvent.cancel) : (clientStep st e).ctxDone = st.ctxDone := by
  cases e with
  | models m pick => cases m <;> simp [clientStep, sendModels, trySend_ctxDone]
  | logData m pick => cases m <;> simp [clientStep, sendLogData, trySend_ctxDone]
  | metrics m pick => cases m <;> simp [clientStep, sendMetrics, trySend_ctxDone]
  | receive =>
    unfold clientStep receive
    cases st.sendBuffer <;> rfl
  | cancel => exact absurd rfl h

theorem clientRun_ctxDone (st : ClientState) (events : List ClientEvent)
    (h : ∀ ev ∈ events, ev ≠ ClientEvent.cancel) :
    (clientRun st events).ctxDone = st.ctxDone := by
  unfold clientRun
  induction events generalizing st with
  | nil => rfl
  | cons e rest ih =>
    rw [List.foldl_cons, ih _ (fun ev hev => h ev (List.mem_cons_of_mem _ hev))]
    exact clientStep_ctxDone st e (h e (List.mem_cons_self _ _))

/-- C10: for every sequence of enqueue attempts (sendModels, sendLogData,
sendMetrics) and dequeues on the sendBuffer of a new client, the buffer holds at
most 25 envelopes; an enqueue attempted while the buffer holds 25 envelopes
leaves the client as it is (the message is dropped, the call returns); and an
enqueue attempted while it holds fewer than 25 appends the message at the tail. -/
theorem sendBuffer_capacity (events : List ClientEvent) (e : ClientEvent)
    (msg : messageEnvelope) (hseq : ∀ ev ∈ events, ev ≠ ClientEvent.cancel)
    (h : e.envelope = some msg) :
    (clientRun newClient events).sendBuffer.length ≤ 25 ∧
    ((clientRun newClient events).sendBuffer.length = 25 →
      clientStep (clientRun newClient events) e = clientRun newClient events) ∧
    ((clientRun newClient events).sendBuffer.length < 25 →
      clientStep (clientRun newClient events) e =
        { clientRun newClient events with
          sendBuffer := (clientRun newClient events).sendBuffer ++ [msg] }) := by
  have hctx : (clientRun newClient events).ctxDone = false :=
    clientRun_ctxDone newClient events hseq
  obtain ⟨h1, h2, _⟩ := enqueue_cases (clientRun newClient events) e msg h
  exact ⟨clientRun_length_le newClient events (by decide), h1, fun hlt => h2 hlt hctx⟩

/-- C10, witness: two enqueues and one dequeue leave one envelope in the buffer,
and a log message offered then is appended behind it. -/
theorem sendBuffer_capacity_witness :
    (∀ ev ∈ [ClientEvent.models (some "[]") true, ClientEvent.metrics (some "{}") false,
        ClientEvent.receive], ev ≠ ClientEvent.cancel) ∧
    (ClientEvent.logData (some "x") true).envelope = some { Typ := "logData", Data := "x" } ∧
    (clientStep (clientRun newClient [ClientEvent.models (some "[]") true,
        ClientEvent.metrics (some "{}") false, ClientEvent.receive])
      (ClientEvent.logData (some "x") true)).sendBuffer =
      [{ Typ := "metrics", Data := "{}" }, { Typ := "logData", Data := "x" }] := by
  refine ⟨by decide, by decide, ?_⟩
  rw [(sendBuffer_capacity [ClientEvent.models (some "[]") true,
      ClientEvent.metrics (some "{}") false, ClientEvent.receive]
    (ClientEvent.logData (some "x") true) { Typ := "logData", Data := "x" }
    (by decide) (by decide)).2.2 (by decide)]
  decide

/-! ## Claims on the event stream -/

theorem trySend_accepted (st : ClientState) (pick : Bool) (msg : messageEnvelope) :
    ∃ acc, (trySend st pick msg).accepted = st.accepted ++ acc ∧ List.Sublist acc [msg] := by
  unfold trySend
  by_cases hlt : st.sendBuffer.length < sendBufferCapacity
  · cases hc : st.ctxDone
    · exact ⟨[msg], by simp [hlt, ClientState.accepted], List.Sublist.refl _⟩
    · cases pick
      · exact ⟨[], by simp [hlt, ClientState.accepted], List.nil_sublist _⟩
      · exact ⟨[msg], by simp [hlt, ClientState.accepted], List.Sublist.refl _⟩
  · exact ⟨[], by simp [hlt], List.nil_sublist _⟩

theorem receive_accepted (st : ClientState) : (receive st).accepted = st.accepted := by
  unfold receive ClientState.accepted
  cases hb : st.sendBuffer with
  | nil => simp [hb]
  | cons msg rest => simp

theorem clientStep_accepted (st : ClientState) (e : ClientEvent) :
    ∃ acc, (clientStep st e).accepted = st.accepted ++ acc ∧
      List.Sublist acc e.envelope.toList := by
  cases e with
  | models m pick =>
    cases m with
    | none => exact ⟨[], by simp [clientStep, sendModels], List.nil_sublist _⟩
    | some d => exact trySend_accepted st pick _
  | logData m pick =>
    cases m with
    | none => exact ⟨[], by simp [clientStep, sendLogData], List.nil_sublist _⟩
    | some d => exact trySend_accepted st pick _
  | metrics m pick =>
    cases m with
    | none => exact ⟨[], by simp [clientStep, sendMetrics], List.nil_sublist _⟩
    | some d => exact trySend_accepted st pick _
  | receive => exact ⟨[], by simp [clientStep, receive_accepted], List.nil_sublist _⟩
  | cancel => exact ⟨[], by simp [clientStep, ClientState.accepted], List.nil_sublist _⟩

theorem clientRun_accepted (st : ClientState) (events : List ClientEvent) :
    ∃ acc, (clientRun st events).accepted = st.accepted ++ acc ∧
      List.Sublist acc (events.filterMap ClientEvent.envelope) := by
  unfold clientRun
  induction events generalizing st with
  | nil => exact ⟨[], by simp, List.nil_sublist _⟩
  | cons e rest ih =>
    rw [List.foldl_cons]
    obtain ⟨acc1, h1, s1⟩ := clientStep_accepted st e
    obtain ⟨acc2, h2, s2⟩ := ih (clientStep st e)
    refine ⟨acc1 ++ acc2, by rw [h2, h1, List.append_assoc], ?_⟩
    have hfm : (e :: rest).filterMap ClientEvent.envelope =
        e.envelope.toList ++ rest.filterMap ClientEvent.envelope := by
      cases he : e.envelope <;> simp [List.filterMap_cons, he]
    rw [hfm]
    exact List.Sublist.append s1 s2

/-- C12: for one SSE client, after every sequence of enqueue attempts, receives
and cancellations, the envelopes written to the client (and, behind them, the
envelopes still queued) form a subsequence of the envelopes offered to the
buffer, in the order of the attempts, whatever their types: messages may be
dropped, none is reordered or duplicated. -/
theorem written_sublist_of_attempts (events : List ClientEvent) :
    List.Sublist (clientRun newClient events).written
      (events.filterMap ClientEvent.envelope) ∧
    List.Sublist ((clientRun newClient events).written ++ (clientRun newClient events).sendBuffer)
      (events.filterMap ClientEvent.envelope) := by
  obtain ⟨acc, h, hs⟩ := clientRun_accepted newClient events
  have h2 : (clientRun newClient events).written ++ (clientRun newClient events).sendBuffer
      = acc := by
    simpa [ClientState.accepted, newClient] using h
  rw [h2]
  refine ⟨?_, hs⟩
  exact List.Sublist.trans (h2 ▸ List.sublist_append_left _ _) hs

theorem streamStep_accepted (st : StreamState) (a : StreamAction) :
    ∃ acc, (streamStep st a).client.accepted = st.client.accepted ++ acc := by
  have hm : ∀ m pick, ∃ acc, (sendModels st.client m pick).accepted
      = st.client.accepted ++ acc := by
    intro m pick
    obtain ⟨acc, h, _⟩ := clientStep_accepted st.client (ClientEvent.models m pick)
    exact ⟨acc, h⟩
  have hl : ∀ m pick, ∃ acc, (sendLogData st.client m pick).accepted
      = st.client.accepted ++ acc := by
    intro m pick
    obtain ⟨acc, h, _⟩ := clientStep_accepted st.client (ClientEvent.logData m pick)
    exact ⟨acc, h⟩
  have ht : ∀ m pick, ∃ acc, (sendMetrics st.client m pick).accepted
      = st.client.accepted ++ acc := by
    intro m pick
    obtain ⟨acc, h, _⟩ := clientStep_accepted st.client (ClientEvent.metrics m pick)
    exact ⟨acc, h⟩
  have h0 : ∃ acc, st.client.accepted = st.client.accepted ++ acc := ⟨[], by simp⟩
  cases a with
  | advance m pick =>
    simp only [streamStep]
    split <;> (first | exact h0 | exact hl m pick | exact hm m pick | exact ht m pick)
  | publish src m pick =>
    simp only [streamStep]
    by_cases hreg : src ∈ st.handlers
    · cases src <;> simp only [hreg, if_true] <;>
        (first | exact hl m pick | exact hm m pick | exact ht m pick)
    · simp only [hreg, if_false]
      exact h0
  | receive =>
    simp only [streamStep]
    by_cases hpc : st.pc = 9
    · simp only [hpc, if_true]
      exact ⟨[], by simp [receive_accepted]⟩
    · simp only [hpc, if_false]
      exact h0
  | exit =>
    simp only [streamStep]
    split
    · exact ⟨[], by simp [ClientState.accepted]⟩
    · exact h0
  | disconnect => exact ⟨[], by simp [streamStep, ClientState.accepted]⟩
  | shutdown => exact ⟨[], by simp [streamStep]⟩

theorem streamRun_accepted (st : StreamState) (actions : List StreamAction) :
    ∃ acc, (streamRun st actions).client.accepted = st.client.accepted ++ acc := by
  unfold streamRun
  induction actions generalizing st with
  | nil => exact ⟨[], by simp⟩
  | cons a rest ih =>
    rw [List.foldl_cons]
    obtain ⟨acc1, h1⟩ := streamStep_accepted st a
    obtain ⟨acc2, h2⟩ := ih (streamStep st a)
    exact ⟨acc1 ++ acc2, by rw [h2, h1, List.append_assoc]⟩

theorem streamRun_append (st : StreamState) (a b : List StreamAction) :
    streamRun st (a ++ b) = streamRun (streamRun st a) b := by
  unfold streamRun
  rw [List.foldl_append]

/-- C11, as stated, fails: the handler for process-state changes is registered by
the first statement, before the initial batch; an event published right after it
puts a live model-status message into the buffer ahead of the four initial
messages. -/
theorem live_message_before_initial_batch :
    (streamRun streamStart [StreamAction.advance none false]).handlers
      = [LiveSource.processStateChange] ∧
    (streamRun streamStart [StreamAction.advance none false]).client.sendBuffer = [] ∧
    (streamRun streamStart
      ([StreamAction.advance none false,
        StreamAction.publish LiveSource.processStateChange (some "live") true,
        StreamAction.advance none false, StreamAction.advance none false,
        StreamAction.advance none false, StreamAction.advance none false] ++
       initialBatchActions "p" "u" "m" "t" true true true true)).client.sendBuffer
      = { Typ := "modelStatus", Data := "live" } :: initialEnvelopes "p" "u" "m" "t" := by
  decide

theorem streamStep_handlers (st : StreamState) (a : StreamAction)
    (h : (st.pc ≤ 9 ∧ st.handlers = allSources.take st.pc) ∨ (st.pc = 10 ∧ st.handlers = [])) :
    ((streamStep st a).pc ≤ 9 ∧
        (streamStep st a).handlers = allSources.take (streamStep st a).pc) ∨
      ((streamStep st a).pc = 10 ∧ (streamStep st a).handlers = []) := by
  cases a with
  | advance m pick =>
    simp only [streamStep]
    split
    all_goals (first
      | exact h
      | (rename_i hpc
         rcases h with ⟨_, hh⟩ | ⟨h10, _⟩
         · left
           rw [hpc] at hh
           exact ⟨by simp, by simp [hh, allSources]⟩
         · omega))
  | publish src m pick =>
    simp only [streamStep]
    split
    · cases src <;> exact h
    · exact h
  | receive =>
    simp only [streamStep]
    split
    · exact h
    · exact h
  | exit =>
    simp only [streamStep]
    split
    · right
      exact ⟨rfl, rfl⟩
    · exact h
  | disconnect => exact h
  | shutdown => exact h

theorem streamRun_handlers (actions : List StreamAction) (st : StreamState)
    (h : (st.pc ≤ 9 ∧ st.handlers = allSources.take st.pc) ∨ (st.pc = 10 ∧ st.handlers = [])) :
    ((streamRun st actions).pc ≤ 9 ∧
        (streamRun st actions).handlers = allSources.take (streamRun st actions).pc) ∨
      ((streamRun st actions).pc = 10 ∧ (streamRun st actions).handlers = []) := by
  unfold streamRun
  induction actions generalizing st with
  | nil => exact h
  | cons a rest ih =>
    rw [List.foldl_cons]
    exact ih (streamStep st a) (streamStep_handlers st a h)

theorem initialOffer_of_ge (pc : Nat) (m : Option String) (h : 9 ≤ pc) :
    initialOffer pc m = none := by
  unfold initialOffer
  split <;> (first | rfl | omega)

theorem offersFrom_of_ge (l : List (Option String)) (pc : Nat) (h : 9 ≤ pc) :
    offersFrom pc l = [] := by
  induction l generalizing pc with
  | nil => rfl
  | cons m rest ih =>
    simp only [offersFrom, initialOffer_of_ge pc m h, ih (pc + 1) (by omega)]
    rfl

theorem trySend_live (st : ClientState) (pick : Bool) (msg : messageEnvelope)
    (hc : st.ctxDone = false) (hl : st.sendBuffer.length < 25) :
    trySend st pick msg = { st with sendBuffer := st.sendBuffer ++ [msg] } := by
  unfold trySend
  simp [hc, hl, sendBufferCapacity]

theorem receive_ctxDone (st : ClientState) : (receive st).ctxDone = st.ctxDone := by
  unfold receive
  split <;> rfl

theorem receive_length_le (st : ClientState) :
    (receive st).sendBuffer.length ≤ st.sendBuffer.length := by
  unfold receive
  split
  · exact Nat.le_refl _
  · rename_i msg rest h
    simp [h]

theorem streamStep_advance_done (st : StreamState) (m : Option String) (pick : Bool)
    (h : 9 ≤ st.pc) : streamStep st (StreamAction.advance m pick) = st := by
  simp only [streamStep]
  split <;> (first | rfl | omega)

theorem offer_quiet (c : ClientState) (o : Option messageEnvelope) (pick : Bool) :
    ∃ acc, (match o with
        | none => c
        | some msg => trySend c pick msg).accepted = c.accepted ++ acc ∧
      List.Sublist acc o.toList ∧
      (c.ctxDone = false → c.sendBuffer.length < 25 →
        acc = o.toList ∧
        (match o with
          | none => c
          | some msg => trySend c pick msg).ctxDone = false ∧
        (match o with
          | none => c
          | some msg => trySend c pick msg).sendBuffer.length ≤ c.sendBuffer.length + 1) := by
  cases o with
  | none => exact ⟨[], by simp, List.Sublist.refl _, fun hc _ => ⟨rfl, hc, by simp⟩⟩
  | some msg =>
    obtain ⟨acc, hacc, hsub⟩ := trySend_accepted c pick msg
    refine ⟨acc, hacc, hsub, ?_⟩
    intro hc hl
    simp only [trySend_live c pick msg hc hl] at hacc ⊢
    refine ⟨?_, hc, by simp⟩
    simpa [ClientState.accepted] using hacc.symm

theorem sendLogData_offer (c : ClientState) (m : Option String) (pick : Bool) :
    sendLogData c m pick =
      (match (m.map fun data => ({ Typ := msgTypeLogData, Data := data } : messageEnvelope)) with
        | none => c
        | some msg => trySend c pick msg) := by
  cases m <;> rfl

theorem sendModels_offer (c : ClientState) (m : Option String) (pick : Bool) :
    sendModels c m pick =
      (match (m.map fun data => ({ Typ := msgTypeModelStatus, Data := data } : messageEnvelope))
        with
        | none => c
        | some msg => trySend c pick msg) := by
  cases m <;> rfl

theorem sendMetrics_offer (c : ClientState) (m : Option String) (pick : Bool) :
    sendMetrics c m pick =
      (match (m.map fun data => ({ Typ := msgTypeMetrics, Data := data } : messageEnvelope)) with
        | none => c
        | some msg => trySend c pick msg) := by
  cases m <;> rfl

/-- One statement of the handler: what the channel accepts is a subsequence of
what the statement offers, and all of it while the context is live. -/
theorem advance_quiet (st : StreamState) (m : Option String) (pick : Bool) (n : Nat)
    (hpc : st.pc = n ∨ (9 ≤ st.pc ∧ 9 ≤ n)) :
    ∃ acc, (streamStep st (StreamAction.advance m pick)).client.accepted
        = st.client.accepted ++ acc ∧
      List.Sublist acc (initialOffer n m).toList ∧
      ((streamStep st (StreamAction.advance m pick)).pc = n + 1 ∨
        (9 ≤ (streamStep st (StreamAction.advance m pick)).pc ∧ 9 ≤ n + 1)) ∧
      ((st.client.ctxDone = false ∨ 9 ≤ st.pc) →
        st.client.sendBuffer.length + (9 - st.pc) ≤ 25 →
        acc = (initialOffer n m).toList ∧
        ((streamStep st (StreamAction.advance m pick)).client.ctxDone = false ∨
          9 ≤ (streamStep st (StreamAction.advance m pick)).pc) ∧
        (streamStep st (StreamAction.advance m pick)).client.sendBuffer.length +
          (9 - (streamStep st (StreamAction.advance m pick)).pc) ≤ 25) := by
  by_cases h9 : 9 ≤ st.pc
  · have hn : 9 ≤ n := by omega
    rw [streamStep_advance_done st m pick h9, initialOffer_of_ge n m hn]
    exact ⟨[], by simp, List.Sublist.refl _, Or.inr ⟨h9, by omega⟩,
      fun hc hl => ⟨rfl, hc, hl⟩⟩
  · have hn : st.pc = n := by omega
    have hlt : n < 9 := by omega
    have hreg : ∀ st2 : StreamState, st2.client = st.client → st2.pc = n + 1 → n < 5 →
        ∃ acc, st2.client.accepted = st.client.accepted ++ acc ∧
          List.Sublist acc (initialOffer n m).toList ∧
          (st2.pc = n + 1 ∨ (9 ≤ st2.pc ∧ 9 ≤ n + 1)) ∧
          ((st.client.ctxDone = false ∨ 9 ≤ st.pc) →
            st.client.sendBuffer.length + (9 - st.pc) ≤ 25 →
            [] = (initialOffer n m).toList ∧
            (st2.client.ctxDone = false ∨ 9 ≤ st2.pc) ∧
            st2.client.sendBuffer.length + (9 - st2.pc) ≤ 25) := by
      intro st2 hcl hp h5
      have hoff : initialOffer n m = none := by
        unfold initialOffer
        split <;> (first | rfl | omega)
      rw [hoff, hcl]
      refine ⟨[], by simp, List.Sublist.refl _, Or.inl hp, ?_⟩
      intro hc hl
      refine ⟨rfl, ?_, by omega⟩
      rcases hc with hc | hc
      · exact Or.inl hc
      · omega
    have hbatch : ∀ (st2 : StreamState) (o : Option messageEnvelope),
        st2.client = (match o with
          | none => st.client
          | some msg => trySend st.client pick msg) →
        st2.pc = n + 1 → initialOffer n m = o →
        ∃ acc, st2.client.accepted = st.client.accepted ++ acc ∧
          List.Sublist acc (initialOffer n m).toList ∧
          (st2.pc = n + 1 ∨ (9 ≤ st2.pc ∧ 9 ≤ n + 1)) ∧
          ((st.client.ctxDone = false ∨ 9 ≤ st.pc) →
            st.client.sendBuffer.length + (9 - st.pc) ≤ 25 →
            acc = (initialOffer n m).toList ∧
            (st2.client.ctxDone = false ∨ 9 ≤ st2.pc) ∧
            st2.client.sendBuffer.length + (9 - st2.pc) ≤ 25) := by
      intro st2 o hcl hp hoff
      obtain ⟨acc, hacc, hsub, hex⟩ := offer_quiet st.client o pick
      rw [hoff, hcl]
      refine ⟨acc, hacc, hsub, Or.inl hp, ?_⟩
      intro hc hl
      have hc2 : st.client.ctxDone = false := by
        rcases hc with hc | hc
        · exact hc
        · omega
      obtain ⟨e1, e2, e3⟩ := hex hc2 (by omega)
      exact ⟨e1, Or.inl e2, by omega⟩
    by_cases h5 : n < 5
    · interval_cases n
      all_goals
        (obtain ⟨acc, h1, h2, h3, h4⟩ := hreg (streamStep st (StreamAction.advance m pick))
          (by simp only [streamStep, hn]) (by simp only [streamStep, hn]) (by omega)
         exact ⟨acc, h1, h2, h3, fun hc hl => by
           obtain ⟨e1, e2⟩ := h4 hc hl
           exact ⟨by rw [← e1]; exact List.eq_nil_of_sublist_nil (e1 ▸ h2), e2⟩⟩)
    · interval_cases n
      all_goals
        (obtain ⟨acc, h1, h2, h3, h4⟩ := hbatch (streamStep st (StreamAction.advance m pick))
          (initialOffer st.pc m) (by simp only [streamStep, hn]; cases m <;> rfl)
          (by simp only [streamStep, hn]) (by rw [hn])
         exact ⟨acc, h1, h2, h3, h4⟩)

/-- An action that is neither a statement of the handler nor a publication
leaves what the channel has accepted as it is. -/
theorem other_quiet (st : StreamState) (a : StreamAction) (n : Nat)
    (hq : a.isPublish = false) (hadv : ∀ m pick, a ≠ StreamAction.advance m pick)
    (hpc : st.pc = n ∨ (9 ≤ st.pc ∧ 9 ≤ n)) :
    (streamStep st a).client.accepted = st.client.accepted ∧
    ((streamStep st a).pc = n ∨ (9 ≤ (streamStep st a).pc ∧ 9 ≤ n)) ∧
    (a ≠ StreamAction.disconnect → (st.client.ctxDone = false ∨ 9 ≤ st.pc) →
      st.client.sendBuffer.length + (9 - st.pc) ≤ 25 →
      ((streamStep st a).client.ctxDone = false ∨ 9 ≤ (streamStep st a).pc) ∧
      (streamStep st a).client.sendBuffer.length + (9 - (streamStep st a).pc) ≤ 25) := by
  cases a with
  | advance m pick => exact absurd rfl (hadv m pick)
  | publish src m pick => simp [StreamAction.isPublish] at hq
  | receive =>
    simp only [streamStep]
    by_cases h9 : st.pc = 9
    · simp only [h9, if_true]
      refine ⟨receive_accepted _, by omega, ?_⟩
      intro _ _ hl
      refine ⟨Or.inr (Nat.le_refl _), ?_⟩
      have := receive_length_le st.client
      omega
    · rw [if_neg h9]
      exact ⟨rfl, hpc, fun _ hc hl => ⟨hc, hl⟩⟩
  | exit =>
    simp only [streamStep]
    split
    · rename_i hcond
      refine ⟨rfl, Or.inr ⟨by simp, by omega⟩, ?_⟩
      intro _ _ hl
      refine ⟨Or.inr (by simp), ?_⟩
      simp only
      omega
    · exact ⟨rfl, hpc, fun _ hc hl => ⟨hc, hl⟩⟩
  | disconnect =>
    exact ⟨rfl, hpc, fun h => absurd rfl h⟩
  | shutdown =>
    exact ⟨rfl, hpc, fun _ hc hl => ⟨hc, hl⟩⟩

theorem advancePayloads_cons_advance (m : Option String) (pick : Bool)
    (rest : List StreamAction) :
    advancePayloads (StreamAction.advance m pick :: rest) = m :: advancePayloads rest := rfl

theorem advancePayloads_cons_other (a : StreamAction) (rest : List StreamAction)
    (hadv : ∀ m pick, a ≠ StreamAction.advance m pick) :
    advancePayloads (a :: rest) = advancePayloads rest := by
  cases a with
  | advance m pick => exact absurd rfl (hadv m pick)
  | publish src m pick => rfl
  | receive => rfl
  | exit => rfl
  | disconnect => rfl
  | shutdown => rfl

/-- A run without publications: what the channel accepts is a subsequence of what
the statements of the initial batch offer, and all of it when the client stays
connected. -/
theorem streamRun_quiet (actions : List StreamAction) (st : StreamState) (n : Nat)
    (hq : ∀ a ∈ actions, a.isPublish = false)
    (hpc : st.pc = n ∨ (9 ≤ st.pc ∧ 9 ≤ n)) :
    ∃ acc, (streamRun st actions).client.accepted = st.client.accepted ++ acc ∧
      List.Sublist acc (offersFrom n (advancePayloads actions)) ∧
      ((∀ a ∈ actions, a ≠ StreamAction.disconnect) →
        (st.client.ctxDone = false ∨ 9 ≤ st.pc) →
        st.client.sendBuffer.length + (9 - st.pc) ≤ 25 →
        acc = offersFrom n (advancePayloads actions)) := by
  unfold streamRun
  induction actions generalizing st n with
  | nil => exact ⟨[], by simp, List.Sublist.refl _, fun _ _ _ => rfl⟩
  | cons a rest ih =>
    rw [List.foldl_cons]
    have hqa : a.isPublish = false := hq a (List.mem_cons_self _ _)
    have hqr : ∀ b ∈ rest, b.isPublish = false := fun b hb => hq b (List.mem_cons_of_mem _ hb)
    have hcase : (∃ m pick, a = StreamAction.advance m pick) ∨
        ∀ m pick, a ≠ StreamAction.advance m pick := by
      cases a with
      | advance m pick => exact Or.inl ⟨m, pick, rfl⟩
      | publish src m pick => exact Or.inr (fun _ _ h => by cases h)
      | receive => exact Or.inr (fun _ _ h => by cases h)
      | exit => exact Or.inr (fun _ _ h => by cases h)
      | disconnect => exact Or.inr (fun _ _ h => by cases h)
      | shutdown => exact Or.inr (fun _ _ h => by cases h)
    rcases hcase with ⟨m, pick, rfl⟩ | hadv
    · obtain ⟨acc1, h1, s1, p1, e1⟩ := advance_quiet st m pick n hpc
      obtain ⟨acc2, h2, s2, e2⟩ := ih (streamStep st (StreamAction.advance m pick)) (n + 1)
        hqr p1
      rw [advancePayloads_cons_advance]
      refine ⟨acc1 ++ acc2, by rw [h2, h1, List.append_assoc], List.Sublist.append s1 s2, ?_⟩
      intro hd hc hl
      obtain ⟨x1, x2, x3⟩ := e1 hc hl
      rw [x1, e2 (fun b hb => hd b (List.mem_cons_of_mem _ hb)) x2 x3]
      rfl
    · obtain ⟨h1, p1, e1⟩ := other_quiet st a n hqa hadv hpc
      obtain ⟨acc2, h2, s2, e2⟩ := ih (streamStep st a) n hqr p1
      rw [advancePayloads_cons_other a rest hadv]
      refine ⟨acc2, by rw [h2, h1], s2, ?_⟩
      intro hd hc hl
      obtain ⟨x2, x3⟩ := e1 (hd a (List.mem_cons_self _ _)) hc hl
      exact e2 (fun b hb => hd b (List.mem_cons_of_mem _ hb)) x2 x3

/-- C11, amended: in every run of apiSendEvents the live handlers are registered
before the initial batch: as long as the function has not returned, the handlers
registered are those of the registrations already executed, so all five are
registered when the first statement of the initial batch is executed and from
then on. In a run in which no event is published and no log data written up to
some point, what the channel has accepted up to that point is initial payload
only: a subsequence of the messages that the statements of the initial batch
executed so far have offered (proxy log history, upstream log history, model
status, metrics, in this order; a message that cannot be marshalled is not
offered), all of them if the client has not disconnected, and then exactly the
four initial messages once the four statements have marshalled their data.
Whatever happens afterwards, what was accepted up to that point stays ahead of
every later message. -/
theorem initial_batch_after_registration (actions quiet later : List StreamAction)
    (hquiet : ∀ a ∈ quiet, a.isPublish = false) :
    ((streamRun streamStart actions).pc ≤ 9 →
      (streamRun streamStart actions).handlers =
        allSources.take (streamRun streamStart actions).pc) ∧
    List.Sublist (streamRun streamStart quiet).client.accepted (initialOffers quiet) ∧
    ((∀ a ∈ quiet, a ≠ StreamAction.disconnect) →
      (streamRun streamStart quiet).client.accepted = initialOffers quiet) ∧
    (∀ (p0 p1 p2 p3 p4 : Option String) (proxyLog upstreamLog models metrics : String)
        (more : List (Option String)),
      (∀ a ∈ quiet, a ≠ StreamAction.disconnect) →
      advancePayloads quiet = p0 :: p1 :: p2 :: p3 :: p4 :: some proxyLog ::
        some upstreamLog :: some models :: some metrics :: more →
      (streamRun streamStart quiet).client.accepted =
        initialEnvelopes proxyLog upstreamLog models metrics) ∧
    ∃ rest, (streamRun streamStart (quiet ++ later)).client.accepted =
      (streamRun streamStart quiet).client.accepted ++ rest := by
  obtain ⟨acc, hacc, hsub, hex⟩ := streamRun_quiet quiet streamStart 0 hquiet (Or.inl rfl)
  have hacc2 : (streamRun streamStart quiet).client.accepted = acc := by
    rw [hacc]
    rfl
  have hall : (∀ a ∈ quiet, a ≠ StreamAction.disconnect) →
      (streamRun streamStart quiet).client.accepted = initialOffers quiet := by
    intro hd
    rw [hacc2]
    exact hex hd (Or.inl rfl) (by decide)
  refine ⟨?_, ?_, hall, ?_, ?_⟩
  · intro hle
    rcases streamRun_handlers actions streamStart (Or.inl ⟨by decide, by decide⟩) with h | h
    · exact h.2
    · omega
  · rw [hacc2]
    exact hsub
  · intro p0 p1 p2 p3 p4 proxyLog upstreamLog models metrics more hd hp
    rw [hall hd]
    unfold initialOffers
    rw [hp]
    simp only [offersFrom, offersFrom_of_ge more 9 (Nat.le_refl _)]
    cases p0 <;> cases p1 <;> cases p2 <;> cases p3 <;> cases p4 <;> rfl
  · rw [streamRun_append]
    exact streamRun_accepted (streamRun streamStart quiet) later

/-- C11, witness: two runs without publications. In the first the second log
history cannot be marshalled and the proxy shuts down during the batch: the
channel accepts the three messages offered. In the second every statement
marshals its data: the channel accepts exactly the four initial messages, and
the messages of later publications come behind them. -/
theorem initial_batch_after_registration_witness :
    (∀ a ∈ quietRun, a.isPublish = false) ∧
    (∀ a ∈ quietFullRun, a.isPublish = false) ∧
    (streamRun streamStart quietRun).handlers = allSources ∧
    (streamRun streamStart quietRun).client.accepted =
      [{ Typ := "logData", Data := "p" }, { Typ := "modelStatus", Data := "m" },
       { Typ := "metrics", Data := "t" }] ∧
    (streamRun streamStart quietFullRun).client.accepted = initialEnvelopes "p" "u" "m" "t" ∧
    (streamRun streamStart (quietFullRun ++ laterActions)).client.accepted =
      initialEnvelopes "p" "u" "m" "t" ++
        [{ Typ := "modelStatus", Data := "live" }, { Typ := "metrics", Data := "tm" }] := by
  have hq1 : ∀ a ∈ quietRun, a.isPublish = false := by decide
  have hq2 : ∀ a ∈ quietFullRun, a.isPublish = false := by decide
  have h1 := initial_batch_after_registration quietRun quietRun laterActions hq1
  have h2 := initial_batch_after_registration quietFullRun quietFullRun laterActions hq2
  refine ⟨hq1, hq2, ?_, ?_, ?_, ?_⟩
  · exact (h1.1 (by decide)).trans (by decide)
  · exact (h1.2.2.1 (by decide)).trans (by decide)
  · exact h2.2.2.2.1 none none none none none "p" "u" "m" "t" [] (by decide) (by decide)
  · decide

/-! ## Claims on apiUnloadSingleModelHandler -/

/-- C13: for every requested model name (one leading `/` stripped), the handler
responds 404 if and only if RealModelName does not find the name; when the name
is found it responds 500 if no process group holds the real model name or if
StopProcess returns an error, and 200 with body "OK" otherwise. StopProcess is
called, once, with the real model name and StopImmediately, exactly when the
name is found and a process group holds it. -/
theorem apiUnloadSingleModelHandler_responses (config : Config)
    (findGroupByModelName : String → Option ProcessGroup)
    (StopProcess : ProcessGroup → String → StopMode → Option String) (param : String) :
    ((apiUnloadSingleModelHandler config findGroupByModelName StopProcess param).response.status
        = 404 ↔ (config.RealModelName (TrimPrefix param "/")).2 = false) ∧
    ((config.RealModelName (TrimPrefix param "/")).2 = false →
      (apiUnloadSingleModelHandler config findGroupByModelName StopProcess param).stopCalls
        = []) ∧
    ((config.RealModelName (TrimPrefix param "/")).2 = true →
      findGroupByModelName (config.RealModelName (TrimPrefix param "/")).1 = none →
      (apiUnloadSingleModelHandler config findGroupByModelName StopProcess param).response.status
        = 500 ∧
      (apiUnloadSingleModelHandler config findGroupByModelName StopProcess param).stopCalls
        = []) ∧
    (∀ pg, (config.RealModelName (TrimPrefix param "/")).2 = true →
      findGroupByModelName (config.RealModelName (TrimPrefix param "/")).1 = some pg →
      (apiUnloadSingleModelHandler config findGroupByModelName StopProcess param).stopCalls
        = [(pg, (config.RealModelName (TrimPrefix param "/")).1, StopImmediately)] ∧
      (StopProcess pg (config.RealModelName (TrimPrefix param "/")).1 StopImmediately ≠ none →
        (apiUnloadSingleModelHandler config findGroupByModelName StopProcess
          param).response.status = 500) ∧
      (StopProcess pg (config.RealModelName (TrimPrefix param "/")).1 StopImmediately = none →
        (apiUnloadSingleModelHandler config findGroupByModelName StopProcess param).response
          = { status := 200, body := "OK" })) := by
  unfold apiUnloadSingleModelHandler
  rcases hr : config.RealModelName (TrimPrefix param "/") with ⟨real, found⟩
  cases found with
  | false => simp [hr]
  | true =>
    cases hg : findGroupByModelName real with
    | none => simp [hr, hg]
    | some pg =>
      cases hs : StopProcess pg real StopImmediately with
      | none => simp [hr, hg, hs]
      | some err => simp [hr, hg, hs]

/-- An evaluation of the handler on the scenario config: an unknown name, a known
name without a group, a failing stop, and a successful stop. -/
theorem apiUnloadSingleModelHandler_examples :
    (apiUnloadSingleModelHandler scenarioC1 (fun _ => none) (fun _ _ _ => none)
      "/nope").response.status = 404 ∧
    (apiUnloadSingleModelHandler scenarioC1 (fun _ => none) (fun _ _ _ => none)
      "/m").response.status = 500 ∧
    (apiUnloadSingleModelHandler scenarioC1 (fun _ => scenarioManager.heap[0]?)
      (fun _ _ _ => some "boom") "/m").response.status = 500 ∧
    (apiUnloadSingleModelHandler scenarioC1 (fun _ => scenarioManager.heap[0]?)
      (fun _ _ _ => none) "/m").response = { status := 200, body := "OK" } := by
  decide

/-! ## Strings -/

theorem dropWhile_head_false {α : Type} (p : α → Bool) (l : List α) (x : α) (rest : List α)
    (h : l.dropWhile p = x :: rest) : p x = false := by
  induction l with
  | nil => simp at h
  | cons a l ih =>
    by_cases ha : p a = true
    · rw [List.dropWhile_cons_of_pos ha] at h
      exact ih h
    · rw [List.dropWhile_cons_of_neg ha] at h
      cases h
      simpa using ha

theorem dropWhile_self_of_head {α : Type} (p : α → Bool) (x : α) (rest : List α)
    (h : p x = false) : (x :: rest).dropWhile p = x :: rest := by
  simp [List.dropWhile_cons, h]

theorem dropWhile_map_of_comm {α : Type} (p : α → Bool) (f : α → α)
    (h : ∀ a, p (f a) = p a) (l : List α) :
    (l.map f).dropWhile p = (l.dropWhile p).map f := by
  induction l with
  | nil => rfl
  | cons a l ih =>
    by_cases ha : p a = true
    · have hfa : p (f a) = true := by rw [h]; exact ha
      rw [List.map_cons, List.dropWhile_cons_of_pos hfa, List.dropWhile_cons_of_pos ha, ih]
    · have hfa : ¬ p (f a) = true := by rw [h]; exact ha
      rw [List.map_cons, List.dropWhile_cons_of_neg hfa, List.dropWhile_cons_of_neg ha,
        List.map_cons]

theorem trimChars_idem (l : List Char) : trimChars (trimChars l) = trimChars l := by
  unfold trimChars
  generalize hd : l.dropWhile isSpace = d
  -- `r` is `d` without its trailing white space
  have hsplit : d.reverse.takeWhile isSpace ++ d.reverse.dropWhile isSpace = d.reverse :=
    List.takeWhile_append_dropWhile isSpace d.reverse
  have hpre : d = (d.reverse.dropWhile isSpace).reverse ++
      (d.reverse.takeWhile isSpace).reverse := by
    have h2 := congrArg List.reverse hsplit
    rw [List.reverse_append, List.reverse_reverse] at h2
    exact h2.symm
  have hfix : ((d.reverse.dropWhile isSpace).reverse).dropWhile isSpace
      = (d.reverse.dropWhile isSpace).reverse := by
    cases hr : (d.reverse.dropWhile isSpace).reverse with
    | nil => rfl
    | cons x rest =>
      apply dropWhile_self_of_head
      rw [hr] at hpre
      rw [hpre] at hd
      exact dropWhile_head_false isSpace l x _ hd
  rw [hfix, List.reverse_reverse, List.dropWhile_idempotent]

theorem trimChars_map (lower : Char → Char) (hsp : ∀ c, isSpace (lower c) = isSpace c)
    (l : List Char) : trimChars (l.map lower) = (trimChars l).map lower := by
  unfold trimChars
  rw [dropWhile_map_of_comm isSpace lower hsp, ← List.map_reverse,
    dropWhile_map_of_comm isSpace lower hsp, ← List.map_reverse]

theorem normalizeModelKey_idem (lower : Char → Char)
    (hidem : ∀ c, lower (lower c) = lower c) (hsp : ∀ c, isSpace (lower c) = isSpace c)
    (s : String) :
    normalizeModelKey lower (normalizeModelKey lower s) = normalizeModelKey lower s := by
  have h1 : ∀ t : String, normalizeModelKey lower t = String.mk ((trimChars t.data).map lower) :=
    fun _ => rfl
  rw [h1 (normalizeModelKey lower s), h1 s]
  simp only [trimChars_map lower hsp, trimChars_idem, List.map_map]
  congr 1
  apply List.map_congr_left
  intro c _
  exact hidem c

theorem lowerASCII_cases (c : Char) :
    (lowerASCII c = c ∧ ¬ (65 ≤ c.toNat ∧ c.toNat ≤ 90)) ∨
    ((65 ≤ c.toNat ∧ c.toNat ≤ 90) ∧ lowerASCII c = Char.ofNat (c.toNat + 32) ∧
      (lowerASCII c).toNat = c.toNat + 32) := by
  unfold lowerASCII
  by_cases h : 65 ≤ c.toNat ∧ c.toNat ≤ 90
  · right
    refine ⟨h, by simp [h], ?_⟩
    simp only [h, and_self, if_true]
    have hc : c = Char.ofNat c.toNat := (Char.ofNat_toNat c).symm
    generalize c.toNat = n at h hc ⊢
    obtain ⟨h1, h2⟩ := h
    interval_cases n <;> rfl
  · left
    exact ⟨by simp [h], h⟩

theorem lowerASCII_idem (c : Char) : lowerASCII (lowerASCII c) = lowerASCII c := by
  rcases lowerASCII_cases c with ⟨h, _⟩ | ⟨hr, _, hn⟩
  · rw [h, h]
  · rcases lowerASCII_cases (lowerASCII c) with ⟨h2, _⟩ | ⟨hr2, _, _⟩
    · exact h2
    · rw [hn] at hr2
      omega

theorem isSpace_lowerASCII (c : Char) : isSpace (lowerASCII c) = isSpace c := by
  rcases lowerASCII_cases c with ⟨h, _⟩ | ⟨hr, _, hn⟩
  · rw [h]
  · have h1 : isSpace (lowerASCII c) = false := by
      unfold isSpace
      rw [hn]
      simp only [Bool.or_eq_false_iff, Bool.and_eq_false_iff, decide_eq_false_iff_not,
        beq_eq_false_iff_ne]
      omega
    have h2 : isSpace c = false := by
      unfold isSpace
      simp only [Bool.or_eq_false_iff, Bool.and_eq_false_iff, decide_eq_false_iff_not,
        beq_eq_false_iff_ne]
      omega
    rw [h1, h2]

/-! ## Claims on detectServedModelIDs -/

theorem mem_addKeys (lower : Char → Char) (result items : List String) (k : String) :
    k ∈ addKeys lower result items ↔
      k ∈ result ∨ (k ≠ "" ∧ ∃ id ∈ items, normalizeModelKey lower id = k) := by
  induction items generalizing result with
  | nil => simp [addKeys]
  | cons id rest ih =>
    simp only [addKeys]
    by_cases hk : normalizeModelKey lower id = ""
    · simp only [hk, ne_eq, not_true_eq_false, if_false]
      rw [ih]
      constructor
      · rintro (h | ⟨h1, id', hid', h2⟩)
        · exact Or.inl h
        · exact Or.inr ⟨h1, id', List.mem_cons_of_mem _ hid', h2⟩
      · rintro (h | ⟨h1, id', hid', h2⟩)
        · exact Or.inl h
        · rcases List.mem_cons.1 hid' with e | e
          · subst e
            rw [hk] at h2
            exact absurd h2.symm h1
          · exact Or.inr ⟨h1, id', e, h2⟩
    · simp only [hk, ne_eq, not_false_eq_true, if_true]
      rw [ih]
      have hite : k ∈ (if normalizeModelKey lower id ∈ result then result
          else result ++ [normalizeModelKey lower id]) ↔
          k ∈ result ∨ k = normalizeModelKey lower id := by
        by_cases hm : normalizeModelKey lower id ∈ result
        · simp only [hm, if_true]
          constructor
          · exact Or.inl
          · rintro (h | h)
            · exact h
            · rw [h]
              exact hm
        · simp [hm]
      rw [hite]
      constructor
      · rintro ((h | h) | ⟨h1, id', hid', h2⟩)
        · exact Or.inl h
        · exact Or.inr ⟨by rw [h]; exact hk, id, List.mem_cons_self _ _, h.symm⟩
        · exact Or.inr ⟨h1, id', List.mem_cons_of_mem _ hid', h2⟩
      · rintro (h | ⟨h1, id', hid', h2⟩)
        · exact Or.inl (Or.inl h)
        · rcases List.mem_cons.1 hid' with e | e
          · subst e
            exact Or.inl (Or.inr h2.symm)
          · exact Or.inr ⟨h1, id', e, h2⟩

theorem addKeys_nodup (lower : Char → Char) (result items : List String)
    (h : result.Nodup) : (addKeys lower result items).Nodup := by
  induction items generalizing result with
  | nil => simpa [addKeys] using h
  | cons id rest ih =>
    simp only [addKeys]
    by_cases hk : normalizeModelKey lower id = ""
    · simp only [hk, ne_eq, not_true_eq_false, if_false]
      exact ih result h
    · simp only [hk, ne_eq, not_false_eq_true, if_true]
      apply ih
      by_cases hm : normalizeModelKey lower id ∈ result
      · simp only [hm, if_true]
        exact h
      · simp only [hm, if_false]
        rw [List.nodup_append]
        refine ⟨h, by simp, ?_⟩
        intro x hx1 hx2
        simp only [List.mem_singleton] at hx2
        subst hx2
        exact hm hx1

theorem mem_contributedIDs (lower : Char → Char) (items : List String) (k : String) :
    k ∈ contributedIDs lower (ProbeOutcome.response 200 (some items)) ↔
      k ≠ "" ∧ ∃ id ∈ items, normalizeModelKey lower id = k := by
  simp only [contributedIDs, if_true, List.mem_filter, List.mem_map, decide_eq_true_eq]
  tauto

theorem probeEndpoints_cons (lower : Char → Char) (http : String → ProbeOutcome)
    (reqs : List String) (e : String) (rest : List String) :
    ∃ res, res.Nodup ∧ (∀ k, k ∈ res ↔ k ∈ contributedIDs lower (http e)) ∧
      probeEndpoints lower http { result := [], requests := reqs } (e :: rest) =
        if res = [] then
          probeEndpoints lower http { result := [], requests := reqs ++ requested http e } rest
        else { result := res, requests := reqs ++ requested http e } := by
  cases ho : http e with
  | requestError =>
    refine ⟨[], List.nodup_nil, by simp [contributedIDs], ?_⟩
    simp [probeEndpoints, ho, requested]
  | transportError =>
    refine ⟨[], List.nodup_nil, by simp [contributedIDs], ?_⟩
    simp [probeEndpoints, ho, requested]
  | response status ids =>
    cases ids with
    | none =>
      refine ⟨[], List.nodup_nil, by simp [contributedIDs], ?_⟩
      simp [probeEndpoints, ho, requested]
    | some items =>
      by_cases hst : status = 200
      · subst hst
        refine ⟨addKeys lower [] items, addKeys_nodup lower [] items List.nodup_nil, ?_, ?_⟩
        · intro k
          rw [mem_addKeys, mem_contributedIDs]
          simp
        · by_cases hlen : (addKeys lower [] items).length > 0
          · have hne : addKeys lower [] items ≠ [] := by
              intro h0
              rw [h0] at hlen
              simp at hlen
            simp [probeEndpoints, ho, requested, hlen, hne]
          · have h0 : addKeys lower [] items = [] := by
              cases hl : addKeys lower [] items with
              | nil => rfl
              | cons x xs =>
                rw [hl] at hlen
                simp at hlen
            simp [probeEndpoints, ho, requested, h0]
      · refine ⟨[], List.nodup_nil, by simp [contributedIDs, hst], ?_⟩
        simp [probeEndpoints, ho, requested, hst]

theorem requested_of_contributed (lower : Char → Char) (http : String → ProbeOutcome)
    (e : String) (h : contributedIDs lower (http e) ≠ []) : requested http e = [e] := by
  unfold requested
  cases ho : http e with
  | requestError => simp [ho, contributedIDs] at h
  | transportError => rfl
  | response status ids => rfl

/-- C15: detectServedModelIDs over a network oracle. For a proxy URL that is blank
after trimming white space and trailing `/` the result is empty and no request is
made. Otherwise, when the `/v1/models` response is HTTP 200 with a decodable body
and yields a non-empty normalised ID, the result is the set of those IDs and only
`/v1/models` is requested; when `/v1/models` contributes no ID (a transport
error, a status other than 200, an undecodable body or no usable ID), the result
is the set contributed by `/models`, which is empty in the same cases. The result
lists no key twice, and with a lower-case mapping that is idempotent and keeps
white space apart every key is non-empty and a fixed point of normalizeModelKey. -/
theorem detectServedModelIDs_spec (lower : Char → Char)
    (hidem : ∀ c, lower (lower c) = lower c) (hsp : ∀ c, isSpace (lower c) = isSpace c)
    (http : String → ProbeOutcome) (proxyURL : String) :
    (TrimRight (TrimSpace proxyURL) '/' = "" →
      detectServedModelIDs lower http proxyURL = { result := [], requests := [] }) ∧
    (TrimRight (TrimSpace proxyURL) '/' ≠ "" →
      contributedIDs lower (http (TrimRight (TrimSpace proxyURL) '/' ++ "/v1/models")) ≠ [] →
      (∀ k, k ∈ (detectServedModelIDs lower http proxyURL).result ↔
        k ∈ contributedIDs lower (http (TrimRight (TrimSpace proxyURL) '/' ++ "/v1/models"))) ∧
      (detectServedModelIDs lower http proxyURL).requests =
        [TrimRight (TrimSpace proxyURL) '/' ++ "/v1/models"]) ∧
    (TrimRight (TrimSpace proxyURL) '/' ≠ "" →
      contributedIDs lower (http (TrimRight (TrimSpace proxyURL) '/' ++ "/v1/models")) = [] →
      (∀ k, k ∈ (detectServedModelIDs lower http proxyURL).result ↔
        k ∈ contributedIDs lower (http (TrimRight (TrimSpace proxyURL) '/' ++ "/models"))) ∧
      (detectServedModelIDs lower http proxyURL).requests =
        requested http (TrimRight (TrimSpace proxyURL) '/' ++ "/v1/models") ++
        requested http (TrimRight (TrimSpace proxyURL) '/' ++ "/models")) ∧
    (detectServedModelIDs lower http proxyURL).result.Nodup ∧
    (∀ k ∈ (detectServedModelIDs lower http proxyURL).result,
      k ≠ "" ∧ normalizeModelKey lower k = k) := by
  have hkey : ∀ (o : ProbeOutcome) (k : String), k ∈ contributedIDs lower o →
      k ≠ "" ∧ normalizeModelKey lower k = k := by
    intro o k hk
    cases o with
    | requestError => simp [contributedIDs] at hk
    | transportError => simp [contributedIDs] at hk
    | response status ids =>
      cases ids with
      | none => simp [contributedIDs] at hk
      | some items =>
        by_cases hst : status = 200
        · subst hst
          obtain ⟨h1, id, _, h2⟩ := (mem_contributedIDs lower items k).1 hk
          exact ⟨h1, by rw [← h2]; exact normalizeModelKey_idem lower hidem hsp id⟩
        · simp [contributedIDs, hst] at hk
  by_cases hb : TrimRight (TrimSpace proxyURL) '/' = ""
  · have hd : detectServedModelIDs lower http proxyURL = { result := [], requests := [] } := by
      unfold detectServedModelIDs
      simp [hb]
    refine ⟨fun _ => hd, fun h => absurd hb h, fun h => absurd hb h, ?_, ?_⟩
    · rw [hd]
      exact List.nodup_nil
    · rw [hd]
      intro k hk
      simp at hk
  · have hd : detectServedModelIDs lower http proxyURL =
        probeEndpoints lower http { result := [], requests := [] }
          [TrimRight (TrimSpace proxyURL) '/' ++ "/v1/models",
           TrimRight (TrimSpace proxyURL) '/' ++ "/models"] := by
      unfold detectServedModelIDs
      simp [hb]
    obtain ⟨r1, hn1, hm1, he1⟩ := probeEndpoints_cons lower http []
      (TrimRight (TrimSpace proxyURL) '/' ++ "/v1/models")
      [TrimRight (TrimSpace proxyURL) '/' ++ "/models"]
    obtain ⟨r2, hn2, hm2, he2⟩ := probeEndpoints_cons lower http
      ([] ++ requested http (TrimRight (TrimSpace proxyURL) '/' ++ "/v1/models"))
      (TrimRight (TrimSpace proxyURL) '/' ++ "/models") []
    rw [hd, he1]
    by_cases hr1 : r1 = []
    · -- `/v1/models` contributed nothing
      have hc1 : contributedIDs lower
          (http (TrimRight (TrimSpace proxyURL) '/' ++ "/v1/models")) = [] := by
        rw [List.eq_nil_iff_forall_not_mem]
        intro k hk
        have := (hm1 k).2 hk
        rw [hr1] at this
        simp at this
      simp only [hr1, if_true]
      rw [he2]
      have hres : (if r2 = [] then
            probeEndpoints lower http
              { result := [],
                requests := [] ++ requested http
                    (TrimRight (TrimSpace proxyURL) '/' ++ "/v1/models") ++
                  requested http (TrimRight (TrimSpace proxyURL) '/' ++ "/models") } []
          else
            { result := r2,
              requests := [] ++ requested http
                  (TrimRight (TrimSpace proxyURL) '/' ++ "/v1/models") ++
                requested http (TrimRight (TrimSpace proxyURL) '/' ++ "/models") }) =
          { result := r2,
            requests := requested http (TrimRight (TrimSpace proxyURL) '/' ++ "/v1/models") ++
              requested http (TrimRight (TrimSpace proxyURL) '/' ++ "/models") } := by
        by_cases hr2 : r2 = []
        · simp [hr2, probeEndpoints]
        · simp [hr2]
      rw [hres]
      refine ⟨fun h => absurd h hb, fun _ h => absurd hc1 h, fun _ _ => ⟨hm2, rfl⟩, hn2, ?_⟩
      intro k hk
      exact hkey _ k ((hm2 k).1 hk)
    · have hc1 : contributedIDs lower
          (http (TrimRight (TrimSpace proxyURL) '/' ++ "/v1/models")) ≠ [] := by
        intro h0
        apply hr1
        rw [List.eq_nil_iff_forall_not_mem]
        intro k hk
        have := (hm1 k).1 hk
        rw [h0] at this
        simp at this
      simp only [hr1, if_false]
      refine ⟨fun h => absurd h hb, fun _ _ => ⟨hm1, ?_⟩, fun _ h => absurd h hc1, hn1, ?_⟩
      · simp [requested_of_contributed lower http _ hc1]
      · intro k hk
        exact hkey _ k ((hm1 k).1 hk)

/-- C15, witness: the ASCII lower-case mapping and a network in which `/v1/models`
serves two models. -/
theorem detectServedModelIDs_spec_witness :
    (∀ c, lowerASCII (lowerASCII c) = lowerASCII c) ∧
    (∀ c, isSpace (lowerASCII c) = isSpace c) ∧
    detectServedModelIDs lowerASCII exampleNetwork " http://host:1// " =
      { result := ["model-a", "model-b"], requests := ["http://host:1/v1/models"] } ∧
    (∀ k ∈ (detectServedModelIDs lowerASCII exampleNetwork " http://host:1// ").result,
      k ≠ "" ∧ normalizeModelKey lowerASCII k = k) :=
  ⟨lowerASCII_idem, isSpace_lowerASCII, by decide,
    (detectServedModelIDs_spec lowerASCII lowerASCII_idem isSpace_lowerASCII exampleNetwork
      " http://host:1// ").2.2.2.2⟩

/-! ## Claims on the traversal order -/

theorem mapGet_perm {V : Type} (l1 l2 : List (String × V)) (k : String)
    (hn : (mapKeys l1).Nodup) (hp : l1.Perm l2) : mapGet l1 k = mapGet l2 k := by
  have hn2 : (mapKeys l2).Nodup := (List.Perm.nodup_iff (hp.map Prod.fst)).1 hn
  cases h1 : mapGet l1 k with
  | some v =>
    exact (mapGet_of_mem l2 k v hn2 ((List.Perm.mem_iff hp).1 (mapGet_mem l1 k v h1))).symm
  | none =>
    have hk : k ∉ mapKeys l1 := (mapGet_eq_none_iff l1 k).1 h1
    have hk2 : k ∉ mapKeys l2 := fun h => hk ((List.Perm.mem_iff (hp.map Prod.fst)).2 h)
    exact ((mapGet_eq_none_iff l2 k).2 hk2).symm

theorem membersCompatible_groups (oc nc : Config) (ng2 : List (String × GroupConfig))
    (ms : List String) :
    membersCompatible oc { nc with Groups := ng2 } ms = membersCompatible oc nc ms := by
  induction ms with
  | nil => rfl
  | cons m rest ih =>
    simp only [membersCompatible]
    rw [ih]
    rfl

theorem runtimeGroupCompatible_perm (oc nc : Config) (ng2 : List (String × GroupConfig))
    (g : String) (hn : (mapKeys nc.Groups).Nodup) (hp : ng2.Perm nc.Groups) :
    runtimeGroupCompatible oc { nc with Groups := ng2 } g = runtimeGroupCompatible oc nc g := by
  have hn2 : (mapKeys ng2).Nodup := (List.Perm.nodup_iff (hp.map Prod.fst)).2 hn
  unfold runtimeGroupCompatible
  simp only [mapGet_perm ng2 nc.Groups g hn2 hp, membersCompatible_groups]

theorem wellFormed_perm (pm : ProxyManager) (og2 : List (String × Nat))
    (hwf : pm.WellFormed) (hp : og2.Perm pm.processGroups) :
    ProxyManager.WellFormed { pm with processGroups := og2 } := by
  have hn2 : (mapKeys og2).Nodup := (List.Perm.nodup_iff (hp.map Prod.fst)).2 hwf.1
  refine ⟨hn2, ?_⟩
  intro g ref h
  have h2 : mapGet pm.processGroups g = some ref := by
    rw [← mapGet_perm og2 pm.processGroups g hn2 hp]
    exact h
  exact hwf.2 g ref h2

theorem apply_reused_iff (pm : ProxyManager) (nc : Config) (g : String) (ref : Nat)
    (hwf : pm.WellFormed) (hp : mapGet pm.processGroups g = some ref) :
    mapGet (applyConfigAndSyncProcessGroups pm nc).pm.processGroups g = some ref ↔
      runtimeGroupCompatible pm.config nc g = true := by
  constructor
  · intro h
    rcases apply_table_cases pm nc g ref h with h1 | h1
    · exact h1.2
    · have := WellFormed.live pm hwf g ref hp
      omega
  · exact apply_table_reuse pm nc g ref hp

theorem apply_fresh_iff (pm : ProxyManager) (nc : Config) (g : String) (hwf : pm.WellFormed) :
    (∃ q, mapGet (applyConfigAndSyncProcessGroups pm nc).pm.processGroups g = some q ∧
        pm.heap.length ≤ q) ↔
      g ∈ mapKeys nc.Groups ∧
        ∀ ref, mapGet pm.processGroups g = some ref →
          runtimeGroupCompatible pm.config nc g = false := by
  constructor
  · rintro ⟨q, hq, hlen⟩
    refine ⟨?_, ?_⟩
    · rw [← apply_table_keys pm nc g, ← mapGet_isSome_iff, hq]
      rfl
    · intro ref hp
      cases hc : runtimeGroupCompatible pm.config nc g with
      | false => rfl
      | true =>
        exfalso
        have h1 := apply_table_reuse pm nc g ref hp hc
        rw [hq] at h1
        have hqr : q = ref := Option.some.inj h1
        have := WellFormed.live pm hwf g ref hp
        omega
  · rintro ⟨hg, hf⟩
    rw [← apply_table_keys pm nc g, ← mapGet_isSome_iff] at hg
    obtain ⟨q, hq⟩ := Option.isSome_iff_exists.1 hg
    rcases apply_table_cases pm nc g q hq with h1 | h1
    · rw [hf q h1.1] at h1
      exact absurd h1.2 (by simp)
    · exact ⟨q, hq, h1⟩

/-- C16: in a well-formed manager and for a new config whose group table is a map,
traversing the new config's groups and the old group table in other orders
(any permutations of the two maps) yields a group table with the same keys, the
same decision for every group ID (the old object is kept in one run exactly when
it is kept in the other, a fresh object is installed in one exactly when one is
installed in the other), and the same objects shut down, the calls differing at
most in their order. -/
theorem apply_order_independent (pm : ProxyManager) (newConfig : Config)
    (oldGroups2 : List (String × Nat)) (newGroups2 : List (String × GroupConfig))
    (hwf : pm.WellFormed) (hn : (mapKeys newConfig.Groups).Nodup)
    (hog : oldGroups2.Perm pm.processGroups) (hng : newGroups2.Perm newConfig.Groups) :
    (∀ g, g ∈ mapKeys (applyConfigAndSyncProcessGroups pm newConfig).pm.processGroups ↔
      g ∈ mapKeys (applyConfigAndSyncProcessGroups { pm with processGroups := oldGroups2 }
        { newConfig with Groups := newGroups2 }).pm.processGroups) ∧
    (∀ g ref, mapGet pm.processGroups g = some ref →
      (mapGet (applyConfigAndSyncProcessGroups pm newConfig).pm.processGroups g = some ref ↔
        mapGet (applyConfigAndSyncProcessGroups { pm with processGroups := oldGroups2 }
          { newConfig with Groups := newGroups2 }).pm.processGroups g = some ref)) ∧
    (∀ g,
      (∃ q, mapGet (applyConfigAndSyncProcessGroups pm newConfig).pm.processGroups g = some q ∧
        pm.heap.length ≤ q) ↔
      (∃ q, mapGet (applyConfigAndSyncProcessGroups { pm with processGroups := oldGroups2 }
          { newConfig with Groups := newGroups2 }).pm.processGroups g = some q ∧
        pm.heap.length ≤ q)) ∧
    (∀ ref, ref ∈ (applyConfigAndSyncProcessGroups pm newConfig).shutdownCalls ↔
      ref ∈ (applyConfigAndSyncProcessGroups { pm with processGroups := oldGroups2 }
        { newConfig with Groups := newGroups2 }).shutdownCalls) ∧
    List.Perm (applyConfigAndSyncProcessGroups pm newConfig).shutdownCalls
      (applyConfigAndSyncProcessGroups { pm with processGroups := oldGroups2 }
        { newConfig with Groups := newGroups2 }).shutdownCalls := by
  have hwf2 := wellFormed_perm pm oldGroups2 hwf hog
  have hn2 : (mapKeys newGroups2).Nodup := (List.Perm.nodup_iff (hng.map Prod.fst)).2 hn
  have hget : ∀ g, mapGet oldGroups2 g = mapGet pm.processGroups g :=
    fun g => mapGet_perm oldGroups2 pm.processGroups g hwf2.1 hog
  have hkeys : ∀ g, g ∈ mapKeys newGroups2 ↔ g ∈ mapKeys newConfig.Groups :=
    fun g => List.Perm.mem_iff (hng.map Prod.fst)
  have hcompat : ∀ g, runtimeGroupCompatible pm.config { newConfig with Groups := newGroups2 } g
      = runtimeGroupCompatible pm.config newConfig g :=
    fun g => runtimeGroupCompatible_perm pm.config newConfig newGroups2 g hn hng
  have hmem : ∀ ref, ref ∈ (applyConfigAndSyncProcessGroups pm newConfig).shutdownCalls ↔
      ref ∈ (applyConfigAndSyncProcessGroups { pm with processGroups := oldGroups2 }
        { newConfig with Groups := newGroups2 }).shutdownCalls := by
    intro ref
    rw [mem_apply_shutdownCalls pm newConfig hwf.1,
      mem_apply_shutdownCalls _ _ hwf2.1]
    simp only [hget, hkeys, hcompat]
  refine ⟨?_, ?_, ?_, hmem, ?_⟩
  · intro g
    rw [apply_table_keys, apply_table_keys]
    exact (hkeys g).symm
  · intro g ref hp
    rw [apply_reused_iff pm newConfig g ref hwf hp,
      apply_reused_iff _ _ g ref hwf2 (by rw [← hget g] at hp; exact hp)]
    simp only [hcompat]
  · intro g
    have h2 := apply_fresh_iff { pm with processGroups := oldGroups2 }
      { newConfig with Groups := newGroups2 } g hwf2
    simp only [hget, hkeys, hcompat] at h2
    rw [apply_fresh_iff pm newConfig g hwf]
    exact h2.symm
  · exact (List.perm_ext_iff_of_nodup (apply_shutdownCalls_nodup pm newConfig hwf hn)
      (apply_shutdownCalls_nodup _ _ hwf2 hn2)).2 hmem

theorem scenario4Manager_wellFormed : scenario4Manager.WellFormed := by
  refine ⟨by decide, ?_⟩
  intro g ref h
  by_cases h1 : "g1" = g
  · subst h1
    simp [scenario4Manager, mapGet] at h
    subst h
    exact ⟨_, rfl, rfl⟩
  · by_cases h2 : "g2" = g
    · subst h2
      simp [scenario4Manager, mapGet] at h
      subst h
      exact ⟨_, rfl, rfl⟩
    · simp [scenario4Manager, mapGet, h1, h2] at h

/-- C16, witness: the manager of scenario 4 with its table traversed as `g2, g1`
and the successor config traversed as `g2, g1, g3`. -/
theorem apply_order_independent_witness :
    scenario4Manager.WellFormed ∧ (mapKeys scenario4Next.Groups).Nodup ∧
    (applyConfigAndSyncProcessGroups scenario4Manager scenario4Next).shutdownCalls = [1] ∧
    List.Perm (applyConfigAndSyncProcessGroups scenario4Manager scenario4Next).shutdownCalls
      (applyConfigAndSyncProcessGroups
        { scenario4Manager with processGroups := [("g2", 1), ("g1", 0)] }
        { scenario4Next with Groups :=
            [("g2", { Swap := true, Exclusive := false, Persistent := false, Members := ["b"] }),
             ("g1", { Swap := true, Exclusive := true, Persistent := false, Members := ["a"] }),
             ("g3", { Swap := false, Exclusive := false, Persistent := false,
                      Members := [] })] }).shutdownCalls :=
  ⟨scenario4Manager_wellFormed, by decide, by decide,
    (apply_order_independent scenario4Manager scenario4Next [("g2", 1), ("g1", 0)]
      [("g2", { Swap := true, Exclusive := false, Persistent := false, Members := ["b"] }),
       ("g1", { Swap := true, Exclusive := true, Persistent := false, Members := ["a"] }),
       ("g3", { Swap := false, Exclusive := false, Persistent := false, Members := [] })]
      scenario4Manager_wellFormed (by decide) (List.Perm.swap _ _ _)
      (List.Perm.swap _ _ _)).2.2.2.2⟩

/-! ## Claims on detectVLLMFallbackContainers -/

/-- The input of the repository's test: the code and the claim's reading of the
parse agree on it and give the list that the test expects. -/
theorem vllmContainerNames_test_input :
    vllmContainerNames lowerASCII testDockerPS = ["vllm_node", "worker", "VLLM-extra"] ∧
    specContainerNames lowerASCII testDockerPS = ["vllm_node", "worker", "VLLM-extra"] := by
  decide

/-- Outside the format of `docker ps`: in a text whose second line has an empty
name field and an image containing "vllm", the reading by fields skips the line
(empty name), while the code, which trims the line before it splits it at the
tab, takes the image for the name. `docker ps` prints no such line, since every
container has a name. -/
theorem vllmContainerNames_empty_name_line :
    specContainerNames lowerASCII emptyNameDockerPS = [] ∧
    vllmContainerNames lowerASCII emptyNameDockerPS = ["ghcr.io/acme/vllm:latest"] := by
  decide

theorem dropWhile_append_singleton_ne_nil {α : Type} (p : α → Bool) (l : List α) (x : α)
    (h : p x = false) : (l ++ [x]).dropWhile p ≠ [] := by
  induction l with
  | nil => simp [List.dropWhile_cons, h]
  | cons a l ih =>
    by_cases ha : p a = true
    · rw [List.cons_append, List.dropWhile_cons_of_pos ha]
      exact ih
    · rw [List.cons_append, List.dropWhile_cons_of_neg ha]
      simp

theorem trimChars_cons_ne_nil (x : Char) (rest : List Char) (h : isSpace x = false) :
    trimChars (x :: rest) ≠ [] := by
  unfold trimChars
  rw [dropWhile_self_of_head isSpace x rest h]
  intro h0
  have h1 := congrArg List.reverse h0
  rw [List.reverse_reverse, List.reverse_cons] at h1
  exact dropWhile_append_singleton_ne_nil isSpace rest.reverse x h h1

theorem trimChars_head (l : List Char) (x : Char) (rest : List Char)
    (h : trimChars l = x :: rest) : isSpace x = false := by
  have h2 : trimChars (trimChars l) = trimChars l := trimChars_idem l
  rw [h] at h2
  unfold trimChars at h2
  by_cases hx : isSpace x = true
  · exfalso
    rw [List.dropWhile_cons_of_pos hx] at h2
    -- the trimmed list would be shorter than itself
    have hlen := congrArg List.length h2
    have h3 : ((rest.dropWhile isSpace).reverse.dropWhile isSpace).length
        ≤ rest.length := by
      calc ((rest.dropWhile isSpace).reverse.dropWhile isSpace).length
          ≤ (rest.dropWhile isSpace).reverse.length :=
            (List.dropWhile_sublist isSpace).length_le
        _ = (rest.dropWhile isSpace).length := List.length_reverse _
        _ ≤ rest.length := (List.dropWhile_sublist isSpace).length_le
    simp only [List.length_reverse, List.length_cons] at hlen
    omega
  · simpa using hx

/-- The guard `if name == ""` of line 122 is never taken: a line that is not blank
after trimming starts with a character that is not white space, hence not a tab,
so the piece before the first tab of the trimmed line is not blank. -/
theorem name_guard_unreachable (line : String) (h : TrimSpace line ≠ "") :
    TrimSpace ((SplitN2 (TrimSpace line) '\t').headD "") ≠ "" := by
  have hdata : (TrimSpace line).data = trimChars line.data := rfl
  cases ht : trimChars line.data with
  | nil =>
    exfalso
    apply h
    have : TrimSpace line = String.mk (trimChars line.data) := rfl
    rw [this, ht]
  | cons x rest =>
    have hx : isSpace x = false := trimChars_head line.data x rest ht
    have hxt : ¬ x = '\t' := by
      intro e
      rw [e] at hx
      exact absurd hx (by decide)
    have hhead : (SplitN2 (TrimSpace line) '\t').headD ""
        = String.mk (x :: (cutChars '\t' rest).1) := by
      unfold SplitN2
      rw [hdata, ht]
      simp only [cutChars, hxt, if_false]
      cases (cutChars '\t' rest).2 <;> rfl
    rw [hhead]
    intro h0
    have h1 : trimChars (x :: (cutChars '\t' rest).1) = [] := by
      have h2 := congrArg String.data h0
      exact h2
    exact trimChars_cons_ne_nil x _ hx h1

/-! ### White space at the ends of a text -/

theorem trimChars_append_left (A l : List Char) (hA : ∀ c ∈ A, isSpace c = true) :
    trimChars (A ++ l) = trimChars l := by
  unfold trimChars
  rw [List.dropWhile_append_of_pos hA]

theorem trimChars_of_space (l : List Char) (h : ∀ c ∈ l, isSpace c = true) :
    trimChars l = [] := by
  unfold trimChars
  rw [List.dropWhile_eq_nil_iff.2 h]
  rfl

theorem trimChars_append_right (l B : List Char) (hB : ∀ c ∈ B, isSpace c = true) :
    trimChars (l ++ B) = trimChars l := by
  unfold trimChars
  rw [List.dropWhile_append]
  split
  · rename_i h
    have h1 : l.dropWhile isSpace = [] := List.isEmpty_iff.1 h
    rw [h1, List.dropWhile_eq_nil_iff.2 hB]
  · have hB2 : ∀ c ∈ B.reverse, isSpace c = true := fun c hc => hB c (List.mem_reverse.1 hc)
    rw [List.reverse_append, List.dropWhile_append_of_pos hB2]

theorem trimChars_decomp (l : List Char) :
    ∃ A B, l = A ++ trimChars l ++ B ∧ (∀ c ∈ A, isSpace c = true) ∧
      (∀ c ∈ B, isSpace c = true) := by
  refine ⟨l.takeWhile isSpace,
    ((l.dropWhile isSpace).reverse.takeWhile isSpace).reverse, ?_, ?_, ?_⟩
  · have h1 : l.takeWhile isSpace ++ l.dropWhile isSpace = l :=
      List.takeWhile_append_dropWhile isSpace l
    have h2 : (l.dropWhile isSpace).reverse.takeWhile isSpace ++
        (l.dropWhile isSpace).reverse.dropWhile isSpace = (l.dropWhile isSpace).reverse :=
      List.takeWhile_append_dropWhile isSpace (l.dropWhile isSpace).reverse
    have h3 := congrArg List.reverse h2
    rw [List.reverse_append, List.reverse_reverse] at h3
    unfold trimChars
    rw [List.append_assoc, h3, h1]
  · intro c hc
    exact List.mem_takeWhile_imp hc
  · intro c hc
    exact List.mem_takeWhile_imp (List.mem_reverse.1 hc)

theorem trimChars_last (l : List Char) (rest : List Char) (y : Char)
    (h : trimChars l = rest ++ [y]) : isSpace y = false := by
  unfold trimChars at h
  have h1 := congrArg List.reverse h
  rw [List.reverse_reverse, List.reverse_append] at h1
  exact dropWhile_head_false isSpace _ y _ h1

theorem trimChars_clean (t : List Char) (x y : Char) (r r2 : List Char)
    (h1 : t = x :: r) (h2 : t = r2 ++ [y]) (hx : isSpace x = false) (hy : isSpace y = false) :
    trimChars t = t := by
  unfold trimChars
  have e1 : t.dropWhile isSpace = t := by
    rw [h1]
    exact dropWhile_self_of_head isSpace x r hx
  have e2 : t.reverse.dropWhile isSpace = t.reverse := by
    rw [h2, List.reverse_append]
    exact dropWhile_self_of_head isSpace y _ hy
  rw [e1, e2, List.reverse_reverse]

theorem space_of_trimChars_nil (l : List Char) (h : trimChars l = []) :
    ∀ c ∈ l, isSpace c = true := by
  obtain ⟨A, B, hl, hA, hB⟩ := trimChars_decomp l
  rw [h] at hl
  intro c hc
  rw [hl] at hc
  simp only [List.append_nil, List.mem_append] at hc
  rcases hc with hc | hc
  · exact hA c hc
  · exact hB c hc

/-! ### The cut at the first separator -/

theorem cutChars_fst_not_mem (sep : Char) (l : List Char) : sep ∉ (cutChars sep l).1 := by
  induction l with
  | nil => simp [cutChars]
  | cons c cs ih =>
    by_cases h : c = sep
    · simp [cutChars, h]
    · simp only [cutChars, h, if_false, List.mem_cons, not_or]
      exact ⟨fun e => h e.symm, ih⟩

theorem cutChars_eq (sep : Char) (l : List Char) :
    ((cutChars sep l).2 = none ∧ l = (cutChars sep l).1) ∨
    ∃ a, (cutChars sep l).2 = some a ∧ l = (cutChars sep l).1 ++ sep :: a := by
  induction l with
  | nil => exact Or.inl ⟨rfl, rfl⟩
  | cons c cs ih =>
    by_cases h : c = sep
    · right
      exact ⟨cs, by simp [cutChars, h], by simp [cutChars, h]⟩
    · simp only [cutChars, h, if_false]
      rcases ih with ⟨h1, h2⟩ | ⟨a, h1, h2⟩
      · left
        exact ⟨h1, by rw [← h2]⟩
      · right
        exact ⟨a, h1, by rw [List.cons_append, ← h2]⟩

theorem cutChars_of_not_mem (sep : Char) (l : List Char) (h : sep ∉ l) :
    cutChars sep l = (l, none) := by
  induction l with
  | nil => rfl
  | cons c cs ih =>
    have hc : ¬ c = sep := fun e => h (by rw [e]; exact List.mem_cons_self _ _)
    have hcs : sep ∉ cs := fun e => h (List.mem_cons_of_mem _ e)
    simp only [cutChars, hc, if_false, ih hcs]

theorem cutChars_append_sep (sep : Char) (b a : List Char) (h : sep ∉ b) :
    cutChars sep (b ++ sep :: a) = (b, some a) := by
  induction b with
  | nil => simp [cutChars]
  | cons c cs ih =>
    have hc : ¬ c = sep := fun e => h (by rw [e]; exact List.mem_cons_self _ _)
    have hcs : sep ∉ cs := fun e => h (List.mem_cons_of_mem _ e)
    rw [List.cons_append]
    simp only [cutChars, hc, if_false, ih hcs]

/-- The cut of a trimmed line: when the name field of a line is not blank, the
trimmed line has the same name and the same image, up to white space, as the
line itself. -/
theorem cutChars_trimChars (l : List Char)
    (hname : trimChars (cutChars '\t' l).1 ≠ []) :
    trimChars (cutChars '\t' (trimChars l)).1 = trimChars (cutChars '\t' l).1 ∧
    trimChars ((cutChars '\t' (trimChars l)).2.getD []) =
      trimChars ((cutChars '\t' l).2.getD []) := by
  obtain ⟨A, B, hb, hA, hB⟩ := trimChars_decomp (cutChars '\t' l).1
  have htab : '\t' ∉ (cutChars '\t' l).1 := cutChars_fst_not_mem '\t' l
  generalize hbdef : (cutChars '\t' l).1 = b at hb hname htab
  generalize htb : trimChars b = tb at hb hname
  have htabtb : '\t' ∉ tb := fun h => htab (by rw [hb]; simp [h])
  have htabB : '\t' ∉ B := fun h => htab (by rw [hb]; simp [h])
  have hidem : trimChars tb = tb := by rw [← htb]; exact trimChars_idem b
  obtain ⟨x, r, hxr⟩ : ∃ x r, tb = x :: r := by
    cases tb with
    | nil => exact absurd rfl hname
    | cons x r => exact ⟨x, r, rfl⟩
  have hx : isSpace x = false := trimChars_head b x r (by rw [htb, hxr])
  rcases cutChars_eq '\t' l with ⟨h2, hl⟩ | ⟨a, h2, hl⟩
  · -- no tab in the line
    rw [hbdef] at hl
    have ht : trimChars l = tb := by rw [hl, htb]
    rw [ht, cutChars_of_not_mem '\t' tb htabtb, h2]
    exact ⟨hidem, rfl⟩
  · rw [hbdef] at hl
    rw [h2]
    obtain ⟨A2, B2, ha, hA2, hB2⟩ := trimChars_decomp a
    generalize hta : trimChars a = ta at ha
    have hidema : trimChars ta = ta := by rw [← hta]; exact trimChars_idem a
    rcases List.eq_nil_or_concat ta with hnil | ⟨r3, y2, hconc⟩
    · -- the image is blank
      have hsp : ∀ c ∈ B ++ '\t' :: a, isSpace c = true := by
        intro c hc
        simp only [List.mem_append, List.mem_cons] at hc
        rcases hc with hc | hc | hc
        · exact hB c hc
        · rw [hc]; decide
        · exact space_of_trimChars_nil a (by rw [hta, hnil]) c hc
      have ht : trimChars l = tb := by
        rw [hl, hb, List.append_assoc, List.append_assoc, trimChars_append_left _ _ hA,
          ← List.append_assoc, List.append_assoc, trimChars_append_right _ _ hsp, hidem]
      rw [ht, cutChars_of_not_mem '\t' tb htabtb]
      refine ⟨hidem, ?_⟩
      simp only [Option.getD]
      rw [hta, hnil]
      rfl
    · rw [List.concat_eq_append] at hconc
      have hy2 : isSpace y2 = false := trimChars_last a r3 y2 (by rw [hta, hconc])
      have hM : trimChars (tb ++ (B ++ '\t' :: (A2 ++ ta))) = tb ++ (B ++ '\t' :: (A2 ++ ta)) := by
        apply trimChars_clean _ x y2 (r ++ (B ++ '\t' :: (A2 ++ ta)))
          (tb ++ (B ++ '\t' :: (A2 ++ r3))) _ _ hx hy2
        · rw [hxr]; rfl
        · rw [hconc]; simp
      have ht : trimChars l = tb ++ (B ++ '\t' :: (A2 ++ ta)) := by
        have e : l = A ++ ((tb ++ (B ++ '\t' :: (A2 ++ ta))) ++ B2) := by
          rw [hl, hb, ha]; simp
        rw [e, trimChars_append_left _ _ hA, trimChars_append_right _ _ hB2, hM]
      have hcut : cutChars '\t' (tb ++ (B ++ '\t' :: (A2 ++ ta))) = (tb ++ B, some (A2 ++ ta)) := by
        rw [← List.append_assoc]
        apply cutChars_append_sep
        intro h
        rcases List.mem_append.1 h with h | h
        · exact htabtb h
        · exact htabB h
      rw [ht, hcut]
      refine ⟨?_, ?_⟩
      · show trimChars (tb ++ B) = tb
        rw [trimChars_append_right _ _ hB, hidem]
      · show trimChars (A2 ++ ta) = trimChars a
        rw [trimChars_append_left _ _ hA2, hidema, hta]

/-! ### Occurrences of a token and white space -/

theorem isPrefixOf_space_head (p : List Char) (c : Char) (cs : List Char)
    (hp : ∀ a ∈ p, isSpace a = false) (hne : p ≠ []) (hc : isSpace c = true) :
    p.isPrefixOf (c :: cs) = false := by
  cases p with
  | nil => exact absurd rfl hne
  | cons a p2 =>
    have ha : isSpace a = false := hp a (List.mem_cons_self _ _)
    have hac : (a == c) = false := by
      rw [beq_eq_false_iff_ne]
      intro e
      rw [e, hc] at ha
      cases ha
    simp [List.isPrefixOf, hac]

theorem isPrefixOf_append_space (p y W : List Char)
    (hp : ∀ a ∈ p, isSpace a = false) (hW : ∀ c ∈ W, isSpace c = true) :
    p.isPrefixOf (y ++ W) = p.isPrefixOf y := by
  induction p generalizing y with
  | nil => simp [List.isPrefixOf]
  | cons a p2 ih =>
    cases y with
    | nil =>
      cases W with
      | nil => rfl
      | cons c W2 =>
        rw [List.nil_append, isPrefixOf_space_head (a :: p2) c W2 hp (by simp)
          (hW c (List.mem_cons_self _ _))]
        rfl
    | cons c y2 =>
      rw [List.cons_append]
      simp only [List.isPrefixOf]
      rw [ih y2 (fun b hb => hp b (List.mem_cons_of_mem _ hb))]

theorem containsChars_space (p W : List Char)
    (hp : ∀ a ∈ p, isSpace a = false) (hne : p ≠ []) (hW : ∀ c ∈ W, isSpace c = true) :
    containsChars p W = false := by
  induction W with
  | nil =>
    cases p with
    | nil => exact absurd rfl hne
    | cons a p2 => rfl
  | cons c W2 ih =>
    simp only [containsChars, isPrefixOf_space_head p c W2 hp hne (hW c (List.mem_cons_self _ _)),
      ih (fun b hb => hW b (List.mem_cons_of_mem _ hb)), Bool.or_self]

theorem containsChars_append_left (p W y : List Char)
    (hp : ∀ a ∈ p, isSpace a = false) (hne : p ≠ []) (hW : ∀ c ∈ W, isSpace c = true) :
    containsChars p (W ++ y) = containsChars p y := by
  induction W with
  | nil => rfl
  | cons c W2 ih =>
    rw [List.cons_append]
    simp only [containsChars,
      isPrefixOf_space_head p c (W2 ++ y) hp hne (hW c (List.mem_cons_self _ _)),
      ih (fun b hb => hW b (List.mem_cons_of_mem _ hb)), Bool.false_or]

theorem containsChars_append_right (p y W : List Char)
    (hp : ∀ a ∈ p, isSpace a = false) (hne : p ≠ []) (hW : ∀ c ∈ W, isSpace c = true) :
    containsChars p (y ++ W) = containsChars p y := by
  induction y with
  | nil =>
    rw [List.nil_append, containsChars_space p W hp hne hW]
    cases p with
    | nil => exact absurd rfl hne
    | cons a p2 => rfl
  | cons c y2 ih =>
    have h := isPrefixOf_append_space p (c :: y2) W hp hW
    rw [List.cons_append] at h
    rw [List.cons_append]
    simp only [containsChars, h, ih]

/-- White space around a text takes no part in an occurrence of "vllm" in its
lower-case form. -/
theorem containsChars_vllm_trimChars (lower : Char → Char)
    (hsp : ∀ c, isSpace (lower c) = isSpace c) (l : List Char) :
    containsChars "vllm".data ((trimChars l).map lower) =
      containsChars "vllm".data (l.map lower) := by
  obtain ⟨A, B, hl, hA, hB⟩ := trimChars_decomp l
  have hp : ∀ a ∈ "vllm".data, isSpace a = false := by decide
  have hne : "vllm".data ≠ [] := by decide
  have hA2 : ∀ c ∈ A.map lower, isSpace c = true := by
    intro c hc
    obtain ⟨d, hd, rfl⟩ := List.mem_map.1 hc
    rw [hsp]
    exact hA d hd
  have hB2 : ∀ c ∈ B.map lower, isSpace c = true := by
    intro c hc
    obtain ⟨d, hd, rfl⟩ := List.mem_map.1 hc
    rw [hsp]
    exact hB d hd
  conv_rhs => rw [hl]
  rw [List.map_append, List.map_append, containsChars_append_right _ _ _ hp hne hB2,
    containsChars_append_left _ _ _ hp hne hA2]

/-! ### The lines of a text -/

theorem splitChars_ne_nil (sep : Char) (l : List Char) : splitChars sep l ≠ [] := by
  cases l with
  | nil => simp [splitChars]
  | cons c cs =>
    unfold splitChars
    split
    · simp
    · split <;> simp

theorem splitChars_of_not_mem (sep : Char) (p : List Char) (h : sep ∉ p) :
    splitChars sep p = [p] := by
  induction p with
  | nil => rfl
  | cons c cs ih =>
    have hc : ¬ c = sep := fun e => h (by rw [e]; exact List.mem_cons_self _ _)
    have hcs : sep ∉ cs := fun e => h (List.mem_cons_of_mem _ e)
    simp only [splitChars, hc, if_false, ih hcs]

theorem splitChars_append_sep (sep : Char) (p r : List Char) (h : sep ∉ p) :
    splitChars sep (p ++ sep :: r) = p :: splitChars sep r := by
  induction p with
  | nil => simp [splitChars]
  | cons c cs ih =>
    have hc : ¬ c = sep := fun e => h (by rw [e]; exact List.mem_cons_self _ _)
    have hcs : sep ∉ cs := fun e => h (List.mem_cons_of_mem _ e)
    rw [List.cons_append]
    simp only [splitChars, hc, if_false, ih hcs]

theorem foldl_splitChars_space {β : Type} (f : β → List Char → β)
    (h1 : ∀ acc, f acc [] = acc)
    (h2 : ∀ acc p q, trimChars p = trimChars q → f acc p = f acc q)
    (W : List Char) (hW : ∀ c ∈ W, isSpace c = true) (pre : List Char) (acc : β)
    (hpre : '\n' ∉ pre) :
    (splitChars '\n' (pre ++ W)).foldl f acc = f acc pre := by
  induction W generalizing pre acc with
  | nil => rw [List.append_nil, splitChars_of_not_mem '\n' pre hpre]; rfl
  | cons c W2 ih =>
    have hW2 : ∀ d ∈ W2, isSpace d = true := fun d hd => hW d (List.mem_cons_of_mem _ hd)
    by_cases hc : c = '\n'
    · rw [hc, splitChars_append_sep '\n' pre W2 hpre, List.foldl_cons]
      have := ih hW2 [] (f acc pre) (by simp)
      rw [List.nil_append] at this
      rw [this, h1]
    · have e : pre ++ c :: W2 = (pre ++ [c]) ++ W2 := by simp
      rw [e, ih hW2 (pre ++ [c]) acc (by
        intro hm
        rcases List.mem_append.1 hm with hm | hm
        · exact hpre hm
        · exact hc (List.mem_singleton.1 hm).symm)]
      apply h2
      apply trimChars_append_right
      intro d hd
      rw [List.mem_singleton.1 hd]
      exact hW c (List.mem_cons_self _ _)

theorem foldl_splitChars_right {β : Type} (f : β → List Char → β)
    (h1 : ∀ acc, f acc [] = acc)
    (h2 : ∀ acc p q, trimChars p = trimChars q → f acc p = f acc q)
    (W : List Char) (hW : ∀ c ∈ W, isSpace c = true) (m pre : List Char) (acc : β)
    (hpre : '\n' ∉ pre) :
    (splitChars '\n' (pre ++ (m ++ W))).foldl f acc = (splitChars '\n' (pre ++ m)).foldl f acc := by
  induction m generalizing pre acc with
  | nil =>
    rw [List.nil_append, foldl_splitChars_space f h1 h2 W hW pre acc hpre, List.append_nil,
      splitChars_of_not_mem '\n' pre hpre]
    rfl
  | cons d m2 ih =>
    by_cases hd : d = '\n'
    · rw [hd, List.cons_append, splitChars_append_sep '\n' pre (m2 ++ W) hpre,
        splitChars_append_sep '\n' pre m2 hpre, List.foldl_cons, List.foldl_cons]
      have := ih [] (f acc pre) (by simp)
      rw [List.nil_append, List.nil_append] at this
      exact this
    · have e1 : pre ++ (d :: m2 ++ W) = (pre ++ [d]) ++ (m2 ++ W) := by simp
      have e2 : pre ++ d :: m2 = (pre ++ [d]) ++ m2 := by simp
      rw [e1, e2]
      apply ih
      intro hm
      rcases List.mem_append.1 hm with hm | hm
      · exact hpre hm
      · exact hd (List.mem_singleton.1 hm).symm

theorem foldl_splitChars_left {β : Type} (f : β → List Char → β)
    (h1 : ∀ acc, f acc [] = acc)
    (h2 : ∀ acc p q, trimChars p = trimChars q → f acc p = f acc q)
    (W : List Char) (hW : ∀ c ∈ W, isSpace c = true) (m : List Char) (acc : β) :
    (splitChars '\n' (W ++ m)).foldl f acc = (splitChars '\n' m).foldl f acc := by
  induction W with
  | nil => rfl
  | cons c W2 ih =>
    have hW2 : ∀ d ∈ W2, isSpace d = true := fun d hd => hW d (List.mem_cons_of_mem _ hd)
    rw [List.cons_append]
    by_cases hc : c = '\n'
    · simp only [splitChars, hc, if_true, List.foldl_cons, h1]
      exact ih hW2
    · cases hs : splitChars '\n' (W2 ++ m) with
      | nil => exact absurd hs (splitChars_ne_nil _ _)
      | cons piece pieces =>
        have hf : f acc (c :: piece) = f acc piece := by
          apply h2
          exact trimChars_append_left [c] piece (fun d hd => by
            rw [List.mem_singleton.1 hd]
            exact hW c (List.mem_cons_self _ _))
        simp only [splitChars, hc, if_false, hs, List.foldl_cons, hf]
        rw [← ih hW2, hs, List.foldl_cons]

/-- The lines of the trimmed text and the lines of the text itself give the same
result under a loop body that looks at the trimmed line only and skips blank
lines. -/
theorem foldl_splitChars_trimChars {β : Type} (f : β → List Char → β)
    (h1 : ∀ acc, f acc [] = acc)
    (h2 : ∀ acc p q, trimChars p = trimChars q → f acc p = f acc q)
    (l : List Char) (acc : β) :
    (splitChars '\n' (trimChars l)).foldl f acc = (splitChars '\n' l).foldl f acc := by
  obtain ⟨A, B, hl, hA, hB⟩ := trimChars_decomp l
  conv_rhs => rw [hl, List.append_assoc]
  rw [foldl_splitChars_left f h1 h2 A hA]
  have := foldl_splitChars_right f h1 h2 B hB (trimChars l) [] acc (by simp)
  rw [List.nil_append, List.nil_append] at this
  exact this.symm

/-! ### The loop body on one line -/

theorem collectContainer_blank (lower : Char → Char) (acc : List String) (line : String)
    (h : trimChars line.data = []) : collectContainer lower acc line = acc := by
  have e : TrimSpace line = "" := by
    show String.mk (trimChars line.data) = ""
    rw [h]
  unfold collectContainer
  simp [e]

theorem collectContainer_trim (lower : Char → Char) (acc : List String) (p q : List Char)
    (h : trimChars p = trimChars q) :
    collectContainer lower acc (String.mk p) = collectContainer lower acc (String.mk q) := by
  have e : TrimSpace (String.mk p) = TrimSpace (String.mk q) := congrArg String.mk h
  unfold collectContainer
  simp only [e]

theorem collectContainer_spec (lower : Char → Char) (hsp : ∀ c, isSpace (lower c) = isSpace c)
    (acc : List String) (line : String)
    (hfmt : TrimSpace line = "" ∨
      TrimSpace (String.mk (cutChars '\t' line.data).1) ≠ "") :
    collectContainer lower acc line = acc ++ (specContainerOfLine lower line).toList := by
  by_cases hT : trimChars line.data = []
  · have e : TrimSpace line = "" := by
      show String.mk (trimChars line.data) = ""
      rw [hT]
    rw [collectContainer_blank lower acc line hT]
    unfold specContainerOfLine
    simp [e]
  · have e : TrimSpace line ≠ "" := fun h => hT (congrArg String.data h)
    have hname : trimChars (cutChars '\t' line.data).1 ≠ [] := by
      rcases hfmt with h | h
      · exact absurd h e
      · intro h0
        apply h
        show String.mk (trimChars (cutChars '\t' line.data).1) = ""
        rw [h0]
    obtain ⟨k1, k2⟩ := cutChars_trimChars line.data hname
    have hv := containsChars_vllm_trimChars lower hsp ((cutChars '\t' line.data).2.getD [])
    have hdata : (TrimSpace line).data = trimChars line.data := rfl
    have hnameS : TrimSpace (String.mk (cutChars '\t' line.data).1) ≠ "" :=
      fun h => hname (congrArg String.data h)
    have hhead : TrimSpace ((SplitN2 (TrimSpace line) '\t').headD "") =
        TrimSpace (String.mk (cutChars '\t' line.data).1) := by
      unfold SplitN2
      rw [hdata]
      have : TrimSpace (String.mk (cutChars '\t' (trimChars line.data)).1) =
          TrimSpace (String.mk (cutChars '\t' line.data).1) := congrArg String.mk k1
      rw [← this]
      rcases cutChars '\t' (trimChars line.data) with ⟨b2, _ | a2⟩ <;> rfl
    have himage : Contains (if (SplitN2 (TrimSpace line) '\t').length > 1 then
          ToLower lower (TrimSpace ((SplitN2 (TrimSpace line) '\t').getD 1 "")) else "") "vllm" =
        Contains (ToLower lower (String.mk (((cutChars '\t' line.data).2).getD []))) "vllm" := by
      have h3 : Contains (ToLower lower (String.mk (((cutChars '\t' line.data).2).getD [])))
          "vllm" = containsChars "vllm".data
            ((trimChars ((cutChars '\t' (trimChars line.data)).2.getD [])).map lower) := by
        rw [k2, hv]
        rfl
      rw [h3]
      unfold SplitN2
      rw [hdata]
      rcases cutChars '\t' (trimChars line.data) with ⟨b2, _ | a2⟩ <;> rfl
    unfold collectContainer specContainerOfLine
    simp only [hhead, himage, if_neg e, if_neg hnameS]
    split <;> simp

theorem foldl_collectContainer_spec (lower : Char → Char)
    (hsp : ∀ c, isSpace (lower c) = isSpace c) (lines : List String) (acc : List String)
    (hfmt : ∀ line ∈ lines, TrimSpace line = "" ∨
      TrimSpace (String.mk (cutChars '\t' line.data).1) ≠ "") :
    lines.foldl (collectContainer lower) acc =
      acc ++ lines.filterMap (specContainerOfLine lower) := by
  induction lines generalizing acc with
  | nil => simp
  | cons line rest ih =>
    rw [List.foldl_cons, collectContainer_spec lower hsp acc line
      (hfmt line (List.mem_cons_self _ _)),
      ih _ (fun l hl => hfmt l (List.mem_cons_of_mem _ hl))]
    cases hs : specContainerOfLine lower line with
    | none => simp [List.filterMap_cons, hs]
    | some name => simp [List.filterMap_cons, hs]

theorem vllmContainerNames_eq_foldl (lower : Char → Char) (output : String) :
    vllmContainerNames lower output = (Split output '\n').foldl (collectContainer lower) [] := by
  unfold vllmContainerNames Split
  rw [List.foldl_map, List.foldl_map]
  exact foldl_splitChars_trimChars (fun acc p => collectContainer lower acc (String.mk p))
    (fun acc => collectContainer_blank lower acc (String.mk []) rfl)
    (fun acc p q h => collectContainer_trim lower acc p q h) output.data []

/-- C14: for every output of `docker ps` in the format `name<TAB>image`, that is,
every text in which each line that is not blank has a name field that is not
blank, the parse returns exactly the container names of those lines whose name
or image contains "vllm" without regard to case, in the order of the lines, each
name trimmed of surrounding white space, with blank lines skipped; a line that
matches neither in name nor in image is not returned. The lower-case table maps
white space to white space, as `unicode.ToLower` does. On the four-line input of
the test the parse yields `["vllm_node", "worker", "VLLM-extra"]`. -/
theorem vllmContainerNames_spec (lower : Char → Char) (output : String)
    (hsp : ∀ c, isSpace (lower c) = isSpace c)
    (hfmt : ∀ line ∈ Split output '\n', TrimSpace line = "" ∨
      TrimSpace (String.mk (cutChars '\t' line.data).1) ≠ "") :
    vllmContainerNames lower output = specContainerNames lower output ∧
    detectVLLMFallbackContainers lower (Except.ok output) =
      Except.ok (specContainerNames lower output) ∧
    vllmContainerNames lowerASCII testDockerPS = ["vllm_node", "worker", "VLLM-extra"] := by
  have h : vllmContainerNames lower output = specContainerNames lower output := by
    rw [vllmContainerNames_eq_foldl,
      foldl_collectContainer_spec lower hsp (Split output '\n') [] hfmt]
    rfl
  refine ⟨h, ?_, by decide⟩
  show Except.ok (vllmContainerNames lower output) = Except.ok (specContainerNames lower output)
  rw [h]

/-- C14, witness: the output of the repository's test is in the format, with a
blank last line; the parse returns the names of the first, third and fourth
line. -/
theorem vllmContainerNames_spec_witness :
    (∀ c, isSpace (lowerASCII c) = isSpace c) ∧
    (∀ line ∈ Split testDockerPS '\n', TrimSpace line = "" ∨
      TrimSpace (String.mk (cutChars '\t' line.data).1) ≠ "") ∧
    specContainerNames lowerASCII testDockerPS = ["vllm_node", "worker", "VLLM-extra"] ∧
    detectVLLMFallbackContainers lowerASCII (Except.ok testDockerPS) =
      Except.ok ["vllm_node", "worker", "VLLM-extra"] := by
  have hfmt : ∀ line ∈ Split testDockerPS '\n', TrimSpace line = "" ∨
      TrimSpace (String.mk (cutChars '\t' line.data).1) ≠ "" := by decide
  have h := vllmContainerNames_spec lowerASCII testDockerPS isSpace_lowerASCII hfmt
  have hs : specContainerNames lowerASCII testDockerPS =
      ["vllm_node", "worker", "VLLM-extra"] := by decide
  refine ⟨isSpace_lowerASCII, hfmt, hs, ?_⟩
  rw [h.2.1, hs]

end SwapLab
